import Mathlib

/-!
sproxy: framed pipe protocol and pipe pool.

A shallow embedding of `pkg/pipe/pipe.go` and `pkg/pipe/pool.go`.

Modelling conventions.

* A byte is a `Nat` (wire bytes are `< 256`); `byte(x)` and `uint8(x)` are `x % 256`.
* Go `int` values that the code subtracts from are `Int` (`Pipe.n`, the handshake's `n`).
* A `net.Conn` is a record: the bytes the peer has sent and that are still unread (end of
  stream follows them), the list of underlying `Write` calls issued so far, whether the
  transport refuses writes, and how many times `Close` was called on it.
* `conn.Read` may hand back any non-empty part of what is requested; the number it picks is
  the argument `k` of `Pipe.Read` (clamped into the legal range).
* Deadlines (`setDeadLine`) only decide when a blocked transport call gives up; they have no
  effect on the byte-level behaviour and are left out.
* A function that can panic, or whose loop is run on a budget, returns a `Run`.
* Pipes are heap objects: the pool stores pointers (`Nat`) into a `World`.
-/

namespace Sproxy

/-! ## Constants (pipe.go 20-44) -/

def bufSize : Nat := 16 * 1024
def HeaderLen : Nat := 4
def MagicLen : Nat := 4
def MaxLen : Nat := bufSize - HeaderLen - MagicLen

def Magic : List Nat := [0xff, 0x86, 0x13, 0x85]

def CmdClose : Nat := 0
def CmdConn : Nat := 1
def CmdTrans : Nat := 2
def CmdPing : Nat := 3
def CmdErr : Nat := 4

def Idle : Int := 0
def InUse : Int := 1
def Interrupted : Int := 2
def Closed : Int := 3

/-- Errors the pipe code returns or passes on. -/
inductive Err where
  | eof
  | unexpectedEOF
  | invalidMagic (got : List Nat)
  | interrupted
  | unknownCmd (cmd : Nat)
  | invalidHandshakeCmd (cmd : Nat)
  | invalidHandshakeHmac (expect got : List Nat)
  | transport
  deriving DecidableEq, Repr

/-- Outcome of running a Go function: it returned, it panicked, or the iteration budget of
the model ran out (shown not to happen for the budgets the entry points use). -/
inductive Run (α : Type) where
  | ret (a : α)
  | panic
  | exhausted
  deriving DecidableEq, Repr

/-! ## Slices -/

/-- Go `copy(dst, src)`: the first `min(len(dst), len(src))` bytes of `dst` are overwritten. -/
def copy (dst src : List Nat) : List Nat :=
  src.take dst.length ++ dst.drop src.length

/-- Go `copy(dst[lo:hi], src)` seen on the whole of `dst`. -/
def copySlice (dst : List Nat) (lo hi : Nat) (src : List Nat) : List Nat :=
  dst.take lo ++ copy ((dst.take hi).drop lo) src ++ dst.drop hi

/-- Go `copy(dst[lo:], src)` seen on the whole of `dst`. -/
def copyAt (dst : List Nat) (lo : Nat) (src : List Nat) : List Nat :=
  copySlice dst lo dst.length src

/-- Go `b[lo:hi]` for indices that are in range. -/
def slice (b : List Nat) (lo hi : Nat) : List Nat :=
  (b.take hi).drop lo

/-! ## The connection -/

structure Conn where
  /-- Bytes sent by the peer and not yet read; the stream ends after them. -/
  input : List Nat
  /-- Underlying write calls issued so far, oldest first. -/
  output : List (List Nat)
  /-- Whether the transport refuses writes. -/
  broken : Bool
  /-- Number of `Close` calls made on the connection. -/
  closes : Nat
  deriving DecidableEq, Repr

/-- The call `io.ReadFull(conn, buf[:k])`: the bytes stored and the error. -/
def Conn.readFull (c : Conn) (k : Nat) : Conn × List Nat × Option Err :=
  if k ≤ c.input.length then
    ({ c with input := c.input.drop k }, c.input.take k, none)
  else if c.input = [] then
    (c, [], some Err.eof)
  else
    ({ c with input := [] }, c.input, some Err.unexpectedEOF)

/-- The call `conn.Read(buf[:want])`, the transport choosing to hand back `k` bytes
(clamped to at least one and at most what is requested and available). -/
def Conn.read (c : Conn) (want k : Nat) : Conn × List Nat × Option Err :=
  if want = 0 then (c, [], none)
  else if c.input = [] then (c, [], some Err.eof)
  else
    let m := min (max k 1) (min want c.input.length)
    ({ c with input := c.input.drop m }, c.input.take m, none)

/-- The call `conn.Write(buf)`: one underlying write. -/
def Conn.write (c : Conn) (buf : List Nat) : Conn × Option Err :=
  if c.broken then (c, some Err.transport)
  else ({ c with output := c.output ++ [buf] }, none)

/-- The call `conn.Close()`. -/
def Conn.close (c : Conn) : Conn × Option Err :=
  ({ c with closes := c.closes + 1 }, none)

/-! ## The pipe (pipe.go 46-118) -/

structure Pipe where
  conn : Conn
  state : Int
  readBuf : List Nat
  writeBuf : List Nat
  n : Int
  lastActive : Int
  timeout : Int
  id : Nat
  term : Nat
  deriving DecidableEq, Repr

/-- The constructor `New(conn, timeout)` at time `now`, `scn` being the id counter after the
increment. -/
def New (conn : Conn) (timeout now : Int) (scn : Nat) : Pipe :=
  { conn := conn
    state := Idle
    readBuf := List.replicate bufSize 0
    writeBuf := copy (List.replicate bufSize 0) Magic
    n := 0
    lastActive := now
    timeout := timeout
    id := scn
    term := 0 }

def Pipe.checkMagic (p : Pipe) : Pipe × Option Err :=
  match p.conn.readFull Magic.length with
  | (c, data, some e) => ({ p with conn := c, readBuf := copy p.readBuf data }, some e)
  | (c, data, none) =>
    let p1 := { p with conn := c, readBuf := copy p.readBuf data }
    if Magic ≠ slice p1.readBuf 0 Magic.length then
      (p1, some (Err.invalidMagic (slice p1.readBuf 0 Magic.length)))
    else (p1, none)

def Pipe.interruptLocal (p : Pipe) : Pipe × Bool :=
  if p.state = InUse then ({ p with state := Interrupted }, true) else (p, false)

def Pipe.setState (p : Pipe) (state : Int) : Pipe :=
  { p with state := state }

def Pipe.Close (p : Pipe) : Pipe × Option Err :=
  if p.state = Closed then (p, none)
  else
    let p1 := p.setState Closed
    ({ p1 with conn := (p1.conn.close).1 }, (p1.conn.close).2)

def Pipe.reset (p : Pipe) : Pipe × Option Err :=
  ((({ p with term := (p.term + 1) % 256 } : Pipe).setState Idle), none)

/-! ## Framed read (pipe.go 120-173) -/

/-- What `Read` leaves behind: the pipe, the caller's buffer, and the two results. -/
structure ReadResult where
  p : Pipe
  b : List Nat
  n : Int
  err : Option Err
  deriving DecidableEq, Repr

/-- Lines 167-172 of `Read`: hand payload bytes of the frame in progress to the caller. -/
def Pipe.readPayload (p : Pipe) (b : List Nat) (k : Nat) : Run ReadResult :=
  let nBytes : Int := min (b.length : Int) p.n
  if nBytes < 0 then Run.panic
  else
    match p.conn.read nBytes.toNat k with
    | (c, data, err) =>
      Run.ret
        { p := { p with conn := c, n := p.n - (data.length : Int) }
          b := copy b data
          n := (data.length : Int)
          err := err }

/-- The loop `for p.n == 0` of `Read` followed by the payload read, on a budget of loop
iterations. -/
def Pipe.readFrames (b : List Nat) (k : Nat) : Nat → Pipe → Run ReadResult
  | 0, _ => Run.exhausted
  | fuel + 1, p =>
    if p.n = 0 then
      match p.checkMagic with
      | (p1, some e) => Run.ret { p := p1, b := b, n := 0, err := some e }
      | (p1, none) =>
        match p1.conn.readFull 4 with
        | (c, hdr, some e) =>
          Run.ret { p := { p1 with conn := c, readBuf := copy p1.readBuf hdr }, b := b, n := 0,
                    err := some e }
        | (c, hdr, none) =>
          let p2 : Pipe := { p1 with conn := c, readBuf := copy p1.readBuf hdr }
          let cmd := p2.readBuf.getD 0 0
          let term := p2.readBuf.getD 1 0
          let length := p2.readBuf.getD 2 0 * 256 + p2.readBuf.getD 3 0
          if cmd < CmdErr ∧ term ≠ p2.term then
            if length > 0 then
              match p2.conn.readFull (p2.readBuf.length - 4) with
              | (c3, d3, some e) =>
                Run.ret { p := { p2 with conn := c3, readBuf := copyAt p2.readBuf 4 d3 }, b := b,
                          n := 0, err := some e }
              | (c3, d3, none) =>
                Pipe.readFrames b k fuel { p2 with conn := c3, readBuf := copyAt p2.readBuf 4 d3 }
            else Pipe.readFrames b k fuel p2
          else if cmd = CmdClose then
            Run.ret { p := p2, b := b, n := 0, err := some Err.interrupted }
          else if cmd = CmdConn then
            if 4 + length > p2.readBuf.length then Run.panic
            else
              match p2.conn.readFull length with
              | (c3, d3, some e) =>
                Run.ret { p := { p2 with conn := c3,
                                         readBuf := copySlice p2.readBuf 4 (4 + length) d3 },
                          b := b, n := 0, err := some e }
              | (c3, d3, none) =>
                let p3 : Pipe :=
                  { p2 with conn := c3, readBuf := copySlice p2.readBuf 4 (4 + length) d3 }
                Run.ret { p := p3, b := copy b (slice p3.readBuf 0 (4 + length)),
                          n := ((4 + length : Nat) : Int), err := none }
          else if cmd = CmdTrans then
            Pipe.readFrames b k fuel { p2 with n := (length : Int) }
          else if cmd = CmdPing then
            Pipe.readFrames b k fuel p2
          else
            Run.ret { p := p2, b := b, n := 0, err := some (Err.unknownCmd cmd) }
    else p.readPayload b k

/-- The method `Read(b)`, the transport handing back `k` payload bytes. Every iteration of the
loop that goes round again has consumed at least 8 bytes, so the budget is never used up. -/
def Pipe.Read (p : Pipe) (b : List Nat) (k : Nat) : Run ReadResult :=
  Pipe.readFrames b k (p.conn.input.length + 1) p

/-! ## Framed write (pipe.go 175-194) -/

/-- The loop `for n > 0` of `Write`, on a budget of iterations; `pos` and `n` are the
loop variables. Result: the pipe, the returned count and the error. -/
def Pipe.writeChunks (b : List Nat) : Nat → Pipe → Nat → Nat → Run (Pipe × Nat × Option Err)
  | 0, p, _, n => if n > 0 then Run.exhausted else Run.ret (p, b.length, none)
  | fuel + 1, p, pos, n =>
    if n > 0 then
      let m := Magic.length
      let nBytes := min n MaxLen
      let wb1 := copyAt p.writeBuf m [CmdTrans, p.term, (nBytes >>> 8) % 256, nBytes % 256]
      let wb2 := copyAt wb1 (m + 4) (slice b pos (pos + nBytes))
      match p.conn.write (slice wb2 0 (m + 4 + nBytes)) with
      | (c, some e) => Run.ret ({ p with conn := c, writeBuf := wb2 }, 0, some e)
      | (c, none) =>
        Pipe.writeChunks b fuel { p with conn := c, writeBuf := wb2 } (pos + nBytes) (n - nBytes)
    else Run.ret (p, b.length, none)

/-- The method `Write(b)`. Every iteration writes at least one byte of `b`, so `len(b)`
iterations are enough. -/
def Pipe.Write (p : Pipe) (b : List Nat) : Run (Pipe × Nat × Option Err) :=
  Pipe.writeChunks b b.length p 0 b.length

/-! ## Control frames and handshake (pipe.go 262-330) -/

def Pipe.writeCmd (p : Pipe) (b : List Nat) : Pipe × Option Err :=
  let m := Magic.length
  let buf := List.replicate (m + b.length) 0
  let buf1 := copySlice buf 0 m Magic
  let buf2 := copyAt buf1 m b
  ({ p with conn := (p.conn.write buf2).1 }, (p.conn.write buf2).2)

/-- The method `HandShake(addr, secret)`; `sha` stands for `sha256.Sum256`. -/
def Pipe.HandShake (sha : List Nat → List Nat) (p : Pipe) (addr secret : List Nat) :
    Run (Pipe × Option Err) :=
  let p0 := p.setState InUse
  let buf := List.replicate 1024 0
  let addrLen := addr.length
  let headerLen := addrLen + 32
  let n := 4 + addrLen
  let buf := buf.set 0 CmdConn
  let buf := buf.set 1 p0.term
  let buf := buf.set 2 ((headerLen >>> 8) % 256)
  let buf := buf.set 3 (headerLen % 256)
  let buf := copyAt buf 4 addr
  -- buf[:n]
  if n > 1024 then Run.panic
  else
    let msg := slice buf 0 n ++ secret
    -- append writes in place when the capacity of buf allows it
    let buf := if n + secret.length ≤ 1024 then copyAt buf n secret else buf
    let hmac := sha msg
    let buf := copyAt buf n hmac
    -- buf[:n+32]
    if n + 32 > 1024 then Run.panic
    else Run.ret (p0.writeCmd (slice buf 0 (n + 32)))

/-- The method `WaitForHandShake(secret)`; `sha` stands for `sha256.Sum256`, `k` is the
transport's choice should `Read` reach a payload read. Result: pipe, address, error. -/
def Pipe.WaitForHandShake (sha : List Nat → List Nat) (p : Pipe) (secret : List Nat) (k : Nat) :
    Run (Pipe × List Nat × Option Err) :=
  let p0 := p.setState InUse
  let buf := List.replicate 1024 0
  match p0.Read buf k with
  | Run.panic => Run.panic
  | Run.exhausted => Run.exhausted
  | Run.ret r =>
    let buf := r.b
    if r.err ≠ none ∨ r.n < 4 then Run.ret (r.p, [], r.err)
    else if buf.getD 0 0 ≠ CmdConn then
      Run.ret (r.p, [], some (Err.invalidHandshakeCmd (buf.getD 0 0)))
    else
      let length : Int := 256 * (buf.getD 2 0 : Int) + (buf.getD 3 0 : Int)
      let n : Int := 4 + length - 32
      -- make([]byte, n+len(secret))
      if n + (secret.length : Int) < 0 then Run.panic
      -- msg[:n], buf[:n]
      else if n < 0 ∨ n > 1024 then Run.panic
      else
        let msg := List.replicate (n.toNat + secret.length) 0
        let msg := copySlice msg 0 n.toNat (slice buf 0 n.toNat)
        let msg := copySlice msg n.toNat (n.toNat + secret.length) secret
        let hmac := sha msg
        -- buf[n:n+32]
        if n + 32 > 1024 then Run.panic
        else if hmac ≠ slice buf n.toNat (n.toNat + 32) then
          Run.ret (r.p, [], some (Err.invalidHandshakeHmac hmac (slice buf n.toNat (n.toNat + 32))))
        -- buf[4:n]
        else if n < 4 then Run.panic
        else Run.ret (r.p, slice buf 4 n.toNat, none)

def Pipe.TryInterruptRemote (p : Pipe) : Pipe × Option Err :=
  p.writeCmd [CmdClose, p.term, 0, 0]

def Pipe.TryPing (p : Pipe) : Pipe × Option Err :=
  p.writeCmd [CmdPing, p.term, 0, 0]

/-! ## The pool (pool.go) -/

/-- The heap of pipes the pool's pointers refer to, and a count of the calls of the pool's
factory made so far. -/
structure World where
  heap : Nat → Pipe
  calls : Nat

/-- The call `p.Close()` on the pipe `e` points to. -/
def World.close (w : World) (e : Nat) : World :=
  { w with heap := Function.update w.heap e ((w.heap e).Close).1 }

structure Pool where
  /-- The list of pipe pointers, front first. -/
  l : List Nat
  maxAge : Int
  maxSize : Int
  lowWarterMark : Int
  gcInerval : Int
  /-- The factory: world after the call, the pointer and the error it returns. -/
  New : World → World × Nat × Option Err

/-- The constructor `NewPool` (the GC loop it starts is a separate thread of control). -/
def NewPool (maxSize maxAge : Int) (newFunc : World → World × Nat × Option Err) : Pool :=
  { l := []
    maxAge := maxAge
    maxSize := maxSize
    lowWarterMark := max 8 (maxSize >>> 1)
    gcInerval := maxAge >>> 2
    New := newFunc }

def Pool.Len (pool : Pool) : Int := (pool.l.length : Int)

/-- The loop of `cleanup` on the list, `r` being the counter: remaining list, world, count. -/
def Pool.cleanupLoop (maxAge now : Int) : List Nat → World → Nat → List Nat × World × Nat
  | [], w, r => ([], w, r)
  | e :: rest, w, r =>
    -- pool.l.Remove(elem) comes before the age test
    if now - (w.heap e).lastActive < maxAge then (rest, w, r)
    else Pool.cleanupLoop maxAge now rest (w.close e) (r + 1)

/-- The method `cleanup()` at time `now`. -/
def Pool.cleanup (pool : Pool) (w : World) (now : Int) : Pool × World × Nat :=
  ({ pool with l := (Pool.cleanupLoop pool.maxAge now pool.l w 0).1 },
   (Pool.cleanupLoop pool.maxAge now pool.l w 0).2.1,
   (Pool.cleanupLoop pool.maxAge now pool.l w 0).2.2)

/-- The call `pool.New()`, counted. -/
def Pool.callNew (pool : Pool) (w : World) : World × Nat × Option Err :=
  pool.New { w with calls := w.calls + 1 }

/-- The method `Get()` at time `now`: pool, world, returned pointer and error. -/
def Pool.Get (pool : Pool) (w : World) (now : Int) : Pool × World × Nat × Option Err :=
  match pool.cleanup w now with
  | (pool1, w1, _) =>
    match pool1.l with
    | e :: _ => (pool1, w1, e, none)
    | [] => (pool1, pool1.callNew w1)

/-- The loop `for pool.l.Len() >= pool.maxSize` of `Put`; `Front()` of an empty list is nil
and dereferencing it panics. -/
def Pool.evictLoop (maxSize : Int) : List Nat → World → Run (List Nat × World)
  | [], w => if (0 : Int) ≥ maxSize then Run.panic else Run.ret ([], w)
  | e :: rest, w =>
    if (((e :: rest).length : Nat) : Int) ≥ maxSize then Pool.evictLoop maxSize rest (w.close e)
    else Run.ret (e :: rest, w)

/-- The method `Put(p)` at time `now`. -/
def Pool.Put (pool : Pool) (w : World) (p : Nat) (now : Int) : Run (Pool × World) :=
  match Pool.evictLoop pool.maxSize pool.l w with
  | Run.ret (l1, w1) =>
    Run.ret ({ pool with l := l1 ++ [p] },
             { w1 with heap := Function.update w1.heap p { w1.heap p with lastActive := now } })
  | Run.panic => Run.panic
  | Run.exhausted => Run.exhausted

/-- The method `gc()` up to the point where the producers are spawned: pool, world, the number
of pipes removed and the number of producers to spawn. -/
def Pool.gc (pool : Pool) (w : World) (now : Int) : Pool × World × Nat × Int :=
  match pool.cleanup w now with
  | (pool1, w1, r) => (pool1, w1, r, max 0 (pool1.lowWarterMark - pool1.Len))

/-! ## The client dispatcher (client.go 70-89) -/

/-- The part of `handleConn` that acquires a pipe: the loop `Get`, `TryPing` (on failure
`Close` and try again), then `HandShake` (on failure `Close`). The result is the pointer of
the pipe the dispatcher goes on to bind, if any. The loop is run on a budget of rounds. -/
def Client.acquire (sha : List Nat → List Nat) (addr secret : List Nat) (now : Int) :
    Nat → Pool → World → Run (Pool × World × Option Nat)
  | 0, _, _ => Run.exhausted
  | fuel + 1, pool, w =>
    match pool.Get w now with
    | (pool1, w1, _, some _) => Run.ret (pool1, w1, none)
    | (pool1, w1, p, none) =>
      match (w1.heap p).TryPing with
      | (p1, some _) =>
        Client.acquire sha addr secret now fuel pool1
          ({ w1 with heap := Function.update w1.heap p p1 }.close p)
      | (p1, none) =>
        match p1.HandShake sha addr secret with
        | Run.ret (p2, some _) =>
          Run.ret (pool1, { w1 with heap := Function.update w1.heap p p2 }.close p, none)
        | Run.ret (p2, none) =>
          Run.ret (pool1, { w1 with heap := Function.update w1.heap p p2 }, some p)
        | Run.panic => Run.panic
        | Run.exhausted => Run.exhausted

/-! ## Specification vocabulary -/

/-- Closing the pipes of a list one after the other. -/
def World.closeAll (w : World) (es : List Nat) : World :=
  es.foldl World.close w

/-- Consecutive `Put`s, one per entry (pointer, time of the call). -/
def Pool.putAll (pool : Pool) (w : World) : List (Nat × Int) → Run (Pool × World)
  | [] => Run.ret (pool, w)
  | (p, now) :: rest =>
    match pool.Put w p now with
    | Run.ret (pool1, w1) => Pool.putAll pool1 w1 rest
    | Run.panic => Run.panic
    | Run.exhausted => Run.exhausted

/-- A world of fresh pipes: pointer `i` holds the pipe `New` made with id `i` at time 0. -/
def freshWorld : World :=
  { heap := fun i => New ⟨[], [], false, 0⟩ 0 0 i, calls := 0 }

/-- A factory that always succeeds and returns the pointer `1000 + calls`, the call itself
counted. -/
def dial (w : World) : World × Nat × Option Err :=
  (w, 1000 + w.calls, none)


/-- The struct invariant every pipe made by `New` satisfies: both buffers have `bufSize`
bytes and `writeBuf` starts with the magic. -/
def Pipe.WellFormed (p : Pipe) : Prop :=
  p.readBuf.length = bufSize ∧ p.writeBuf.length = bufSize ∧ slice p.writeBuf 0 4 = Magic

/-- The wire image of one frame. -/
def frame (cmd term : Nat) (payload : List Nat) : List Nat :=
  Magic ++ [cmd, term, (payload.length >>> 8) % 256, payload.length % 256] ++ payload

/-- The `CmdTrans` frames carrying `b` in pieces of `MaxLen` bytes, on a budget of pieces. -/
def transFrames (term : Nat) : Nat → List Nat → List (List Nat)
  | 0, _ => []
  | fuel + 1, b =>
    if b = [] then []
    else frame CmdTrans term (b.take MaxLen) :: transFrames term fuel (b.drop MaxLen)

/-- Successive `Read`s, one per entry (length of the caller's buffer, transport's choice),
stopping at the first `Read` that does not return a nil error: the concatenation of the
bytes the `Read`s returned, and whether a `Read` failed. -/
def Pipe.readAll : Pipe → List (Nat × Nat) → List Nat × Bool
  | _, [] => ([], false)
  | p, (len, k) :: rest =>
    match p.Read (List.replicate len 0) k with
    | Run.ret r =>
      if r.err = none then
        (slice r.b 0 r.n.toNat ++ (Pipe.readAll r.p rest).1, (Pipe.readAll r.p rest).2)
      else (slice r.b 0 r.n.toNat, true)
    | _ => ([], true)

/-- The pipe after `Read` has taken the magic and the 4-byte header `hdr` off the input,
`rest` being what follows them. -/
def Pipe.afterHeader (p : Pipe) (hdr rest : List Nat) : Pipe :=
  { p with conn := { p.conn with input := rest }, readBuf := hdr ++ p.readBuf.drop 4 }

/-- The reader's view while the frames of a `Write` are arriving: `R` is the data not yet
handed to the caller; its first `p.n` bytes are the rest of the frame in progress and what
follows them on the wire are the `CmdTrans` frames of the remainder. -/
def Pipe.Receiving (p : Pipe) (t : Nat) (R : List Nat) : Prop :=
  ∃ (pending B : List Nat) (fuel : Nat),
    R = pending ++ B ∧ p.n = (pending.length : Int) ∧
    p.conn.input = pending ++ (transFrames t fuel B).flatten ∧ B.length ≤ fuel ∧
    p.term = t ∧ p.readBuf.length = bufSize

/-- The pipe `p` with `bytes` as the unread input of its connection. -/
def Pipe.withInput (p : Pipe) (bytes : List Nat) : Pipe :=
  { p with conn := { p.conn with input := bytes } }

/-- The pipe after `n` consecutive calls of `reset`. -/
def Pipe.resetN : Nat → Pipe → Pipe
  | 0, p => p
  | n + 1, p => Pipe.resetN n (p.reset).1

/-- Two pipes that differ at most in the contents of the scratch buffer `readBuf`. -/
def Pipe.SameUpToReadBuf (p q : Pipe) : Prop :=
  q = { p with readBuf := q.readBuf } ∧ q.readBuf.length = p.readBuf.length

/-- Two outcomes of `Read` with the same returned count, error and caller buffer, whose pipes
differ at most in the contents of the scratch buffer. -/
def Run.SameUpToReadBuf : Run ReadResult → Run ReadResult → Prop
  | Run.ret r, Run.ret s => s.b = r.b ∧ s.n = r.n ∧ s.err = r.err ∧ r.p.SameUpToReadBuf s.p
  | Run.panic, Run.panic => True
  | Run.exhausted, Run.exhausted => True
  | _, _ => False

/-- Two outcomes of `WaitForHandShake` with the same address and error, whose pipes differ at
most in the contents of the scratch buffer. -/
def Run.SameHandShake :
    Run (Pipe × List Nat × Option Err) → Run (Pipe × List Nat × Option Err) → Prop
  | Run.ret r, Run.ret s => s.2 = r.2 ∧ r.1.SameUpToReadBuf s.1
  | Run.panic, Run.panic => True
  | Run.exhausted, Run.exhausted => True
  | _, _ => False

/-! ## Error classification and the end of `Bind` (pipe.go 242-260, 352-361) -/

/-- A Go `error` value: a `*net.OpError` (its `Op`, the `String()` of its `Source` and `Addr`,
either of which may be nil, and the message of its `Err`), or any other error, given by the
text `Error()` returns. -/
inductive GoError where
  | opError (op : String) (source addr : Option String) (err : String)
  | other (msg : String)
  deriving DecidableEq, Repr

def ErrInterrupted : GoError := GoError.other "pipe interrupted"
def ErrPipe : GoError := GoError.other "pipe closed"

/-- Go `strings.ContainsAny(s, chars)`: some code point of `chars` occurs in `s`. -/
def containsAny (s chars : String) : Bool :=
  s.toList.any (fun c => chars.toList.contains c)

/-- The text `Error()` returns for the errors that are not a `*net.OpError`. -/
def GoError.Error : GoError → String
  | GoError.opError op _ _ err => op ++ ": " ++ err
  | GoError.other msg => msg

/-- The method `IsPipeErr(err)`, `localAddr` being `p.conn.LocalAddr().String()`; calling
`String()` on a nil `Source` or `Addr` panics. -/
def IsPipeErr (localAddr : String) : Option GoError → Run Bool
  | none => Run.ret false
  | some (GoError.opError _ source addr _) =>
    match source with
    | none => Run.panic
    | some s =>
      if localAddr = s then Run.ret true
      else
        match addr with
        | none => Run.panic
        | some a => Run.ret (decide (localAddr = a))
  | some (GoError.other msg) => Run.ret (containsAny msg (GoError.Error ErrPipe))

/-- Lines 256-259 of `Bind`: what `Bind` returns once both loops have ended with the given
errors, and the pipe it leaves. -/
def Pipe.bindResolve (p : Pipe) (localAddr : String) (readLoopErr writeLoopErr : Option GoError) :
    Run (Pipe × Option GoError) :=
  match IsPipeErr localAddr readLoopErr with
  | Run.ret true => Run.ret (p, some ErrPipe)
  | Run.ret false =>
    match IsPipeErr localAddr writeLoopErr with
    | Run.ret true => Run.ret (p, some ErrPipe)
    | Run.ret false => Run.ret ((p.reset).1, none)
    | Run.panic => Run.panic
    | Run.exhausted => Run.exhausted
  | Run.panic => Run.panic
  | Run.exhausted => Run.exhausted

/-! ## Reachable pipes and the ways `Read` ends -/

/-- What `Read` relies on: the count `n` of payload bytes still due in the frame in progress
is between 0 and 65535, the scratch buffer has `bufSize` bytes, and the unread input is a
list of bytes. -/
def Pipe.ReadInv (p : Pipe) : Prop :=
  0 ≤ p.n ∧ p.n ≤ 65535 ∧ p.readBuf.length = bufSize ∧ ∀ x ∈ p.conn.input, x < 256

/-- The pipes the package can bring about: `New` on a connection whose unread input is a list
of bytes, then any of the methods of `Pipe` in any order, the unread input being replaced by
any list of bytes at any moment. -/
inductive Pipe.Reachable : Pipe → Prop where
  | new (conn : Conn) (timeout now : Int) (scn : Nat) :
      (∀ x ∈ conn.input, x < 256) → Pipe.Reachable (New conn timeout now scn)
  | input (p : Pipe) (bytes : List Nat) :
      Pipe.Reachable p → (∀ x ∈ bytes, x < 256) → Pipe.Reachable (p.withInput bytes)
  | read (p : Pipe) (b : List Nat) (k : Nat) (r : ReadResult) :
      Pipe.Reachable p → p.Read b k = Run.ret r → Pipe.Reachable r.p
  | write (p : Pipe) (b : List Nat) (r : Pipe × Nat × Option Err) :
      Pipe.Reachable p → p.Write b = Run.ret r → Pipe.Reachable r.1
  | handShake (sha : List Nat → List Nat) (p : Pipe) (addr secret : List Nat)
      (r : Pipe × Option Err) :
      Pipe.Reachable p → Pipe.HandShake sha p addr secret = Run.ret r → Pipe.Reachable r.1
  | waitForHandShake (sha : List Nat → List Nat) (p : Pipe) (secret : List Nat) (k : Nat)
      (r : Pipe × List Nat × Option Err) :
      Pipe.Reachable p → Pipe.WaitForHandShake sha p secret k = Run.ret r → Pipe.Reachable r.1
  | tryInterruptRemote (p : Pipe) : Pipe.Reachable p → Pipe.Reachable (p.TryInterruptRemote).1
  | tryPing (p : Pipe) : Pipe.Reachable p → Pipe.Reachable (p.TryPing).1
  | interruptLocal (p : Pipe) : Pipe.Reachable p → Pipe.Reachable (p.interruptLocal).1
  | reset (p : Pipe) : Pipe.Reachable p → Pipe.Reachable (p.reset).1
  | close (p : Pipe) : Pipe.Reachable p → Pipe.Reachable (p.Close).1

/-- The three ways a `Read(b)` begun on the pipe `p` can have ended in `r`.

* It left the frame loop with an error: it began on a frame boundary, returns no byte, leaves
  the caller's buffer alone and leaves `n` at 0.
* It returned a whole `CmdConn` frame of the pipe's term, header and `body`, found after the
  skipped bytes `pre`; it began on a frame boundary and leaves `n` at 0.
* It reached the payload read with `pending` bytes of one `CmdTrans` frame due, either the
  frame that was in progress when it began (`n = pending`, nothing skipped) or a frame of the
  pipe's term whose header `(CmdTrans, term, hi, lo)` ends the skipped bytes; the bytes `data`
  it hands over are the next bytes of the input, at most `min(len(b), pending)` of them, and
  `n` is `pending` less their number. The payload read fails only with an end of stream, no
  byte handed over. -/
def Pipe.ReadExit (p : Pipe) (b : List Nat) (r : ReadResult) : Prop :=
  (p.n = 0 ∧ r.p.n = 0 ∧ r.n = 0 ∧ r.b = b ∧ r.err ≠ none) ∨
  (p.n = 0 ∧ r.p.n = 0 ∧ r.err = none ∧
    ∃ (pre body : List Nat) (hi lo : Nat),
      p.conn.input = pre ++ (Magic ++ [CmdConn, p.term, hi, lo] ++ body) ++ r.p.conn.input ∧
      body.length = hi * 256 + lo ∧ r.n = ((4 + body.length : Nat) : Int)) ∨
  (∃ (pending : Nat) (skipped data : List Nat),
    p.conn.input = skipped ++ data ++ r.p.conn.input ∧
    0 < pending ∧ pending ≤ 65535 ∧
    ((p.n = (pending : Int) ∧ skipped = []) ∨
      (p.n = 0 ∧ ∃ (pre : List Nat) (hi lo : Nat),
        skipped = pre ++ (Magic ++ [CmdTrans, p.term, hi, lo]) ∧ pending = hi * 256 + lo)) ∧
    r.n = (data.length : Int) ∧ data.length ≤ min b.length pending ∧
    r.b = copy b data ∧ r.p.n = (pending : Int) - (data.length : Int) ∧
    (r.err = none ∨ (r.err = some Err.eof ∧ data = [])))

end Sproxy

/-! ## Theorems -/

namespace Sproxy

theorem copy_of_le (dst src : List Nat) (h : src.length ≤ dst.length) :
    copy dst src = src ++ dst.drop src.length := by
  simp [copy, List.take_of_length_le h]

theorem copy_length (dst src : List Nat) : (copy dst src).length = dst.length := by
  simp [copy]; omega

theorem copyAt_of_le (dst : List Nat) (lo : Nat) (src : List Nat)
    (h : lo + src.length ≤ dst.length) :
    copyAt dst lo src = dst.take lo ++ src ++ dst.drop (lo + src.length) := by
  have h1 : copy (dst.drop lo) src = src ++ (dst.drop lo).drop src.length :=
    copy_of_le _ _ (by simp; omega)
  simp [copyAt, copySlice, h1, Nat.add_comm]

theorem copyAt_length (dst : List Nat) (lo : Nat) (src : List Nat) :
    (copyAt dst lo src).length = dst.length := by
  simp [copyAt, copySlice, copy_length]; omega

theorem slice_eq_take_drop (b : List Nat) (lo n : Nat) :
    slice b lo (lo + n) = (b.drop lo).take n := by
  simp [slice, List.take_drop]

theorem take_min_length (l : List Nat) (m : Nat) : l.take (min l.length m) = l.take m := by
  rcases Nat.le_total l.length m with h | h
  · rw [Nat.min_eq_left h, List.take_length, List.take_of_length_le h]
  · rw [Nat.min_eq_right h]

theorem drop_min_length (l : List Nat) (m : Nat) : l.drop (min l.length m) = l.drop m := by
  rcases Nat.le_total l.length m with h | h
  · rw [Nat.min_eq_left h, List.drop_length, List.drop_of_length_le h]
  · rw [Nat.min_eq_right h]

/-- One iteration of the write loop emits the frame of the next piece. -/
theorem write_iter_buf (wb b : List Nat) (t pos nBytes : Nat) (hl : wb.length = bufSize)
    (hm : slice wb 0 4 = Magic) (hn : nBytes ≤ MaxLen) (hp : pos + nBytes ≤ b.length) :
    copyAt (copyAt wb 4 [CmdTrans, t, (nBytes >>> 8) % 256, nBytes % 256]) (4 + 4)
        (slice b pos (pos + nBytes)) =
      frame CmdTrans t ((b.drop pos).take nBytes) ++ wb.drop (8 + nBytes) := by
  have hlen : ((b.drop pos).take nBytes).length = nBytes := by
    simp; omega
  have hM : MaxLen = 16376 := by decide
  have hB : bufSize = 16384 := by decide
  have hm' : wb.take 4 = Magic := by simpa [slice] using hm
  rw [slice_eq_take_drop]
  rw [copyAt_of_le wb 4 _ (by simp; omega)]
  rw [copyAt_of_le _ (4 + 4) _ (by simp [hlen]; omega)]
  rw [hm', hlen]
  have h1 : List.take (4 + 4) (Magic ++ [CmdTrans, t, (nBytes >>> 8) % 256, nBytes % 256] ++
      List.drop (4 + [CmdTrans, t, (nBytes >>> 8) % 256, nBytes % 256].length) wb) =
      Magic ++ [CmdTrans, t, (nBytes >>> 8) % 256, nBytes % 256] :=
    List.take_left' (by simp [Magic])
  have h2 : List.drop (4 + 4 + nBytes) (Magic ++ [CmdTrans, t, (nBytes >>> 8) % 256, nBytes % 256] ++
      List.drop (4 + [CmdTrans, t, (nBytes >>> 8) % 256, nBytes % 256].length) wb) =
      wb.drop (8 + nBytes) := by
    have : 4 + 4 + nBytes = (Magic ++ [CmdTrans, t, (nBytes >>> 8) % 256, nBytes % 256]).length
        + nBytes := by simp [Magic]
    rw [this, ← List.drop_drop, List.drop_left]
    simp [Nat.add_comm, Magic]
  rw [h1, h2]
  simp [frame, hlen]

theorem frame_length (c t : Nat) (x : List Nat) : (frame c t x).length = 8 + x.length := by
  simp [frame, Magic]; omega

theorem write_iter_emits (wb b : List Nat) (t pos nBytes : Nat) (hl : wb.length = bufSize)
    (hm : slice wb 0 4 = Magic) (hn : nBytes ≤ MaxLen) (hp : pos + nBytes ≤ b.length) :
    slice (copyAt (copyAt wb 4 [CmdTrans, t, (nBytes >>> 8) % 256, nBytes % 256]) (4 + 4)
        (slice b pos (pos + nBytes))) 0 (4 + 4 + nBytes) =
      frame CmdTrans t ((b.drop pos).take nBytes) := by
  rw [write_iter_buf wb b t pos nBytes hl hm hn hp]
  have hlen : ((b.drop pos).take nBytes).length = nBytes := by
    simp; omega
  simp only [slice, List.drop_zero]
  exact List.take_left' (by rw [frame_length, hlen])

theorem write_iter_magic (wb b : List Nat) (t pos nBytes : Nat) (hl : wb.length = bufSize)
    (hm : slice wb 0 4 = Magic) (hn : nBytes ≤ MaxLen) (hp : pos + nBytes ≤ b.length) :
    slice (copyAt (copyAt wb 4 [CmdTrans, t, (nBytes >>> 8) % 256, nBytes % 256]) (4 + 4)
        (slice b pos (pos + nBytes))) 0 4 = Magic := by
  rw [write_iter_buf wb b t pos nBytes hl hm hn hp]
  simp [slice, frame, Magic]


theorem readFull_append (c : Conn) (a rest : List Nat) (h : c.input = a ++ rest) :
    c.readFull a.length = ({ c with input := rest }, a, none) := by
  simp [Conn.readFull, h]

theorem checkMagic_ok (p : Pipe) (rest : List Nat) (hb : 4 ≤ p.readBuf.length)
    (h : p.conn.input = Magic ++ rest) :
    p.checkMagic = ({ p with conn := { p.conn with input := rest },
                             readBuf := Magic ++ p.readBuf.drop 4 }, none) := by
  have h1 := readFull_append p.conn Magic rest h
  have h2 : copy p.readBuf Magic = Magic ++ p.readBuf.drop 4 :=
    copy_of_le _ _ (by simpa [Magic] using hb)
  simp only [Pipe.checkMagic, h1, h2]
  simp [slice, Magic]

theorem readFrames_step (p : Pipe) (b : List Nat) (k fuel c t hi lo : Nat) (rest : List Nat)
    (hn : p.n = 0) (hb : 4 ≤ p.readBuf.length)
    (h : p.conn.input = Magic ++ [c, t, hi, lo] ++ rest) :
    Pipe.readFrames b k (fuel + 1) p =
      (let p2 := p.afterHeader [c, t, hi, lo] rest
       let length := hi * 256 + lo
       if c < CmdErr ∧ t ≠ p.term then
         if length > 0 then
           match p2.conn.readFull (p2.readBuf.length - 4) with
           | (c3, d3, some e) =>
             Run.ret { p := { p2 with conn := c3, readBuf := copyAt p2.readBuf 4 d3 }, b := b,
                       n := 0, err := some e }
           | (c3, d3, none) =>
             Pipe.readFrames b k fuel { p2 with conn := c3, readBuf := copyAt p2.readBuf 4 d3 }
         else Pipe.readFrames b k fuel p2
       else if c = CmdClose then
         Run.ret { p := p2, b := b, n := 0, err := some Err.interrupted }
       else if c = CmdConn then
         if 4 + length > p2.readBuf.length then Run.panic
         else
           match p2.conn.readFull length with
           | (c3, d3, some e) =>
             Run.ret { p := { p2 with conn := c3,
                                      readBuf := copySlice p2.readBuf 4 (4 + length) d3 },
                       b := b, n := 0, err := some e }
           | (c3, d3, none) =>
             let p3 : Pipe :=
               { p2 with conn := c3, readBuf := copySlice p2.readBuf 4 (4 + length) d3 }
             Run.ret { p := p3, b := copy b (slice p3.readBuf 0 (4 + length)),
                       n := ((4 + length : Nat) : Int), err := none }
       else if c = CmdTrans then
         Pipe.readFrames b k fuel { p2 with n := (length : Int) }
       else if c = CmdPing then
         Pipe.readFrames b k fuel p2
       else
         Run.ret { p := p2, b := b, n := 0, err := some (Err.unknownCmd c) }) := by
  have hm := checkMagic_ok p ([c, t, hi, lo] ++ rest) hb (by simpa using h)
  rw [Pipe.readFrames]
  simp only [hn, if_true, hm]
  have h1 := readFull_append { p.conn with input := [c, t, hi, lo] ++ rest } [c, t, hi, lo] rest rfl
  simp only [List.length_cons, List.length_nil] at h1
  simp only [Nat.reduceAdd] at h1
  simp only [h1]
  have h2 : copy (Magic ++ p.readBuf.drop 4) [c, t, hi, lo] = [c, t, hi, lo] ++ p.readBuf.drop 4 := by
    rw [copy_of_le _ _ (by simp [Magic])]
    simp [Magic]
  simp only [h2, Pipe.afterHeader]
  simp only [Pipe.afterHeader, List.getD_cons_zero, List.getD_cons_succ, List.cons_append,
    List.nil_append, hn]

theorem transFrames_succ_of_ne (t fuel : Nat) (b : List Nat) (h : b ≠ []) :
    transFrames t (fuel + 1) b =
      frame CmdTrans t (b.take MaxLen) :: transFrames t fuel (b.drop MaxLen) := by
  simp [transFrames, h]

theorem transFrames_nil (t fuel : Nat) : transFrames t fuel [] = [] := by
  cases fuel <;> simp [transFrames]

/-- The write loop emits the frames of what is left of `b` and keeps the pipe well formed. -/
theorem writeChunks_spec (b : List Nat) : ∀ (fuel : Nat) (p : Pipe) (pos n : Nat),
    p.WellFormed → p.conn.broken = false → pos + n = b.length → n ≤ fuel →
    ∃ p', Pipe.writeChunks b fuel p pos n = Run.ret (p', b.length, none) ∧
      p'.conn = { p.conn with output := p.conn.output ++ transFrames p.term fuel (b.drop pos) } ∧
      p'.WellFormed ∧ p'.term = p.term ∧ p'.n = p.n ∧ p'.state = p.state ∧
      p'.readBuf = p.readBuf := by
  intro fuel
  induction fuel with
  | zero =>
    intro p pos n hw hb hp hn
    have h0 : n = 0 := by omega
    subst h0
    refine ⟨p, by simp [Pipe.writeChunks], ?_, hw, rfl, rfl, rfl, rfl⟩
    simp [transFrames]
  | succ fuel ih =>
    intro p pos n hw hb hp hn
    by_cases h0 : n = 0
    · subst h0
      refine ⟨p, by simp [Pipe.writeChunks], ?_, hw, rfl, rfl, rfl, rfl⟩
      have : b.drop pos = [] := List.drop_of_length_le (by omega)
      simp [this, transFrames_nil]
    · have hpos : 0 < n := Nat.pos_of_ne_zero h0
      obtain ⟨hrl, hwl, hwm⟩ := hw
      have hle : min n MaxLen ≤ MaxLen := Nat.min_le_right _ _
      have hle2 : pos + min n MaxLen ≤ b.length := by
        have := Nat.min_le_left n MaxLen; omega
      have hemit := write_iter_emits p.writeBuf b p.term pos (min n MaxLen) hwl hwm hle hle2
      have hmag := write_iter_magic p.writeBuf b p.term pos (min n MaxLen) hwl hwm hle hle2
      have hdl : (b.drop pos).length = n := by simp; omega
      have hne : b.drop pos ≠ [] := by
        intro h; rw [h] at hdl; simp at hdl; omega
      have hcw : ∀ x, p.conn.write x = ({ p.conn with output := p.conn.output ++ [x] }, none) := by
        intro x; simp [Conn.write, hb]
      rw [Pipe.writeChunks]
      have hM : Magic.length = 4 := rfl
      simp only [hpos, if_true, hM, hemit, hcw]
      set p1 : Pipe := { p with
        conn := { p.conn with output := p.conn.output ++
          [frame CmdTrans p.term ((b.drop pos).take (min n MaxLen))] },
        writeBuf := copyAt (copyAt p.writeBuf 4
          [CmdTrans, p.term, (min n MaxLen >>> 8) % 256, min n MaxLen % 256]) (4 + 4)
          (slice b pos (pos + min n MaxLen)) } with hp1
      have hw1 : p1.WellFormed := by
        refine ⟨hrl, ?_, hmag⟩
        simp [hp1, copyAt_length, hwl]
      have hM0 : 0 < MaxLen := by decide
      have hmin : 0 < min n MaxLen := by
        rw [Nat.lt_min]; exact ⟨hpos, hM0⟩
      obtain ⟨p', h1, h2, h3, h4, h5, h6, h7⟩ :=
        ih p1 (pos + min n MaxLen) (n - min n MaxLen) hw1 (by simpa [hp1] using hb)
          (by have := Nat.min_le_left n MaxLen; omega) (by omega)
      refine ⟨p', h1, ?_, h3, h4, h5, h6, h7⟩
      rw [h2, transFrames_succ_of_ne _ _ _ hne]
      have e1 : (b.drop pos).take MaxLen = (b.drop pos).take (min n MaxLen) := by
        rw [← hdl, take_min_length]
      have e2 : (b.drop pos).drop MaxLen = b.drop (pos + min n MaxLen) := by
        rw [← drop_min_length, hdl, List.drop_drop]
      simp [hp1, e1, e2]


theorem readFrames_payload (p : Pipe) (b : List Nat) (k fuel : Nat) (hn : p.n ≠ 0) :
    Pipe.readFrames b k (fuel + 1) p = p.readPayload b k := by
  rw [Pipe.readFrames]; simp [hn]

/-- A payload read hands over a non-empty front part of the payload still pending. -/
theorem readPayload_spec (p : Pipe) (pending rest : List Nat) (L k : Nat)
    (hn : p.n = (pending.length : Int)) (hp : pending ≠ [])
    (hi : p.conn.input = pending ++ rest) (hL : 1 ≤ L) :
    ∃ m, 1 ≤ m ∧ m ≤ L ∧ m ≤ pending.length ∧
      p.readPayload (List.replicate L 0) k =
        Run.ret { p := { p with conn := { p.conn with input := pending.drop m ++ rest },
                                n := ((pending.length - m : Nat) : Int) }
                  b := copy (List.replicate L 0) (pending.take m)
                  n := (m : Int)
                  err := none } := by
  have hpl : 0 < pending.length := List.length_pos.mpr hp
  refine ⟨min (max k 1) (min (min L pending.length) (pending.length + rest.length)), ?_, ?_, ?_, ?_⟩
  · omega
  · omega
  · omega
  · have hmin : min ((List.replicate L 0).length : Int) p.n = ((min L pending.length : Nat) : Int) := by
      rw [hn]; simp
    have hne : p.conn.input ≠ [] := by rw [hi]; simp [hp]
    have hw : min L pending.length ≠ 0 := by omega
    simp only [Pipe.readPayload, hmin, Int.toNat_ofNat, Conn.read, hw, hne, if_false]
    have hneg : ¬ ((min L pending.length : Nat) : Int) < 0 := by omega
    simp only [hneg, if_false]
    set m := min (max k 1) (min (min L pending.length) (pending.length + rest.length)) with hm
    have hmle : m ≤ pending.length := by omega
    have hil : p.conn.input.length = pending.length + rest.length := by rw [hi]; simp
    have e1 : List.take m p.conn.input = pending.take m := by
      rw [hi, List.take_append_of_le_length hmle]
    have e2 : List.drop m p.conn.input = pending.drop m ++ rest := by
      rw [hi, List.drop_append_of_le_length hmle]
    simp only [hil, ← hm, e1, e2, hn]
    simp [hmle]

theorem length_bytes (x : Nat) (h : x < 65536) : (x >>> 8) % 256 * 256 + x % 256 = x := by
  rw [Nat.shiftRight_eq_div_pow]; omega

theorem receiving_nil_input (p : Pipe) (t : Nat) (h : p.Receiving t []) :
    p.n = 0 ∧ p.conn.input = [] := by
  obtain ⟨pending, B, fuel, h1, h2, h3, _, _, _⟩ := h
  obtain ⟨hp, hB⟩ := List.append_eq_nil.mp h1.symm
  subst hp hB
  simp [h2, h3, transFrames_nil]

theorem readPayload_spec' (p : Pipe) (pending rest : List Nat) (L k : Nat)
    (hn : p.n = (pending.length : Int)) (hp : pending ≠ [])
    (hi : p.conn.input = pending ++ rest) (hL : 1 ≤ L) :
    ∃ m p', 1 ≤ m ∧ m ≤ L ∧ m ≤ pending.length ∧
      p.readPayload (List.replicate L 0) k =
        Run.ret { p := p', b := copy (List.replicate L 0) (pending.take m), n := (m : Int),
                  err := none } ∧
      p'.conn.input = pending.drop m ++ rest ∧ p'.n = ((pending.length - m : Nat) : Int) ∧
      p'.term = p.term ∧ p'.readBuf = p.readBuf := by
  obtain ⟨m, h1, h2, h3, h4⟩ := readPayload_spec p pending rest L k hn hp hi hL
  exact ⟨m, _, h1, h2, h3, h4, rfl, rfl, rfl, rfl⟩

/-- One `Read` while frames of a `Write` are arriving returns a non-empty front part of the
data still due, without error. -/
theorem read_step (p : Pipe) (t : Nat) (R : List Nat) (L k : Nat)
    (hinv : p.Receiving t R) (hR : R ≠ []) (hL : 1 ≤ L) :
    ∃ m p', 1 ≤ m ∧ m ≤ L ∧ m ≤ R.length ∧
      p.Read (List.replicate L 0) k =
        Run.ret { p := p', b := copy (List.replicate L 0) (R.take m), n := (m : Int),
                  err := none } ∧
      p'.Receiving t (R.drop m) := by
  obtain ⟨pending, B, fuel, h1, h2, h3, h4, h5, h6⟩ := hinv
  by_cases hp : pending = []
  · subst hp
    simp only [List.nil_append] at h1 h3
    subst h1
    simp only [List.length_nil, Nat.cast_zero] at h2
    obtain ⟨f, rfl⟩ : ∃ f, fuel = f + 1 := by
      have : 0 < R.length := List.length_pos.mpr hR
      exact ⟨fuel - 1, by omega⟩
    rw [transFrames_succ_of_ne _ _ _ hR] at h3
    have hc1 : (R.take MaxLen).length < 65536 := by
      have hM : MaxLen = 16376 := by decide
      simp; omega
    have hc0 : R.take MaxLen ≠ [] := by
      have hM : MaxLen = 16376 := by decide
      cases R with
      | nil => exact absurd rfl hR
      | cons a as => simp [hM]
    have hin : p.conn.input = Magic ++ [CmdTrans, t, ((R.take MaxLen).length >>> 8) % 256,
        (R.take MaxLen).length % 256] ++ (R.take MaxLen ++ (transFrames t f (R.drop MaxLen)).flatten) := by
      rw [h3]; simp [frame]
    have hstep := readFrames_step p (List.replicate L 0) k p.conn.input.length CmdTrans t _ _ _ h2
      (by rw [h6]; decide) hin
    have hlb := length_bytes _ hc1
    simp only [hlb, h5] at hstep
    simp only [CmdErr, CmdTrans, CmdClose, CmdConn, ne_eq, not_true_eq_false, and_false,
      if_false, OfNat.ofNat_ne_zero, OfNat.ofNat_ne_one, if_true] at hstep
    obtain ⟨fl, hfl⟩ : ∃ fl, p.conn.input.length = fl + 1 := by
      rw [hin]; simp [Magic]
    set p2 : Pipe := { p.afterHeader [2, t, ((R.take MaxLen).length >>> 8) % 256,
        (R.take MaxLen).length % 256] (R.take MaxLen ++ (transFrames t f (R.drop MaxLen)).flatten)
        with n := ((R.take MaxLen).length : Int) } with hp2
    have hpl : 0 < (R.take MaxLen).length := List.length_pos.mpr hc0
    have hn2 : p2.n ≠ 0 := by
      show ((R.take MaxLen).length : Int) ≠ 0
      omega
    rw [hfl, readFrames_payload _ _ _ _ hn2] at hstep
    obtain ⟨m, p', hm1, hm2, hm3, hm4, hq1, hq2, hq3, hq4⟩ := readPayload_spec' p2 (R.take MaxLen)
      ((transFrames t f (R.drop MaxLen)).flatten) L k (by simp [hp2]) hc0
      (by simp [hp2, Pipe.afterHeader]) hL
    have hmR : m ≤ R.length := by
      have : (R.take MaxLen).length ≤ R.length := by simp
      omega
    have hmM : m ≤ MaxLen := by
      have : (R.take MaxLen).length ≤ MaxLen := by simp
      omega
    refine ⟨m, p', hm1, hm2, hmR, ?_, ?_⟩
    · rw [Pipe.Read, hfl, hstep, hm4, List.take_take, Nat.min_eq_left hmM]
    · refine ⟨(R.take MaxLen).drop m, R.drop MaxLen, f, ?_, ?_, hq1, ?_, ?_, ?_⟩
      · rw [List.drop_take]
        conv_lhs => rw [← List.take_append_drop (MaxLen - m) (R.drop m)]
        rw [List.drop_drop]
        congr 2
        omega
      · rw [hq2]; simp
      · simp; omega
      · rw [hq3]; simp [hp2, Pipe.afterHeader, h5]
      · rw [hq4]; simp [hp2, Pipe.afterHeader, h6]
        have : bufSize = 16384 := by decide
        omega
  · have hn0 : p.n ≠ 0 := by
      have : 0 < pending.length := List.length_pos.mpr hp
      omega
    obtain ⟨m, p', hm1, hm2, hm3, hm4, hq1, hq2, hq3, hq4⟩ :=
      readPayload_spec' p pending (transFrames t fuel B).flatten L k h2 hp h3 hL
    have hmR : m ≤ R.length := by rw [h1]; simp; omega
    refine ⟨m, p', hm1, hm2, hmR, ?_, ?_⟩
    · rw [Pipe.Read, readFrames_payload _ _ _ _ hn0, hm4, h1,
        List.take_append_of_le_length hm3]
    · refine ⟨pending.drop m, B, fuel, ?_, ?_, hq1, h4, ?_, ?_⟩
      · rw [h1, List.drop_append_of_le_length hm3]
      · rw [hq2]; simp
      · rw [hq3, h5]
      · rw [hq4, h6]

theorem read_eof (p : Pipe) (b : List Nat) (k : Nat) (hn : p.n = 0) (hi : p.conn.input = []) :
    p.Read b k = Run.ret { p := { p with readBuf := copy p.readBuf [] }, b := b, n := 0,
                           err := some Err.eof } := by
  simp [Pipe.Read, hi, Pipe.readFrames, hn, Pipe.checkMagic, Conn.readFull, Magic]

theorem slice_copy_replicate (L m : Nat) (x : List Nat) (hx : x.length = m) (hm : m ≤ L) :
    slice (copy (List.replicate L 0) x) 0 m = x := by
  rw [copy_of_le _ _ (by simp; omega)]
  simp only [slice, List.drop_zero]
  exact List.take_left' hx

/-- Successive reads while frames of a `Write` are arriving collect a front part of the data
due; a failing read comes only after all of it, and every read makes progress. -/
theorem readAll_spec (t : Nat) : ∀ (sched : List (Nat × Nat)) (p : Pipe) (R : List Nat),
    p.Receiving t R → (∀ e ∈ sched, 1 ≤ e.1) →
    ∃ j, (p.readAll sched).1 = R.take j ∧ ((p.readAll sched).2 = true → R.length ≤ j) ∧
      min sched.length R.length ≤ j := by
  intro sched
  induction sched with
  | nil => intro p R _ _; exact ⟨0, by simp [Pipe.readAll], by simp [Pipe.readAll], by simp⟩
  | cons e rest ih =>
    intro p R hinv hs
    obtain ⟨L, k⟩ := e
    have hL : 1 ≤ L := hs (L, k) (List.mem_cons_self _ _)
    by_cases hR : R = []
    · subst hR
      obtain ⟨h1, h2⟩ := receiving_nil_input p t hinv
      refine ⟨0, ?_, by simp, by simp⟩
      simp [Pipe.readAll, read_eof p _ k h1 h2, slice]
    · obtain ⟨m, p', hm1, hm2, hm3, hm4, hm5⟩ := read_step p t R L k hinv hR hL
      obtain ⟨j, hj1, hj2, hj3⟩ := ih p' (R.drop m) hm5
        (fun e he => hs e (List.mem_cons_of_mem _ he))
      have hsl : slice (copy (List.replicate L 0) (R.take m)) 0 m = R.take m :=
        slice_copy_replicate L m _ (by simp; omega) hm2
      refine ⟨m + j, ?_, ?_, ?_⟩
      · simp only [Pipe.readAll, hm4, if_true, Int.toNat_ofNat, hsl, hj1]
        rw [List.take_add]
      · simp only [Pipe.readAll, hm4, if_true]
        intro hf
        have := hj2 hf
        simp at this
        omega
      · simp at hj3 ⊢
        omega

/-- C1. Framing round trip: `Write(B)` on a pipe with term `t` succeeds, and a peer pipe with
the same term and no frame in progress that performs successive `Read`s (each with a
non-empty buffer, the transport handing back any non-empty part of what is asked) on exactly
the bytes emitted collects a front part of `B`, no `Read` fails before all of `B` has been
delivered, and `|B|` reads are enough to collect exactly `B`. -/
theorem framing_round_trip (B : List Nat) (pw pr : Pipe) (hw : pw.WellFormed)
    (hnb : pw.conn.broken = false) (hr : pr.readBuf.length = bufSize) (hn : pr.n = 0)
    (ht : pr.term = pw.term) :
    ∃ pw', pw.Write B = Run.ret (pw', B.length, none) ∧
      ∀ sched : List (Nat × Nat), (∀ e ∈ sched, 1 ≤ e.1) →
        ((pr.withInput (pw'.conn.output.drop pw.conn.output.length).flatten).readAll sched).1
            <+: B ∧
        (((pr.withInput (pw'.conn.output.drop pw.conn.output.length).flatten).readAll sched).2
            = true →
          ((pr.withInput (pw'.conn.output.drop pw.conn.output.length).flatten).readAll sched).1
            = B) ∧
        (B.length ≤ sched.length →
          ((pr.withInput (pw'.conn.output.drop pw.conn.output.length).flatten).readAll sched).1
            = B) := by
  obtain ⟨pw', h1, h2, _, _, _, _, _⟩ :=
    writeChunks_spec B B.length pw 0 B.length hw hnb (by simp) (Nat.le_refl _)
  refine ⟨pw', h1, ?_⟩
  intro sched hs
  have hout : (pw'.conn.output.drop pw.conn.output.length).flatten =
      (transFrames pw.term B.length B).flatten := by
    rw [h2]; simp
  rw [hout]
  have hinv : (pr.withInput (transFrames pw.term B.length B).flatten).Receiving pw.term B :=
    ⟨[], B, B.length, by simp, by simp [Pipe.withInput, hn], by simp [Pipe.withInput],
      Nat.le_refl _, by simpa [Pipe.withInput] using ht, by simpa [Pipe.withInput] using hr⟩
  obtain ⟨j, hj1, hj2, hj3⟩ := readAll_spec pw.term sched _ B hinv hs
  refine ⟨?_, ?_, ?_⟩
  · rw [hj1]; exact List.take_prefix _ _
  · intro hf; rw [hj1]; exact List.take_of_length_le (hj2 hf)
  · intro hl; rw [hj1]; exact List.take_of_length_le (by omega)

theorem New_wellFormed (c : Conn) (timeout now : Int) (scn : Nat) :
    (New c timeout now scn).WellFormed := by
  have h : copy (List.replicate bufSize 0) Magic = Magic ++ (List.replicate bufSize 0).drop 4 :=
    copy_of_le _ _ (by rw [List.length_replicate]; decide)
  refine ⟨?_, ?_, ?_⟩
  · show (List.replicate bufSize 0).length = bufSize
    exact List.length_replicate _ _
  · show (copy (List.replicate bufSize 0) Magic).length = bufSize
    rw [copy_length]; exact List.length_replicate _ _
  · show slice (copy (List.replicate bufSize 0) Magic) 0 4 = Magic
    rw [h]
    simp only [slice, List.drop_zero]
    exact List.take_left' rfl

/-- Witness for C1: a fresh writer and a fresh reader, three bytes, three reads with buffers
of 2, 1 and 5 bytes. -/
theorem framing_round_trip_witness :
    ∃ pw', (New ⟨[], [], false, 0⟩ 0 0 1).Write [1, 2, 3] = Run.ret (pw', [1, 2, 3].length, none) ∧
        (((New ⟨[], [], false, 0⟩ 0 0 2).withInput (pw'.conn.output.drop
            (New ⟨[], [], false, 0⟩ 0 0 1).conn.output.length).flatten).readAll
              [(2, 1), (1, 7), (5, 2)]).1 <+: [1, 2, 3] ∧
        ((((New ⟨[], [], false, 0⟩ 0 0 2).withInput (pw'.conn.output.drop
            (New ⟨[], [], false, 0⟩ 0 0 1).conn.output.length).flatten).readAll
              [(2, 1), (1, 7), (5, 2)]).2 = true →
          (((New ⟨[], [], false, 0⟩ 0 0 2).withInput (pw'.conn.output.drop
            (New ⟨[], [], false, 0⟩ 0 0 1).conn.output.length).flatten).readAll
              [(2, 1), (1, 7), (5, 2)]).1 = [1, 2, 3]) ∧
        ([1, 2, 3].length ≤ [(2, 1), (1, 7), (5, 2)].length →
          (((New ⟨[], [], false, 0⟩ 0 0 2).withInput (pw'.conn.output.drop
            (New ⟨[], [], false, 0⟩ 0 0 1).conn.output.length).flatten).readAll
              [(2, 1), (1, 7), (5, 2)]).1 = [1, 2, 3]) :=
  (framing_round_trip [1, 2, 3] (New ⟨[], [], false, 0⟩ 0 0 1) (New ⟨[], [], false, 0⟩ 0 0 2)
    (New_wellFormed _ _ _ _) rfl (List.length_replicate _ _) rfl rfl).imp
    (fun _ h => ⟨h.1, h.2 [(2, 1), (1, 7), (5, 2)] (by decide)⟩)

theorem slice_zero_append (x y : List Nat) : slice (x ++ y) 0 x.length = x := by
  simp [slice]

theorem slice_zero_append_of_eq (x y : List Nat) (n : Nat) (h : n = x.length) :
    slice (x ++ y) 0 n = x := by
  subst h; exact slice_zero_append x y

theorem drop_add4_cons (n a b c d : Nat) (l : List Nat) :
    List.drop (4 + n) (a :: b :: c :: d :: l) = List.drop n l := by
  rw [Nat.add_comm]; rfl

theorem slice_append_mid (x y z : List Nat) (n : Nat) (hn : n = x.length + y.length) :
    slice (x ++ y ++ z) x.length n = y := by
  subst hn
  simp [slice, List.take_append_eq_append_take]

theorem copySlice_of_le (dst : List Nat) (lo hi : Nat) (src : List Nat)
    (h1 : lo + src.length ≤ hi) (h2 : hi ≤ dst.length) :
    copySlice dst lo hi src = dst.take lo ++ src ++ dst.drop (lo + src.length) := by
  have hc : copy ((dst.take hi).drop lo) src = src ++ ((dst.take hi).drop lo).drop src.length :=
    copy_of_le _ _ (by simp; omega)
  have hd : ((dst.take hi).drop lo).drop src.length ++ dst.drop hi = dst.drop (lo + src.length) := by
    rw [List.drop_drop]
    conv_rhs => rw [← List.take_append_drop hi dst]
    rw [List.drop_append_of_le_length (by simp; omega)]
  rw [copySlice, hc, List.append_assoc, List.append_assoc, hd, List.append_assoc]

/-- Invalid magic on a frame boundary: the four bytes are consumed, nothing else. -/
theorem read_bad_magic (p : Pipe) (b m rest : List Nat) (k : Nat) (hn : p.n = 0)
    (hb : 4 ≤ p.readBuf.length) (hm : m.length = 4) (hne : m ≠ Magic)
    (hi : p.conn.input = m ++ rest) :
    p.Read b k = Run.ret { p := { p with conn := { p.conn with input := rest },
                                         readBuf := m ++ p.readBuf.drop 4 },
                           b := b, n := 0, err := some (Err.invalidMagic m) } := by
  have h1 := readFull_append p.conn m rest hi
  rw [hm] at h1
  have h2 : copy p.readBuf m = m ++ p.readBuf.drop 4 := by
    rw [copy_of_le _ _ (by omega), hm]
  have h3 : slice (m ++ p.readBuf.drop 4) 0 4 = m := by
    rw [← hm]; exact slice_zero_append _ _
  have hM : Magic.length = 4 := rfl
  rw [Pipe.Read, Pipe.readFrames]
  simp only [hn, if_true, Pipe.checkMagic, hM, h1, h2, h3]
  simp [Ne.symm hne]

/-- A `CmdConn` frame of the current term is handed to the caller whole: header and payload. -/
theorem read_conn_frame (p : Pipe) (b X rest : List Nat) (k : Nat) (hn : p.n = 0)
    (hb : p.readBuf.length = bufSize) (hX : X.length ≤ 16380)
    (hi : p.conn.input = frame CmdConn p.term X ++ rest) :
    p.Read b k =
      Run.ret { p := { p with conn := { p.conn with input := rest },
                              readBuf := [CmdConn, p.term, (X.length >>> 8) % 256, X.length % 256]
                                ++ X ++ p.readBuf.drop (4 + X.length) },
                b := copy b ([CmdConn, p.term, (X.length >>> 8) % 256, X.length % 256] ++ X),
                n := ((4 + X.length : Nat) : Int), err := none } := by
  have hB : bufSize = 16384 := by decide
  have hin : p.conn.input = Magic ++ [CmdConn, p.term, (X.length >>> 8) % 256, X.length % 256]
      ++ (X ++ rest) := by
    rw [hi]; simp [frame]
  have hstep := readFrames_step p b k p.conn.input.length CmdConn p.term _ _ _ hn
    (by omega) hin
  have hlb := length_bytes X.length (by omega)
  simp only [hlb] at hstep
  simp only [CmdErr, CmdConn, CmdClose, ne_eq, not_true_eq_false, and_false, if_false,
    (by decide : ¬ (1 : Nat) = 0), if_true] at hstep
  have hrf := readFull_append
    (p.afterHeader [1, p.term, (X.length >>> 8) % 256, X.length % 256] (X ++ rest)).conn X rest rfl
  have hl2 : (p.afterHeader [1, p.term, (X.length >>> 8) % 256, X.length % 256]
      (X ++ rest)).readBuf.length = bufSize := by
    simp [Pipe.afterHeader]; omega
  have hnp : ¬ (4 + X.length > (p.afterHeader [1, p.term, (X.length >>> 8) % 256,
      X.length % 256] (X ++ rest)).readBuf.length) := by
    rw [hl2]; omega
  simp only [hnp, if_false, hrf] at hstep
  rw [Pipe.Read, hstep]
  have hcs : copySlice (p.afterHeader [1, p.term, (X.length >>> 8) % 256, X.length % 256]
      (X ++ rest)).readBuf 4 (4 + X.length) X =
      [1, p.term, (X.length >>> 8) % 256, X.length % 256] ++ X ++ p.readBuf.drop (4 + X.length) := by
    rw [copySlice_of_le _ _ _ _ (Nat.le_refl _) (by rw [hl2]; omega)]
    simp only [Pipe.afterHeader, List.cons_append, List.nil_append, drop_add4_cons,
      List.drop_drop]
    have : List.take 4 (1 :: p.term :: (X.length >>> 8) % 256 :: X.length % 256 ::
        List.drop 4 p.readBuf) = [1, p.term, (X.length >>> 8) % 256, X.length % 256] := rfl
    rw [this]
    rfl
  rw [hcs]
  have hsl : slice ([1, p.term, (X.length >>> 8) % 256, X.length % 256] ++ X ++
      p.readBuf.drop (4 + X.length)) 0 (4 + X.length) =
      [1, p.term, (X.length >>> 8) % 256, X.length % 256] ++ X := by
    exact slice_zero_append_of_eq _ _ _ (by simp; omega)
  rw [hsl]
  simp [Pipe.afterHeader, CmdConn]


/-- The message the handshake waiter hashes: `n` bytes of the buffer followed by the
secret. -/
theorem msg_build (x s : List Nat) :
    copySlice (copySlice (List.replicate (x.length + s.length) 0) 0 x.length x) x.length
      (x.length + s.length) s = x ++ s := by
  rw [copySlice_of_le (List.replicate (x.length + s.length) 0) 0 x.length x (by omega)
    (by simp)]
  simp only [List.take_zero, List.nil_append, Nat.zero_add]
  rw [copySlice_of_le _ _ _ _ (Nat.le_refl _) (by simp)]
  rw [List.take_left' rfl]
  simp

theorem waitForHandShake_frame (sha : List Nat → List Nat) (p : Pipe) (s A m rest : List Nat)
    (k : Nat) (hn : p.n = 0) (hb : p.readBuf.length = bufSize) (hA : A.length ≤ 988)
    (hm : m.length = 32) (hi : p.conn.input = frame CmdConn p.term (A ++ m) ++ rest) :
    ∃ q : Pipe, q.state = InUse ∧ q.conn.input = rest ∧ q.term = p.term ∧ q.n = 0 ∧
      p.WaitForHandShake sha s k =
        if sha ([CmdConn, p.term, ((A.length + 32) >>> 8) % 256, (A.length + 32) % 256]
            ++ A ++ s) ≠ m then
          Run.ret (q, [], some (Err.invalidHandshakeHmac
            (sha ([CmdConn, p.term, ((A.length + 32) >>> 8) % 256, (A.length + 32) % 256]
              ++ A ++ s)) m))
        else Run.ret (q, A, none) := by
  have hXl : (A ++ m).length = A.length + 32 := by simp [hm]
  have hread := read_conn_frame (p.setState InUse) (List.replicate 1024 0) (A ++ m) rest k
    (by simpa [Pipe.setState] using hn) (by simpa [Pipe.setState] using hb)
    (by rw [hXl]; omega) (by simpa [Pipe.setState] using hi)
  rw [hXl] at hread
  simp only [Pipe.setState] at hread
  set hi8 := ((A.length + 32) >>> 8) % 256 with hhi
  set lo8 := (A.length + 32) % 256 with hlo
  have hlb : hi8 * 256 + lo8 = A.length + 32 := length_bytes _ (by omega)
  set Z := (List.replicate 1024 0).drop (4 + (A.length + 32)) with hZ
  have hbuf : copy (List.replicate 1024 0) ([CmdConn, p.term, hi8, lo8] ++ (A ++ m)) =
      [CmdConn, p.term, hi8, lo8] ++ A ++ m ++ Z := by
    have hl : ([CmdConn, p.term, hi8, lo8] ++ (A ++ m)).length = 4 + (A.length + 32) := by
      simp [hm]; omega
    rw [copy_of_le _ _ (by rw [List.length_replicate, hl]; omega), hl]
    simp only [hZ, List.append_assoc]
  rw [hbuf] at hread
  refine ⟨{ p with conn := { p.conn with input := rest }, state := InUse,
                   readBuf := [CmdConn, p.term, hi8, lo8] ++ (A ++ m) ++
                     List.drop (4 + (A.length + 32)) p.readBuf }, rfl, rfl, rfl, hn, ?_⟩
  · simp only [Pipe.WaitForHandShake, Pipe.setState, hread]
    have hnI : (4 : Int) + (256 * ((([CmdConn, p.term, hi8, lo8] ++ A ++ m ++ Z).getD 2 0 : Nat) : Int)
        + ((([CmdConn, p.term, hi8, lo8] ++ A ++ m ++ Z).getD 3 0 : Nat) : Int)) - 32
        = ((4 + A.length : Nat) : Int) := by
      simp only [List.cons_append, List.nil_append, List.getD_cons_succ, List.getD_cons_zero]
      push_cast
      have : ((hi8 * 256 + lo8 : Nat) : Int) = ((A.length + 32 : Nat) : Int) := by rw [hlb]
      push_cast at this
      omega
    have h0 : ([CmdConn, p.term, hi8, lo8] ++ A ++ m ++ Z).getD 0 0 = CmdConn := rfl
    simp only [hnI, h0, Int.toNat_ofNat]
    have hx : ([CmdConn, p.term, hi8, lo8] ++ A).length = 4 + A.length := by simp; omega
    have hs1 : slice ([CmdConn, p.term, hi8, lo8] ++ A ++ m ++ Z) 0 (4 + A.length) =
        [CmdConn, p.term, hi8, lo8] ++ A := by
      rw [List.append_assoc]
      exact slice_zero_append_of_eq _ _ _ hx.symm
    have hs2 : slice ([CmdConn, p.term, hi8, lo8] ++ A ++ m ++ Z) (4 + A.length)
        (4 + A.length + 32) = m := by
      rw [← hx]
      exact slice_append_mid _ _ _ _ (by rw [hm])
    have hs3 : slice ([CmdConn, p.term, hi8, lo8] ++ A ++ m ++ Z) 4 (4 + A.length) = A := by
      rw [List.append_assoc, List.append_assoc]
      exact slice_append_mid [CmdConn, p.term, hi8, lo8] A (m ++ Z) _ (by simp)
    have hmsg := msg_build ([CmdConn, p.term, hi8, lo8] ++ A) s
    rw [hx] at hmsg
    simp only [hs1, hs2, hs3, hmsg]
    have c1 : ¬ (((4 + A.length : Nat) : Int) + ((s.length : Nat) : Int) < 0) := by omega
    have c2 : ¬ (((4 + A.length : Nat) : Int) < 0 ∨ ((4 + A.length : Nat) : Int) > 1024) := by omega
    have c3 : ¬ (((4 + A.length : Nat) : Int) + 32 > 1024) := by omega
    have c4 : ¬ (((4 + A.length : Nat) : Int) < 4) := by omega
    have c5 : ¬ (((4 + (A.length + 32) : Nat) : Int) < 4) := by omega
    simp only [c1, c2, c3, c4, c5, if_false, ne_eq, not_true_eq_false, false_or, or_false]


theorem handshake_header_buf (a b c d : Nat) :
    ((((List.replicate 1024 0).set 0 a).set 1 b).set 2 c).set 3 d =
      [a, b, c, d] ++ List.replicate 1020 0 := by
  rfl

theorem copyAt_append (x z src : List Nat) (h : src.length ≤ z.length) :
    copyAt (x ++ z) x.length src = x ++ src ++ z.drop src.length := by
  rw [copyAt_of_le _ _ _ (by simp; omega)]
  rw [List.take_left' rfl, ← List.drop_drop, List.drop_left' rfl]

theorem writeCmd_ok (p : Pipe) (b : List Nat) (hnb : p.conn.broken = false) :
    p.writeCmd b = ({ p with conn := { p.conn with output := p.conn.output ++ [Magic ++ b] } },
      none) := by
  have h1 : copySlice (List.replicate (4 + b.length) 0) 0 4 Magic =
      Magic ++ List.replicate b.length 0 := by
    rw [copySlice_of_le _ _ _ _ (by simp [Magic]) (by simp)]
    simp [Magic]
  have h2 : copyAt (Magic ++ List.replicate b.length 0) Magic.length b = Magic ++ b := by
    rw [copyAt_append _ _ _ (by simp)]
    simp
  have hM : Magic.length = 4 := rfl
  simp only [Pipe.writeCmd, hM, h1]
  rw [← hM, h2]
  simp [Conn.write, hnb]

/-- What `HandShake` puts on the wire. -/
theorem handShake_spec (sha : List Nat → List Nat) (hsha : ∀ x, (sha x).length = 32)
    (p : Pipe) (A s : List Nat) (hA : A.length ≤ 988) (hnb : p.conn.broken = false) :
    p.HandShake sha A s =
      Run.ret ({ p with
        state := InUse,
        conn := { p.conn with output := p.conn.output ++
          [Magic ++ ([CmdConn, p.term, ((A.length + 32) >>> 8) % 256, (A.length + 32) % 256] ++ A
            ++ sha ([CmdConn, p.term, ((A.length + 32) >>> 8) % 256, (A.length + 32) % 256]
              ++ A ++ s))] } }, none) := by
  set hdr := [CmdConn, p.term, ((A.length + 32) >>> 8) % 256, (A.length + 32) % 256] with hh
  have hx : (hdr ++ A).length = 4 + A.length := by simp [hh]; omega
  have hb1 : copyAt (hdr ++ List.replicate 1020 0) 4 A =
      hdr ++ A ++ (List.replicate 1020 0).drop A.length :=
    copyAt_append hdr _ A (by rw [List.length_replicate]; omega)
  set Z := (List.replicate 1020 0).drop A.length with hZ
  have hZl : Z.length = 1020 - A.length := by rw [hZ, List.length_drop, List.length_replicate]
  have hs1 : slice (hdr ++ A ++ Z) 0 (4 + A.length) = hdr ++ A :=
    slice_zero_append_of_eq _ _ _ hx.symm
  -- whatever the in-place append did, the first n bytes are untouched
  have hb2 : ∃ Z', Z'.length = 1020 - A.length ∧
      (if 4 + A.length + s.length ≤ 1024 then copyAt (hdr ++ A ++ Z) (4 + A.length) s
        else hdr ++ A ++ Z) = hdr ++ A ++ Z' := by
    by_cases hc : 4 + A.length + s.length ≤ 1024
    · refine ⟨s ++ Z.drop s.length, ?_, ?_⟩
      · simp [hZl]; omega
      · rw [if_pos hc, ← hx, copyAt_append _ _ _ (by rw [hZl]; omega)]
        simp
    · exact ⟨Z, hZl, by rw [if_neg hc]⟩
  obtain ⟨Z', hZ'l, hb2⟩ := hb2
  have hb3 : copyAt (hdr ++ A ++ Z') (4 + A.length) (sha (hdr ++ A ++ s)) =
      hdr ++ A ++ sha (hdr ++ A ++ s) ++ Z'.drop 32 := by
    rw [← hx, copyAt_append _ _ _ (by rw [hsha, hZ'l]; omega), hsha]
  have hs2 : slice (hdr ++ A ++ sha (hdr ++ A ++ s) ++ Z'.drop 32) 0 (4 + A.length + 32) =
      hdr ++ A ++ sha (hdr ++ A ++ s) :=
    slice_zero_append_of_eq _ _ _ (by simp [hsha, hh]; omega)
  have hc1 : ¬ (4 + A.length > 1024) := by omega
  have hc2 : ¬ (4 + A.length + 32 > 1024) := by omega
  simp only [Pipe.HandShake, Pipe.setState, handshake_header_buf, ← hh, hb1, hs1, hc1, hc2,
    if_false, hb2, hb3, hs2]
  rw [writeCmd_ok _ _ (by simpa using hnb)]


/-- C3. Handshake authentication: on a `CmdConn` frame of the current term whose LENGTH `L`
is at most 988 and whose payload is an address `A` followed by 32 bytes `m`,
`WaitForHandShake(s)` returns `A` with a nil error exactly when `m` is the hash of header,
address and secret; otherwise it returns an error and no address. -/
theorem handshake_authentication (sha : List Nat → List Nat) (p : Pipe)
    (s A m rest : List Nat) (L k : Nat) (hn : p.n = 0) (hb : p.readBuf.length = bufSize)
    (hL : L ≤ 988) (hA : A.length + 32 = L) (hm : m.length = 32)
    (hi : p.conn.input =
      Magic ++ [CmdConn, p.term, (L >>> 8) % 256, L % 256] ++ (A ++ m) ++ rest) :
    ((∃ q, p.WaitForHandShake sha s k = Run.ret (q, A, none)) ↔
        m = sha ([CmdConn, p.term, (L >>> 8) % 256, L % 256] ++ A ++ s)) ∧
      (m ≠ sha ([CmdConn, p.term, (L >>> 8) % 256, L % 256] ++ A ++ s) →
        ∃ q e, p.WaitForHandShake sha s k = Run.ret (q, [], some e)) := by
  subst hA
  have hi' : p.conn.input = frame CmdConn p.term (A ++ m) ++ rest := by
    rw [hi]; simp [frame, hm]
  obtain ⟨q, _, _, _, _, hW⟩ := waitForHandShake_frame sha p s A m rest k hn hb (by omega) hm hi'
  rw [hW]
  constructor
  · constructor
    · rintro ⟨q', hq'⟩
      by_contra hne
      rw [if_pos (fun h => hne h.symm)] at hq'
      simp at hq'
    · intro h
      exact ⟨q, by rw [if_neg (by simp [h])]⟩
  · intro hne
    exact ⟨q, _, by rw [if_pos (fun h => hne h.symm)]⟩

/-- Witness for C3: a three-byte address with a MAC of 32 zero bytes under a hash that
returns 32 copies of the byte sum. -/
theorem handshake_authentication_witness :
    ((∃ q, ((New ⟨[], [], false, 0⟩ 0 0 1).withInput
          (Magic ++ [CmdConn, 0, (35 >>> 8) % 256, 35 % 256] ++
            ([9, 9, 9] ++ List.replicate 32 0) ++ [])).WaitForHandShake
          (fun x => List.replicate 32 (x.sum % 256)) [5] 0 = Run.ret (q, [9, 9, 9], none)) ↔
        List.replicate 32 0 = (fun x => List.replicate 32 (x.sum % 256))
          ([CmdConn, 0, (35 >>> 8) % 256, 35 % 256] ++ [9, 9, 9] ++ [5])) ∧
      (List.replicate 32 0 ≠ (fun x => List.replicate 32 (x.sum % 256))
          ([CmdConn, 0, (35 >>> 8) % 256, 35 % 256] ++ [9, 9, 9] ++ [5]) →
        ∃ q e, ((New ⟨[], [], false, 0⟩ 0 0 1).withInput
          (Magic ++ [CmdConn, 0, (35 >>> 8) % 256, 35 % 256] ++
            ([9, 9, 9] ++ List.replicate 32 0) ++ [])).WaitForHandShake
          (fun x => List.replicate 32 (x.sum % 256)) [5] 0 = Run.ret (q, [], some e)) :=
  handshake_authentication (fun x => List.replicate 32 (x.sum % 256))
    ((New ⟨[], [], false, 0⟩ 0 0 1).withInput
      (Magic ++ [CmdConn, 0, (35 >>> 8) % 256, 35 % 256] ++
        ([9, 9, 9] ++ List.replicate 32 0) ++ []))
    [5] [9, 9, 9] (List.replicate 32 0) [] 35 0 rfl (List.length_replicate _ _) (by decide)
    rfl (List.length_replicate _ _) rfl

/-- C4. Handshake round trip: for an address of at most 988 bytes, `HandShake(A, s)` on a
pipe with term `t` issues one write of MAGIC, the header `(CmdConn, t, (|A|+32)_hi,
(|A|+32)_lo)`, `A` and the hash of header, address and secret; `WaitForHandShake(s)` on a
peer with the same term and no frame in progress reading exactly those bytes returns `A`
with a nil error; both pipes end in state `InUse`. -/
theorem handshake_round_trip (sha : List Nat → List Nat) (hsha : ∀ x, (sha x).length = 32)
    (p q : Pipe) (A s : List Nat) (k : Nat) (hA : A.length ≤ 988)
    (hnb : p.conn.broken = false) (hn : q.n = 0) (hb : q.readBuf.length = bufSize)
    (ht : q.term = p.term) :
    ∃ p' q', p.HandShake sha A s = Run.ret (p', none) ∧
      p'.conn.output = p.conn.output ++
        [Magic ++ [CmdConn, p.term, ((A.length + 32) >>> 8) % 256, (A.length + 32) % 256] ++ A
          ++ sha ([CmdConn, p.term, ((A.length + 32) >>> 8) % 256, (A.length + 32) % 256]
            ++ A ++ s)] ∧
      p'.state = InUse ∧
      (q.withInput (p'.conn.output.drop p.conn.output.length).flatten).WaitForHandShake sha s k
        = Run.ret (q', A, none) ∧
      q'.state = InUse := by
  have hH := handShake_spec sha hsha p A s hA hnb
  set mac := sha ([CmdConn, p.term, ((A.length + 32) >>> 8) % 256, (A.length + 32) % 256]
    ++ A ++ s) with hmac
  have hml : mac.length = 32 := hsha _
  have hin : (q.withInput (Magic ++ ([CmdConn, p.term, ((A.length + 32) >>> 8) % 256,
      (A.length + 32) % 256] ++ A ++ mac))).conn.input =
      frame CmdConn (q.withInput (Magic ++ ([CmdConn, p.term, ((A.length + 32) >>> 8) % 256,
      (A.length + 32) % 256] ++ A ++ mac))).term (A ++ mac) ++ [] := by
    simp [Pipe.withInput, frame, hml, ht]
  obtain ⟨q', hq1, _, hq3, _, hW⟩ := waitForHandShake_frame sha _ s A mac [] k
    (by simpa [Pipe.withInput] using hn) (by simpa [Pipe.withInput] using hb) hA hml hin
  have hterm : (q.withInput (Magic ++ ([CmdConn, p.term, ((A.length + 32) >>> 8) % 256,
      (A.length + 32) % 256] ++ A ++ mac))).term = p.term := by
    simpa [Pipe.withInput] using ht
  rw [hterm, ← hmac] at hW
  simp only [ne_eq, not_true_eq_false, if_false] at hW
  refine ⟨_, q', hH, ?_, rfl, ?_, hq1⟩
  · simp
  · simpa using hW


/-- Witness for C4: a three-byte address, a one-byte secret, two fresh pipes. -/
theorem handshake_round_trip_witness :
    ∃ p' q', (New ⟨[], [], false, 0⟩ 0 0 1).HandShake (fun x => List.replicate 32 (x.sum % 256))
          [9, 9, 9] [5] = Run.ret (p', none) ∧
      p'.conn.output = (New ⟨[], [], false, 0⟩ 0 0 1).conn.output ++
        [Magic ++ [CmdConn, (New ⟨[], [], false, 0⟩ 0 0 1).term,
            (([9, 9, 9].length + 32) >>> 8) % 256, ([9, 9, 9].length + 32) % 256] ++ [9, 9, 9]
          ++ (fun x => List.replicate 32 (x.sum % 256))
            ([CmdConn, (New ⟨[], [], false, 0⟩ 0 0 1).term,
              (([9, 9, 9].length + 32) >>> 8) % 256, ([9, 9, 9].length + 32) % 256]
            ++ [9, 9, 9] ++ [5])] ∧
      p'.state = InUse ∧
      ((New ⟨[], [], false, 0⟩ 0 0 2).withInput (p'.conn.output.drop
          (New ⟨[], [], false, 0⟩ 0 0 1).conn.output.length).flatten).WaitForHandShake
          (fun x => List.replicate 32 (x.sum % 256)) [5] 0
        = Run.ret (q', [9, 9, 9], none) ∧
      q'.state = InUse :=
  handshake_round_trip (fun x => List.replicate 32 (x.sum % 256))
    (fun _ => List.length_replicate _ _)
    (New ⟨[], [], false, 0⟩ 0 0 1) (New ⟨[], [], false, 0⟩ 0 0 2) [9, 9, 9] [5] 0
    (by decide) rfl rfl (List.length_replicate _ _) rfl

/-- C10. Invalid magic is rejected: on a frame boundary, when the next four bytes are not the
magic, `Read` returns 0 bytes and the invalid-magic error; it leaves the caller's buffer as
it was, starts no frame, and the bytes after the four are still unread. -/
theorem invalid_magic_rejected (p : Pipe) (b m rest : List Nat) (k : Nat) (hn : p.n = 0)
    (hb : p.readBuf.length = bufSize) (hm : m.length = 4) (hne : m ≠ Magic)
    (hi : p.conn.input = m ++ rest) :
    ∃ q, p.Read b k = Run.ret { p := q, b := b, n := 0, err := some (Err.invalidMagic m) } ∧
      q.conn.input = rest ∧ q.n = 0 ∧ q.term = p.term ∧ q.state = p.state :=
  ⟨_, read_bad_magic p b m rest k hn (by rw [hb]; decide) hm hne hi, rfl, hn, rfl, rfl⟩

/-- Witness for C10: a fresh pipe fed `00 86 13 85` and one more byte. -/
theorem invalid_magic_rejected_witness :
    ∃ q, ((New ⟨[], [], false, 0⟩ 0 0 1).withInput ([0, 0x86, 0x13, 0x85] ++ [7])).Read
          [0, 0] 1 =
        Run.ret { p := q, b := [0, 0], n := 0,
                  err := some (Err.invalidMagic [0, 0x86, 0x13, 0x85]) } ∧
      q.conn.input = [7] ∧ q.n = 0 ∧
      q.term = ((New ⟨[], [], false, 0⟩ 0 0 1).withInput ([0, 0x86, 0x13, 0x85] ++ [7])).term ∧
      q.state = ((New ⟨[], [], false, 0⟩ 0 0 1).withInput ([0, 0x86, 0x13, 0x85] ++ [7])).state :=
  invalid_magic_rejected ((New ⟨[], [], false, 0⟩ 0 0 1).withInput ([0, 0x86, 0x13, 0x85] ++ [7]))
    [0, 0] [0, 0x86, 0x13, 0x85] [7] 1 rfl (List.length_replicate _ _) rfl (by decide) rfl

/-- A `CmdTrans` frame of the current term: `Read` hands over a non-empty front part of its
payload. -/
theorem read_trans_frame (p : Pipe) (X rest : List Nat) (L k : Nat) (hn : p.n = 0)
    (hb : p.readBuf.length = bufSize) (hX : X ≠ []) (hXl : X.length < 65536) (hL : 1 ≤ L)
    (hi : p.conn.input = frame CmdTrans p.term X ++ rest) :
    ∃ m q, 1 ≤ m ∧ m ≤ L ∧ m ≤ X.length ∧
      p.Read (List.replicate L 0) k =
        Run.ret { p := q, b := copy (List.replicate L 0) (X.take m), n := (m : Int),
                  err := none } ∧
      q.conn.input = X.drop m ++ rest ∧ q.n = ((X.length - m : Nat) : Int) ∧
      q.term = p.term ∧ q.state = p.state := by
  have hin : p.conn.input = Magic ++ [CmdTrans, p.term, (X.length >>> 8) % 256, X.length % 256]
      ++ (X ++ rest) := by
    rw [hi]; simp [frame]
  have hstep := readFrames_step p (List.replicate L 0) k p.conn.input.length CmdTrans p.term _ _ _
    hn (by rw [hb]; decide) hin
  have hlb := length_bytes _ hXl
  simp only [hlb] at hstep
  simp only [CmdErr, CmdTrans, CmdClose, CmdConn, ne_eq, not_true_eq_false, and_false,
    if_false, OfNat.ofNat_ne_zero, OfNat.ofNat_ne_one, if_true] at hstep
  obtain ⟨fl, hfl⟩ : ∃ fl, p.conn.input.length = fl + 1 := by
    rw [hin]; simp [Magic]
  set p2 : Pipe := { p.afterHeader [2, p.term, (X.length >>> 8) % 256, X.length % 256]
      (X ++ rest) with n := (X.length : Int) } with hp2
  have hpl : 0 < X.length := List.length_pos.mpr hX
  have hn2 : p2.n ≠ 0 := by
    show (X.length : Int) ≠ 0
    omega
  rw [hfl, readFrames_payload _ _ _ _ hn2] at hstep
  obtain ⟨m, hm1, hm2, hm3, hm4⟩ := readPayload_spec p2 X rest L k rfl hX rfl hL
  exact ⟨m, { p2 with conn := { p2.conn with input := X.drop m ++ rest },
                      n := ((X.length - m : Nat) : Int) },
    hm1, hm2, hm3, by rw [Pipe.Read, hfl, hstep, hm4], rfl, rfl, rfl, rfl⟩


/-- A stale-term frame with a non-zero LENGTH: `Read` asks for `len(readBuf) - 4` bytes
whatever LENGTH says; when fewer than that follow, everything that follows is consumed and
`Read` fails. -/
theorem read_stale_short (p : Pipe) (b rest : List Nat) (k c t hi lo : Nat) (hn : p.n = 0)
    (hb : p.readBuf.length = bufSize) (hc : c < CmdErr) (ht : t ≠ p.term)
    (hlen : 0 < hi * 256 + lo) (hr : rest ≠ []) (hrl : rest.length < 16380)
    (hin : p.conn.input = Magic ++ [c, t, hi, lo] ++ rest) :
    ∃ q, p.Read b k = Run.ret { p := q, b := b, n := 0, err := some Err.unexpectedEOF } ∧
      q.conn.input = [] := by
  have hB : bufSize = 16384 := by decide
  have hstep := readFrames_step p b k p.conn.input.length c t hi lo rest hn (by omega) hin
  have hl2 : (p.afterHeader [c, t, hi, lo] rest).readBuf.length - 4 = 16380 := by
    simp [Pipe.afterHeader]; omega
  have hrf : (p.afterHeader [c, t, hi, lo] rest).conn.readFull 16380 =
      ({ (p.afterHeader [c, t, hi, lo] rest).conn with input := [] }, rest,
        some Err.unexpectedEOF) := by
    have h1 : ¬ (16380 ≤ rest.length) := by omega
    simp [Conn.readFull, Pipe.afterHeader, h1, hr]
  simp only [hc, ht, ne_eq, not_false_eq_true, and_self, if_true, hlen, gt_iff_lt, hl2, hrf]
    at hstep
  exact ⟨_, by rw [Pipe.Read, hstep], rfl⟩

/-- C2 (code at the failing input). Pipe with term 1; on the wire a `CmdTrans` frame of term 0
with the one-byte payload `07`, then a `CmdTrans` frame of term 1 with payload `09`. `Read`
does not stop draining after the one stale payload byte: it consumes the second frame as
well, returns no byte and fails with an unexpected end of stream. -/
theorem read_stale_frame_overdrains :
    ∃ q, (((New ⟨[], [], false, 0⟩ 0 0 1).reset.1).withInput
          (Magic ++ [CmdTrans, 0, 0, 1, 7] ++ (Magic ++ [CmdTrans, 1, 0, 1, 9]))).Read
          [0, 0, 0, 0] 1 =
        Run.ret { p := q, b := [0, 0, 0, 0], n := 0, err := some Err.unexpectedEOF } ∧
      q.conn.input = [] :=
  read_stale_short _ [0, 0, 0, 0] ([7] ++ (Magic ++ [CmdTrans, 1, 0, 1, 9])) 1 CmdTrans 0 0 1 rfl
    (List.length_replicate _ _) (by decide) (by decide) (by decide) (by decide) (by decide)
    (by rfl)

/-- On a `CmdTrans` frame of the current term carrying one to three bytes,
`WaitForHandShake` returns no address and a nil error. -/
theorem waitForHandShake_short_trans (sha : List Nat → List Nat) (p : Pipe)
    (s X rest : List Nat) (k : Nat) (hn : p.n = 0) (hb : p.readBuf.length = bufSize)
    (hX : X ≠ []) (hXl : X.length ≤ 3)
    (hi : p.conn.input = frame CmdTrans p.term X ++ rest) :
    ∃ q, p.WaitForHandShake sha s k = Run.ret (q, [], none) := by
  obtain ⟨m, q, hm1, hm2, hm3, hread, _⟩ := read_trans_frame (p.setState InUse) X rest 1024 k
    (by simpa [Pipe.setState] using hn) (by simpa [Pipe.setState] using hb) hX (by omega)
    (by decide) (by simpa [Pipe.setState] using hi)
  refine ⟨q, ?_⟩
  have hlt : (m : Int) < 4 := by omega
  simp only [Pipe.WaitForHandShake, hread, ne_eq, not_true_eq_false, hlt, or_true, if_true]

/-- C5 (code at the failing input). Fresh pipe; on the wire one `CmdTrans` frame of the
current term with the one-byte payload `09`. `WaitForHandShake` returns a nil error (and an
empty address) although no `CmdConn` frame arrived and no MAC was checked. -/
theorem waitForHandShake_accepts_data_frame :
    ∃ q, ((New ⟨[], [], false, 0⟩ 0 0 1).withInput (Magic ++ [CmdTrans, 0, 0, 1, 9])).WaitForHandShake
        (fun x => List.replicate 32 (x.sum % 256)) [5] 0 = Run.ret (q, [], none) :=
  waitForHandShake_short_trans _ _ [5] [9] [] 0 rfl (List.length_replicate _ _) (by decide)
    (by decide) rfl


/-- C6 (code at the failing input). With `maxSize` 1, `Put` of pipe 1 at time 0 followed by
`Get` at time 10 (`maxAge` 100): `Get` does not return pipe 1 but calls the factory and
returns its pipe, pipe 1 having been dropped from the pool unclosed. With two live pipes 1
and 2 in the pool, `Get` returns pipe 2, not the front pipe 1, and pipe 2 stays in the
pool. -/
theorem get_skips_front_live_pipe :
    (∃ pool1 w1, (NewPool 1 100 dial).Put freshWorld 1 0 = Run.ret (pool1, w1) ∧
      pool1.l = [1] ∧
      (pool1.Get w1 10).2.2.1 = 1001 ∧ (pool1.Get w1 10).2.2.2 = none ∧
      (pool1.Get w1 10).2.1.calls = 1 ∧ (pool1.Get w1 10).1.l = [] ∧
      ((pool1.Get w1 10).2.1.heap 1).state = Idle) ∧
    (∃ pool2 w2, (NewPool 4 100 dial).putAll freshWorld [(1, 0), (2, 0)] = Run.ret (pool2, w2) ∧
      pool2.l = [1, 2] ∧
      (pool2.Get w2 10).2.2.1 = 2 ∧ (pool2.Get w2 10).2.2.2 = none ∧
      (pool2.Get w2 10).2.1.calls = 0 ∧ (pool2.Get w2 10).1.l = [2] ∧
      ((pool2.Get w2 10).2.1.heap 1).state = Idle) :=
  ⟨⟨_, _, rfl, by decide, by decide, by decide, by decide, by decide, by decide⟩,
   ⟨_, _, rfl, by decide, by decide, by decide, by decide, by decide, by decide⟩⟩

/-- C7 (code at the failing input). A pool holding one pipe that is 10 time units old, with
`maxAge` 100: `cleanup` returns 0 and closes nothing, yet the pipe is no longer in the
pool. -/
theorem cleanup_removes_live_pipe :
    ∃ pool1 w1, (NewPool 4 100 dial).Put freshWorld 1 0 = Run.ret (pool1, w1) ∧
      pool1.l = [1] ∧
      (pool1.cleanup w1 10).2.2 = 0 ∧
      (pool1.cleanup w1 10).1.l = [] ∧
      ((pool1.cleanup w1 10).2.1.heap 1).state = Idle ∧
      ((pool1.cleanup w1 10).2.1.heap 1).conn.closes = 0 :=
  ⟨_, _, rfl, by decide, by decide, by decide, by decide, by decide⟩

/-- C9 (code at the failing input). From an empty pool (`maxSize` 2, `maxAge` 100): two
producers `Put` pipes 1 and 2; the dispatcher acquires a pipe at time 10 and gets pipe 2,
which is now `InUse` and still contained in the pool; two further `Put`s by producers then
evict and close pipe 2 while the dispatcher is using it. -/
theorem pool_holds_pipe_in_use :
    ∃ pool2 w2 pool3 w3 pool5 w5,
      (NewPool 2 100 dial).putAll freshWorld [(1, 0), (2, 0)] = Run.ret (pool2, w2) ∧
      Client.acquire (fun x => List.replicate 32 (x.sum % 256)) [9, 9, 9] [5] 10 1 pool2 w2 =
        Run.ret (pool3, w3, some 2) ∧
      2 ∈ pool3.l ∧ (w3.heap 2).state = InUse ∧
      pool3.putAll w3 [(3, 11), (4, 11)] = Run.ret (pool5, w5) ∧
      (w5.heap 2).state = Closed ∧ (w5.heap 2).conn.closes = 1 :=
  ⟨_, _, _, _, _, _, rfl, rfl, by decide, by decide, rfl, by decide, by decide⟩


theorem close_state (p : Pipe) : (p.Close).1.state = Closed := by
  unfold Pipe.Close
  split
  · assumption
  · rfl

theorem world_close_state (w : World) (e q : Nat) :
    ((w.close e).heap q).state = Closed ↔ q = e ∨ (w.heap q).state = Closed := by
  unfold World.close
  by_cases h : q = e
  · subst h
    simp [close_state]
  · simp [Function.update_noteq h, h]

theorem closeAll_state (es : List Nat) : ∀ (w : World) (q : Nat),
    ((w.closeAll es).heap q).state = Closed ↔ q ∈ es ∨ (w.heap q).state = Closed := by
  induction es with
  | nil => intro w q; simp [World.closeAll]
  | cons e es ih =>
    intro w q
    have : w.closeAll (e :: es) = (w.close e).closeAll es := rfl
    rw [this, ih, world_close_state]
    simp only [List.mem_cons]
    tauto

/-- The eviction loop of `Put` leaves the last `maxSize - 1` pipes and closes the others. -/
theorem evictLoop_spec (M : Int) (hM : 1 ≤ M) : ∀ (l : List Nat) (w : World),
    Pool.evictLoop M l w =
      Run.ret (l.drop (l.length - (M.toNat - 1)), w.closeAll (l.take (l.length - (M.toNat - 1)))) := by
  intro l
  induction l with
  | nil =>
    intro w
    have : ¬ ((0 : Int) ≥ M) := by omega
    simp [Pool.evictLoop, this, World.closeAll]
  | cons e rest ih =>
    intro w
    rw [Pool.evictLoop]
    by_cases h : (((e :: rest).length : Nat) : Int) ≥ M
    · rw [if_pos h, ih]
      have hl : (e :: rest).length - (M.toNat - 1) = (rest.length - (M.toNat - 1)) + 1 := by
        simp only [List.length_cons] at h ⊢
        omega
      rw [hl]
      rfl
    · rw [if_neg h]
      have hl : (e :: rest).length - (M.toNat - 1) = 0 := by
        simp only [List.length_cons] at h ⊢
        omega
      rw [hl]
      rfl

theorem put_spec (pool : Pool) (w : World) (p : Nat) (now : Int) (hM : 1 ≤ pool.maxSize) :
    pool.Put w p now =
      Run.ret ({ pool with l := pool.l.drop (pool.l.length - (pool.maxSize.toNat - 1)) ++ [p] },
        { w.closeAll (pool.l.take (pool.l.length - (pool.maxSize.toNat - 1))) with
          heap := Function.update
            (w.closeAll (pool.l.take (pool.l.length - (pool.maxSize.toNat - 1)))).heap p
            { (w.closeAll (pool.l.take (pool.l.length - (pool.maxSize.toNat - 1)))).heap p with
              lastActive := now } }) := by
  simp only [Pool.Put, evictLoop_spec pool.maxSize hM]

theorem put_state (w : World) (p q : Nat) (now : Int) :
    ((Function.update w.heap p { w.heap p with lastActive := now }) q).state = (w.heap q).state := by
  by_cases h : q = p
  · subst h; simp
  · simp [Function.update_noteq h]

/-- Consecutive `Put`s on a pool within its bound keep the last `maxSize` pipes of what was
in the pool followed by what was put, and close exactly the others. -/
theorem putAll_spec : ∀ (puts : List (Nat × Int)) (pool : Pool) (w : World),
    1 ≤ pool.maxSize → (pool.l.length : Int) ≤ pool.maxSize →
    ∃ pool' w', pool.putAll w puts = Run.ret (pool', w') ∧
      pool'.l = (pool.l ++ puts.map Prod.fst).drop
        ((pool.l ++ puts.map Prod.fst).length - pool.maxSize.toNat) ∧
      pool'.maxSize = pool.maxSize ∧
      ∀ q, (w'.heap q).state = Closed ↔
        q ∈ (pool.l ++ puts.map Prod.fst).take
          ((pool.l ++ puts.map Prod.fst).length - pool.maxSize.toNat) ∨
        (w.heap q).state = Closed := by
  intro puts
  induction puts with
  | nil =>
    intro pool w hM hl
    refine ⟨pool, w, rfl, ?_, rfl, ?_⟩
    · have : pool.l.length - pool.maxSize.toNat = 0 := by omega
      simp [this]
    · intro q
      have : pool.l.length - pool.maxSize.toNat = 0 := by omega
      simp [this]
  | cons e rest ih =>
    intro pool w hM hl
    obtain ⟨p, now⟩ := e
    set d := pool.l.length - (pool.maxSize.toNat - 1) with hd
    have hdl : d ≤ pool.l.length := by omega
    have hput := put_spec pool w p now hM
    rw [← hd] at hput
    set pool1 : Pool := { pool with l := pool.l.drop d ++ [p] } with hp1
    set w1 : World := { w.closeAll (pool.l.take d) with
      heap := Function.update (w.closeAll (pool.l.take d)).heap p
        { (w.closeAll (pool.l.take d)).heap p with lastActive := now } } with hw1
    have hl1 : (pool1.l.length : Int) ≤ pool1.maxSize := by
      simp only [hp1, List.length_append, List.length_drop, List.length_singleton]
      omega
    obtain ⟨pool', w', h1, h2, h3, h4⟩ := ih pool1 w1 hM hl1
    refine ⟨pool', w', ?_, ?_, h3, ?_⟩
    · simp only [Pool.putAll, hput]
      exact h1
    · rw [h2]
      have hsplit : pool.l ++ List.map Prod.fst ((p, now) :: rest) =
          pool.l.take d ++ (pool1.l ++ rest.map Prod.fst) := by
        simp only [hp1, List.map_cons, List.append_assoc, List.singleton_append]
        rw [← List.append_assoc, List.take_append_drop]
      rw [hsplit]
      have hlen : (pool.l.take d ++ (pool1.l ++ rest.map Prod.fst)).length - pool.maxSize.toNat =
          (pool.l.take d).length + ((pool1.l ++ rest.map Prod.fst).length - pool1.maxSize.toNat) := by
        simp only [hp1, List.length_append, List.length_take, List.length_drop,
          List.length_singleton, List.length_map]
        omega
      rw [hlen, ← List.drop_drop, List.drop_left]
    · intro q
      rw [h4]
      have hsplit : pool.l ++ List.map Prod.fst ((p, now) :: rest) =
          pool.l.take d ++ (pool1.l ++ rest.map Prod.fst) := by
        simp only [hp1, List.map_cons, List.append_assoc, List.singleton_append]
        rw [← List.append_assoc, List.take_append_drop]
      rw [hsplit]
      have hlen : (pool.l.take d ++ (pool1.l ++ rest.map Prod.fst)).length - pool.maxSize.toNat =
          (pool.l.take d).length + ((pool1.l ++ rest.map Prod.fst).length - pool1.maxSize.toNat) := by
        simp only [hp1, List.length_append, List.length_take, List.length_drop,
          List.length_singleton, List.length_map]
        omega
      rw [hlen, List.take_add, List.take_left, List.drop_left, List.mem_append]
      have hs : (w1.heap q).state = Closed ↔ q ∈ pool.l.take d ∨ (w.heap q).state = Closed := by
        rw [hw1]
        show ((Function.update (w.closeAll (pool.l.take d)).heap p _) q).state = Closed ↔ _
        rw [put_state, closeAll_state]
      rw [hs]
      tauto


theorem close_closes (p : Pipe) :
    (p.Close).1.conn.closes = p.conn.closes + (if p.state ≠ Closed then 1 else 0) := by
  unfold Pipe.Close
  by_cases h : p.state = Closed
  · simp [h]
  · simp [h, Pipe.setState, Conn.close]

theorem world_close_closes (w : World) (e q : Nat) :
    ((w.close e).heap q).conn.closes =
      (w.heap q).conn.closes + (if q = e ∧ (w.heap q).state ≠ Closed then 1 else 0) := by
  unfold World.close
  by_cases h : q = e
  · subst h
    simp only [Function.update_same, close_closes, true_and]
  · simp [Function.update_noteq h, h]

/-- Closing the pipes of a list calls `Close` on the connection of each pipe of the list that
was not closed before, once, and on no other connection. -/
theorem closeAll_closes (es : List Nat) : ∀ (w : World) (q : Nat),
    ((w.closeAll es).heap q).conn.closes =
      (w.heap q).conn.closes + (if q ∈ es ∧ (w.heap q).state ≠ Closed then 1 else 0) := by
  induction es with
  | nil => intro w q; simp [World.closeAll]
  | cons e es ih =>
    intro w q
    have : w.closeAll (e :: es) = (w.close e).closeAll es := rfl
    rw [this, ih, world_close_closes]
    have hs := world_close_state w e q
    simp only [List.mem_cons]
    by_cases h1 : q = e <;> by_cases h2 : (w.heap q).state = Closed <;>
      by_cases h3 : q ∈ es <;> simp [h1, h2, h3, hs] <;> simp_all

theorem put_closes (w : World) (p q : Nat) (now : Int) :
    ((Function.update w.heap p { w.heap p with lastActive := now }) q).conn.closes =
      (w.heap q).conn.closes := by
  by_cases h : q = p
  · subst h; simp
  · simp [Function.update_noteq h]

/-- Consecutive `Put`s on a pool within its bound call `Close` once on the connection of each
pipe they evict that was not closed before, and on no other connection. -/
theorem putAll_closes : ∀ (puts : List (Nat × Int)) (pool : Pool) (w : World),
    1 ≤ pool.maxSize → (pool.l.length : Int) ≤ pool.maxSize →
    ∀ pool' w', pool.putAll w puts = Run.ret (pool', w') →
      ∀ q, (w'.heap q).conn.closes = (w.heap q).conn.closes +
        (if q ∈ (pool.l ++ puts.map Prod.fst).take
              ((pool.l ++ puts.map Prod.fst).length - pool.maxSize.toNat) ∧
            (w.heap q).state ≠ Closed then 1 else 0) := by
  intro puts
  induction puts with
  | nil =>
    intro pool w hM hl pool' w' h q
    simp only [Pool.putAll, Run.ret.injEq, Prod.mk.injEq] at h
    obtain ⟨-, rfl⟩ := h
    have : pool.l.length - pool.maxSize.toNat = 0 := by omega
    simp [this]
  | cons e rest ih =>
    intro pool w hM hl pool' w' h q
    obtain ⟨p, now⟩ := e
    set d := pool.l.length - (pool.maxSize.toNat - 1) with hd
    have hdl : d ≤ pool.l.length := by omega
    have hput := put_spec pool w p now hM
    rw [← hd] at hput
    set pool1 : Pool := { pool with l := pool.l.drop d ++ [p] } with hp1
    set w1 : World := { w.closeAll (pool.l.take d) with
      heap := Function.update (w.closeAll (pool.l.take d)).heap p
        { (w.closeAll (pool.l.take d)).heap p with lastActive := now } } with hw1
    have hl1 : (pool1.l.length : Int) ≤ pool1.maxSize := by
      simp only [hp1, List.length_append, List.length_drop, List.length_singleton]
      omega
    simp only [Pool.putAll, hput] at h
    have h5 := ih pool1 w1 hM hl1 pool' w' h q
    rw [h5]
    have hsplit : pool.l ++ List.map Prod.fst ((p, now) :: rest) =
        pool.l.take d ++ (pool1.l ++ rest.map Prod.fst) := by
      simp only [hp1, List.map_cons, List.append_assoc, List.singleton_append]
      rw [← List.append_assoc, List.take_append_drop]
    have hlen : (pool.l.take d ++ (pool1.l ++ rest.map Prod.fst)).length - pool.maxSize.toNat =
        (pool.l.take d).length + ((pool1.l ++ rest.map Prod.fst).length - pool1.maxSize.toNat) := by
      simp only [hp1, List.length_append, List.length_take, List.length_drop,
        List.length_singleton, List.length_map]
      omega
    have hmem : q ∈ (pool.l ++ List.map Prod.fst ((p, now) :: rest)).take
          ((pool.l ++ List.map Prod.fst ((p, now) :: rest)).length - pool.maxSize.toNat) ↔
        q ∈ pool.l.take d ∨
          q ∈ List.take ((pool1.l ++ rest.map Prod.fst).length - pool1.maxSize.toNat)
            (pool1.l ++ rest.map Prod.fst) := by
      rw [hsplit, hlen, List.take_add, List.take_left, List.drop_left, List.mem_append]
    have hs : (w1.heap q).state = Closed ↔ q ∈ pool.l.take d ∨ (w.heap q).state = Closed := by
      rw [hw1]
      show ((Function.update (w.closeAll (pool.l.take d)).heap p _) q).state = Closed ↔ _
      rw [put_state, closeAll_state]
    have hc : (w1.heap q).conn.closes = (w.heap q).conn.closes +
        (if q ∈ pool.l.take d ∧ (w.heap q).state ≠ Closed then 1 else 0) := by
      rw [hw1]
      show ((Function.update (w.closeAll (pool.l.take d)).heap p _) q).conn.closes = _
      rw [put_closes, closeAll_closes]
    rw [hc]
    simp only [hmem, hs, ne_eq]
    split_ifs <;> first | rfl | omega | (exfalso; tauto)

/-- C8. Pool bounds under `Put`: with `maxSize ≥ 1`, `Put(p)` returns, leaves at most
`maxSize` pipes in the pool, the pipe `p` at the back behind an end part of the old list,
and `p.lastActive = now`; and `maxSize + k` consecutive `Put`s of distinct unclosed pipes
into an empty pool leave exactly the last `maxSize` of them in the pool, in insertion
order, the pipes closed by then being exactly the first `k` (and those closed before):
the state of each of the first `k` is `Closed` and `Close` has been called on its connection
exactly once, and on no other connection. -/
theorem pool_bounds_under_put (pool : Pool) (w : World) (hM : 1 ≤ pool.maxSize) :
    (∀ (p : Nat) (now : Int), ∃ pool' w', pool.Put w p now = Run.ret (pool', w') ∧
        (0 : Int) ≤ pool'.l.length ∧ (pool'.l.length : Int) ≤ pool.maxSize ∧
        (∃ front, pool'.l = front ++ [p] ∧ front <:+ pool.l) ∧
        (w'.heap p).lastActive = now) ∧
    (∀ (k : Nat) (puts : List (Nat × Int)), pool.l = [] →
        (puts.map Prod.fst).Nodup → (puts.length : Int) = pool.maxSize + k →
        (∀ e ∈ puts, (w.heap e.1).state ≠ Closed) →
        ∃ pool' w', pool.putAll w puts = Run.ret (pool', w') ∧
          pool'.l = (puts.map Prod.fst).drop k ∧
          (pool'.l.length : Int) = pool.maxSize ∧
          (∀ q ∈ (puts.map Prod.fst).take k, (w'.heap q).state = Closed) ∧
          (∀ q ∈ (puts.map Prod.fst).drop k, (w'.heap q).state ≠ Closed) ∧
          (∀ q, (w'.heap q).state = Closed ↔
            q ∈ (puts.map Prod.fst).take k ∨ (w.heap q).state = Closed) ∧
          (∀ q ∈ (puts.map Prod.fst).take k,
            (w'.heap q).conn.closes = (w.heap q).conn.closes + 1) ∧
          (∀ q, q ∉ (puts.map Prod.fst).take k →
            (w'.heap q).conn.closes = (w.heap q).conn.closes)) := by
  constructor
  · intro p now
    refine ⟨_, _, put_spec pool w p now hM, by omega, ?_,
      ⟨_, rfl, List.drop_suffix _ _⟩, ?_⟩
    · simp only [List.length_append, List.length_drop, List.length_singleton]
      omega
    · simp
  · intro k puts hl hnd hlen hnc
    obtain ⟨pool', w', h1, h2, _, h4⟩ := putAll_spec puts pool w hM (by rw [hl]; simp; omega)
    have h5 := putAll_closes puts pool w hM (by rw [hl]; simp; omega) pool' w' h1
    have hk : (pool.l ++ puts.map Prod.fst).length - pool.maxSize.toNat = k := by
      rw [hl]; simp; omega
    rw [hk, hl, List.nil_append] at h2 h4 h5
    refine ⟨pool', w', h1, h2, ?_, ?_, ?_, h4, ?_, ?_⟩
    · rw [h2]; simp; omega
    · intro q hq
      exact (h4 q).mpr (Or.inl hq)
    · intro q hq hc
      rcases (h4 q).mp hc with h | h
      · have hnd' : (List.take k (puts.map Prod.fst) ++ List.drop k (puts.map Prod.fst)).Nodup := by
          rw [List.take_append_drop]; exact hnd
        exact (List.disjoint_of_nodup_append hnd') h hq
      · have hq' : q ∈ puts.map Prod.fst := List.mem_of_mem_drop hq
        obtain ⟨e, he, rfl⟩ := List.mem_map.mp hq'
        exact hnc e he h
    · intro q hq
      have hq' : q ∈ puts.map Prod.fst := List.mem_of_mem_take hq
      obtain ⟨e, he, rfl⟩ := List.mem_map.mp hq'
      rw [h5, if_pos ⟨hq, hnc e he⟩]
    · intro q hq
      rw [h5, if_neg (fun h => hq h.1)]
      rfl

/-- Witness for C8: a pool of size 2; one `Put`, and three `Put`s of fresh pipes 1, 2, 3 into
the empty pool (`k = 1`). -/
theorem pool_bounds_under_put_witness :
    (∃ pool' w', (NewPool 2 100 dial).Put freshWorld 1 5 = Run.ret (pool', w') ∧
        (0 : Int) ≤ pool'.l.length ∧ (pool'.l.length : Int) ≤ (NewPool 2 100 dial).maxSize ∧
        (∃ front, pool'.l = front ++ [1] ∧ front <:+ (NewPool 2 100 dial).l) ∧
        (w'.heap 1).lastActive = 5) ∧
    (∃ pool' w', (NewPool 2 100 dial).putAll freshWorld [(1, 0), (2, 1), (3, 2)] =
          Run.ret (pool', w') ∧
        pool'.l = [2, 3] ∧
        (pool'.l.length : Int) = (NewPool 2 100 dial).maxSize ∧
        (∀ q ∈ [1], (w'.heap q).state = Closed) ∧
        (∀ q ∈ [2, 3], (w'.heap q).state ≠ Closed) ∧
        (∀ q, (w'.heap q).state = Closed ↔ q ∈ [1] ∨ (freshWorld.heap q).state = Closed) ∧
        (∀ q ∈ [1], (w'.heap q).conn.closes = (freshWorld.heap q).conn.closes + 1) ∧
        (∀ q, q ∉ [1] → (w'.heap q).conn.closes = (freshWorld.heap q).conn.closes)) :=
  ⟨(pool_bounds_under_put (NewPool 2 100 dial) freshWorld (by decide)).1 1 5,
   (pool_bounds_under_put (NewPool 2 100 dial) freshWorld (by decide)).2 1
     [(1, 0), (2, 1), (3, 2)] rfl (by decide) (by decide) (by decide)⟩

/-! ## The loop budgets are never used up -/

theorem readFull_none (c c' : Conn) (k : Nat) (d : List Nat)
    (h : c.readFull k = (c', d, none)) : c'.input.length + k = c.input.length := by
  unfold Conn.readFull at h
  split_ifs at h with h1 h2
  · simp only [Prod.mk.injEq] at h
    obtain ⟨rfl, -, -⟩ := h
    simp; omega
  · simp at h
  · simp at h

theorem checkMagic_none (p p1 : Pipe) (h : p.checkMagic = (p1, none)) :
    p1.conn.input.length + 4 = p.conn.input.length := by
  unfold Pipe.checkMagic at h
  split at h
  · simp at h
  · rename_i c data hrf
    have := readFull_none _ _ _ _ hrf
    simp only at h
    split_ifs at h
    · simp at h
    · simp only [Prod.mk.injEq, and_true] at h
      subst h
      simpa [Magic] using this

theorem readPayload_ne_exhausted (p : Pipe) (b : List Nat) (k : Nat) :
    p.readPayload b k ≠ Run.exhausted := by
  unfold Pipe.readPayload
  simp only
  split_ifs <;> simp

/-- The budget `Read` gives its loop is never used up. -/
theorem readFrames_ne_exhausted (b : List Nat) (k : Nat) : ∀ (fuel : Nat) (p : Pipe),
    p.conn.input.length < fuel → Pipe.readFrames b k fuel p ≠ Run.exhausted := by
  intro fuel
  induction fuel with
  | zero => intro p h; omega
  | succ fuel ih =>
    intro p hlt
    rw [Pipe.readFrames]
    split_ifs with hn
    · split
      · simp
      · rename_i p1 hcm
        have h1 := checkMagic_none _ _ hcm
        split
        · simp
        · rename_i c hdr hrf
          have h2 := readFull_none _ _ _ _ hrf
          simp only
          split_ifs
          · split
            · simp
            · rename_i c3 d3 hrf3
              have h3 := readFull_none _ _ _ _ hrf3
              apply ih
              simp only at h3 ⊢
              omega
          · apply ih; simp only; omega
          · simp
          · simp
          · split
            · simp
            · simp
          · apply ih; simp only; omega
          · apply ih; simp only; omega
          · simp
    · exact readPayload_ne_exhausted p b k

theorem read_ne_exhausted (p : Pipe) (b : List Nat) (k : Nat) : p.Read b k ≠ Run.exhausted :=
  readFrames_ne_exhausted b k _ p (Nat.lt_succ_self _)

theorem writeChunks_ne_exhausted (b : List Nat) : ∀ (fuel : Nat) (p : Pipe) (pos n : Nat),
    n ≤ fuel → Pipe.writeChunks b fuel p pos n ≠ Run.exhausted := by
  intro fuel
  induction fuel with
  | zero =>
    intro p pos n h
    have : n = 0 := by omega
    subst this
    simp [Pipe.writeChunks]
  | succ fuel ih =>
    intro p pos n h
    rw [Pipe.writeChunks]
    split_ifs with hn
    · simp only
      split
      · simp
      · apply ih
        have : 0 < MaxLen := by decide
        omega
    · simp

theorem write_ne_exhausted (p : Pipe) (b : List Nat) : p.Write b ≠ Run.exhausted :=
  writeChunks_ne_exhausted b _ p 0 _ (Nat.le_refl _)

/-! ## Commands, reset, interrupts, error classification, handshake safety -/

/-- C12. Commands `CmdErr` and above are never dropped by the term test: on a frame boundary,
a frame whose command byte is 4 or more makes `Read` return 0 bytes and the unknown-command
error, whatever its term byte and LENGTH are; only the 8 bytes of magic and header are
consumed. -/
theorem unknown_cmd_not_dropped (p : Pipe) (b rest : List Nat) (k c t hi lo : Nat)
    (hn : p.n = 0) (hb : p.readBuf.length = bufSize) (hc : CmdErr ≤ c)
    (hin : p.conn.input = Magic ++ [c, t, hi, lo] ++ rest) :
    ∃ q, p.Read b k = Run.ret { p := q, b := b, n := 0, err := some (Err.unknownCmd c) } ∧
      q.conn.input = rest ∧ q.n = 0 ∧ q.term = p.term ∧ q.state = p.state := by
  have hstep := readFrames_step p b k p.conn.input.length c t hi lo rest hn
    (by rw [hb]; decide) hin
  have hc4 : 4 ≤ c := hc
  have h1 : ¬ (c < CmdErr ∧ t ≠ p.term) := fun h => absurd h.1 (by simp only [CmdErr]; omega)
  have h2 : ¬ c = CmdClose := by simp only [CmdClose]; omega
  have h3 : ¬ c = CmdConn := by simp only [CmdConn]; omega
  have h4 : ¬ c = CmdTrans := by simp only [CmdTrans]; omega
  have h5 : ¬ c = CmdPing := by simp only [CmdPing]; omega
  simp only [h1, h2, h3, h4, h5, if_false] at hstep
  exact ⟨p.afterHeader [c, t, hi, lo] rest, by rw [Pipe.Read, hstep], rfl, hn, rfl, rfl⟩

/-- Witness for C12: a fresh pipe and a `CmdErr` frame of term 7 with LENGTH 1. -/
theorem unknown_cmd_not_dropped_witness :
    ∃ q, ((New ⟨[], [], false, 0⟩ 0 0 1).withInput (Magic ++ [4, 7, 0, 1] ++ [9])).Read [0, 0] 1 =
        Run.ret { p := q, b := [0, 0], n := 0, err := some (Err.unknownCmd 4) } ∧
      q.conn.input = [9] ∧ q.n = 0 ∧
      q.term = ((New ⟨[], [], false, 0⟩ 0 0 1).withInput (Magic ++ [4, 7, 0, 1] ++ [9])).term ∧
      q.state = ((New ⟨[], [], false, 0⟩ 0 0 1).withInput (Magic ++ [4, 7, 0, 1] ++ [9])).state :=
  unknown_cmd_not_dropped ((New ⟨[], [], false, 0⟩ 0 0 1).withInput (Magic ++ [4, 7, 0, 1] ++ [9]))
    [0, 0] [9] 1 4 7 0 1 rfl (List.length_replicate _ _) (by decide) rfl

theorem resetN_term : ∀ (n : Nat) (p : Pipe),
    (Pipe.resetN n p).term = if n = 0 then p.term else (p.term + n) % 256 := by
  intro n
  induction n with
  | zero => intro p; rfl
  | succ n ih =>
    intro p
    have hr : (p.reset).1.term = (p.term + 1) % 256 := rfl
    rw [show Pipe.resetN (n + 1) p = Pipe.resetN n (p.reset).1 from rfl, ih, hr]
    split_ifs <;> first | contradiction | omega

/-- C14. Reset advances the generation modulo 256: `reset` sets `term` to `(t + 1) mod 256`,
sets the state to `Idle`, returns a nil error and leaves `n`, both buffers and the connection
as they were; 256 consecutive resets bring `term` back to its value. -/
theorem reset_advances_term (p : Pipe) (ht : p.term < 256) :
    (p.reset).1.term = (p.term + 1) % 256 ∧ (p.term = 255 → (p.reset).1.term = 0) ∧
      (p.reset).1.state = Idle ∧ (p.reset).2 = none ∧
      (p.reset).1.n = p.n ∧ (p.reset).1.readBuf = p.readBuf ∧
      (p.reset).1.writeBuf = p.writeBuf ∧ (p.reset).1.conn = p.conn ∧
      (Pipe.resetN 256 p).term = p.term := by
  refine ⟨rfl, ?_, rfl, rfl, rfl, rfl, rfl, rfl, ?_⟩
  · intro h
    show (p.term + 1) % 256 = 0
    rw [h]
  · rw [resetN_term 256 p]
    simp only [OfNat.ofNat_ne_zero, if_false]
    omega

/-- Witness for C14: a fresh pipe (term 0). -/
theorem reset_advances_term_witness :
    ((New ⟨[], [], false, 0⟩ 0 0 1).reset).1.term = ((New ⟨[], [], false, 0⟩ 0 0 1).term + 1) % 256 ∧
      ((New ⟨[], [], false, 0⟩ 0 0 1).term = 255 → ((New ⟨[], [], false, 0⟩ 0 0 1).reset).1.term = 0) ∧
      ((New ⟨[], [], false, 0⟩ 0 0 1).reset).1.state = Idle ∧
      ((New ⟨[], [], false, 0⟩ 0 0 1).reset).2 = none ∧
      ((New ⟨[], [], false, 0⟩ 0 0 1).reset).1.n = (New ⟨[], [], false, 0⟩ 0 0 1).n ∧
      ((New ⟨[], [], false, 0⟩ 0 0 1).reset).1.readBuf = (New ⟨[], [], false, 0⟩ 0 0 1).readBuf ∧
      ((New ⟨[], [], false, 0⟩ 0 0 1).reset).1.writeBuf = (New ⟨[], [], false, 0⟩ 0 0 1).writeBuf ∧
      ((New ⟨[], [], false, 0⟩ 0 0 1).reset).1.conn = (New ⟨[], [], false, 0⟩ 0 0 1).conn ∧
      (Pipe.resetN 256 (New ⟨[], [], false, 0⟩ 0 0 1)).term = (New ⟨[], [], false, 0⟩ 0 0 1).term :=
  reset_advances_term (New ⟨[], [], false, 0⟩ 0 0 1) (by decide)

/-- C17. Only the first local interrupt succeeds: `interruptLocal` returns true and sets the
state to `Interrupted` exactly when the state was `InUse`; from any other state it returns
false and leaves the pipe as it was; the second of two successive calls returns false. -/
theorem only_first_interrupt_succeeds (p : Pipe) :
    ((p.interruptLocal).2 = true ↔ p.state = InUse) ∧
      (p.state = InUse → p.interruptLocal = ({ p with state := Interrupted }, true)) ∧
      (p.state ≠ InUse → p.interruptLocal = (p, false)) ∧
      ((p.interruptLocal).1.interruptLocal).2 = false := by
  by_cases h : p.state = InUse
  · refine ⟨?_, ?_, ?_, ?_⟩
    · simp [Pipe.interruptLocal, h]
    · intro _; simp [Pipe.interruptLocal, h]
    · intro h'; exact absurd h h'
    · simp [Pipe.interruptLocal, h, Interrupted, InUse]
  · refine ⟨?_, ?_, ?_, ?_⟩
    · simp [Pipe.interruptLocal, h]
    · intro h'; exact absurd h' h
    · intro _; simp [Pipe.interruptLocal, h]
    · simp [Pipe.interruptLocal, h]

/-- C19 (code at the failing input). `IsPipeErr` tests the error text with
`strings.ContainsAny`, so any error whose text shares a character with "pipe closed" counts
as a pipe error: `io.ErrUnexpectedEOF` and `io.ErrShortWrite` do, although neither is
`ErrPipe`; with `readLoop` ending in nil and `writeLoop` in `io.ErrShortWrite`, `Bind`
returns `ErrPipe` and does not reset the pipe. -/
theorem isPipeErr_accepts_other_errors :
    IsPipeErr "10.0.0.1:5000" none = Run.ret false ∧
      IsPipeErr "10.0.0.1:5000" (some ErrPipe) = Run.ret true ∧
      GoError.other "unexpected EOF" ≠ ErrPipe ∧
      IsPipeErr "10.0.0.1:5000" (some (GoError.other "unexpected EOF")) = Run.ret true ∧
      GoError.other "short write" ≠ ErrPipe ∧
      (New ⟨[], [], false, 0⟩ 0 0 1).bindResolve "10.0.0.1:5000" none
          (some (GoError.other "short write")) =
        Run.ret (New ⟨[], [], false, 0⟩ 0 0 1, some ErrPipe) :=
  ⟨by decide, by decide, by decide, by decide, by decide, rfl⟩

/-- A `CmdConn` frame of the current term whose LENGTH exceeds `len(readBuf) - 4`: the slice
`readBuf[4:4+length]` is out of range and `Read` panics. -/
theorem read_conn_oversize (p : Pipe) (b rest : List Nat) (k hi lo : Nat) (hn : p.n = 0)
    (hb : p.readBuf.length = bufSize) (hl : 16380 < hi * 256 + lo)
    (hin : p.conn.input = Magic ++ [CmdConn, p.term, hi, lo] ++ rest) :
    p.Read b k = Run.panic := by
  have hB : bufSize = 16384 := by decide
  have hstep := readFrames_step p b k p.conn.input.length CmdConn p.term hi lo rest hn
    (by omega) hin
  have hl2 : (p.afterHeader [CmdConn, p.term, hi, lo] rest).readBuf.length = bufSize := by
    simp [Pipe.afterHeader]; omega
  have hp : 4 + (hi * 256 + lo) > (p.afterHeader [CmdConn, p.term, hi, lo] rest).readBuf.length := by
    rw [hl2]; omega
  simp only [CmdErr, CmdConn, CmdClose, ne_eq, not_true_eq_false, and_false, if_false,
    (by decide : ¬ (1 : Nat) = 0), if_true] at hstep
  simp only [CmdConn] at hp
  rw [if_pos hp] at hstep
  rw [Pipe.Read, hstep]

/-- A `CmdConn` frame of the current term with fewer than 28 payload bytes: the handshake
waiter computes a negative `n` and panics, whatever the secret. -/
theorem waitForHandShake_short_conn (sha : List Nat → List Nat) (p : Pipe) (s X rest : List Nat)
    (k : Nat) (hn : p.n = 0) (hb : p.readBuf.length = bufSize) (hX : X.length < 28)
    (hi : p.conn.input = frame CmdConn p.term X ++ rest) :
    p.WaitForHandShake sha s k = Run.panic := by
  have hread := read_conn_frame (p.setState InUse) (List.replicate 1024 0) X rest k
    (by simpa [Pipe.setState] using hn) (by simpa [Pipe.setState] using hb)
    (by omega) (by simpa [Pipe.setState] using hi)
  simp only [Pipe.setState] at hread
  set hi8 := (X.length >>> 8) % 256 with hhi
  set lo8 := X.length % 256 with hlo
  have hlb : hi8 * 256 + lo8 = X.length := length_bytes _ (by omega)
  set Z := (List.replicate 1024 0).drop (4 + X.length) with hZ
  have hbuf : copy (List.replicate 1024 0) ([CmdConn, p.term, hi8, lo8] ++ X) =
      [CmdConn, p.term, hi8, lo8] ++ X ++ Z := by
    have hl : ([CmdConn, p.term, hi8, lo8] ++ X).length = 4 + X.length := by
      simp; omega
    rw [copy_of_le _ _ (by rw [List.length_replicate, hl]; omega), hl]
  rw [hbuf] at hread
  simp only [Pipe.WaitForHandShake, Pipe.setState, hread]
  have hnI : (4 : Int) + (256 * ((([CmdConn, p.term, hi8, lo8] ++ X ++ Z).getD 2 0 : Nat) : Int)
      + ((([CmdConn, p.term, hi8, lo8] ++ X ++ Z).getD 3 0 : Nat) : Int)) - 32
      = (X.length : Int) - 28 := by
    simp only [List.cons_append, List.nil_append, List.getD_cons_succ, List.getD_cons_zero]
    have : ((hi8 * 256 + lo8 : Nat) : Int) = (X.length : Int) := by rw [hlb]
    push_cast at this
    omega
  have h0 : ([CmdConn, p.term, hi8, lo8] ++ X ++ Z).getD 0 0 = CmdConn := rfl
  simp only [hnI, h0]
  have c5 : ¬ (((4 + X.length : Nat) : Int) < 4) := by omega
  have c2 : ((X.length : Int) - 28 < 0 ∨ (X.length : Int) - 28 > 1024) := Or.inl (by omega)
  simp only [c5, c2, if_true, if_false, ne_eq, not_true_eq_false, false_or, or_false]
  split_ifs <;> rfl

/-- C20 (code at the failing inputs). Fresh pipe, 1024-byte handshake buffer. A `CmdConn`
frame of the current term with LENGTH 0 makes `WaitForHandShake` panic (negative length);
one with LENGTH 65535 makes `Read` panic (slice of `readBuf` out of range); one with LENGTH
1021 makes `Read` return the count 1025, more than the 1024 bytes of the caller's buffer. -/
theorem handshake_parsing_panics :
    ((New ⟨[], [], false, 0⟩ 0 0 1).withInput (Magic ++ [CmdConn, 0, 0, 0])).WaitForHandShake
        (fun x => List.replicate 32 (x.sum % 256)) [5] 0 = Run.panic ∧
      ((New ⟨[], [], false, 0⟩ 0 0 1).withInput (Magic ++ [CmdConn, 0, 255, 255])).Read
        (List.replicate 1024 0) 0 = Run.panic ∧
      ∃ r, ((New ⟨[], [], false, 0⟩ 0 0 1).withInput
            (frame CmdConn 0 (List.replicate 1021 0))).Read (List.replicate 1024 0) 0 =
          Run.ret r ∧
        r.n = 1025 ∧ r.err = none ∧ r.b.length = 1024 := by
  refine ⟨?_, ?_, ?_⟩
  · exact waitForHandShake_short_conn _ _ [5] [] [] 0 rfl (List.length_replicate _ _)
      (by decide) (by rfl)
  · exact read_conn_oversize _ _ [] 0 255 255 rfl (List.length_replicate _ _) (by decide)
      (by rfl)
  · refine ⟨_, read_conn_frame _ (List.replicate 1024 0) (List.replicate 1021 0) [] 0 rfl
      (List.length_replicate _ _) (by rw [List.length_replicate]; decide) (by
        show frame CmdConn 0 (List.replicate 1021 0) = frame CmdConn 0 (List.replicate 1021 0) ++ []
        rw [List.append_nil]), ?_, rfl, ?_⟩
    · show (((4 + (List.replicate 1021 0).length : Nat)) : Int) = 1025
      rw [List.length_replicate]; rfl
    · show (copy (List.replicate 1024 0) _).length = 1024
      rw [copy_length, List.length_replicate]

/-- C16 (counterexample). A GC tick on an empty pool with `maxSize` 4 spawns 8 producers,
more than the free capacity `maxSize - k = 4`. -/
theorem gc_refill_exceeds_capacity :
    ((NewPool 4 100 dial).gc freshWorld 0).2.2.2 = 8 ∧
      ((NewPool 4 100 dial).gc freshWorld 0).1.l.length = 0 ∧
      ¬ (((NewPool 4 100 dial).gc freshWorld 0).2.2.2 ≤
          (NewPool 4 100 dial).maxSize - (((NewPool 4 100 dial).gc freshWorld 0).1.l.length : Int)) :=
  ⟨by decide, by decide, by decide⟩

theorem int_shiftRight_one (m : Int) : m >>> (1 : Int) = m / 2 := by
  show m >>> ((1 : Nat) : Int) = m / 2
  cases m with
  | ofNat k =>
    rw [Int.ofNat_eq_coe, Int.shiftRight_coe_nat, Nat.shiftRight_eq_div_pow]
    norm_num
  | negSucc k =>
    rw [Int.shiftRight_negSucc, Nat.shiftRight_eq_div_pow, Int.negSucc_eq, Int.negSucc_eq]
    push_cast
    omega

/-- C16 (amended). For a pool as `NewPool` makes it (low-water mark `max(8, maxSize >> 1)`)
whose size after eviction is `k`, a GC tick spawns exactly `max(0, lowWaterMark - k)`
producers; when `maxSize ≥ 8` and `k ≤ maxSize` this is at most `maxSize - k`, and none when
`k = maxSize`. -/
theorem gc_refill_bound (pool : Pool) (w : World) (now : Int)
    (hlw : pool.lowWarterMark = max (8 : Int) (pool.maxSize >>> 1)) :
    (pool.gc w now).2.2.2 =
        max (0 : Int) (max (8 : Int) (pool.maxSize >>> 1) - ((pool.gc w now).1.l.length : Int)) ∧
      (8 ≤ pool.maxSize → ((pool.gc w now).1.l.length : Int) ≤ pool.maxSize →
        (pool.gc w now).2.2.2 ≤ pool.maxSize - ((pool.gc w now).1.l.length : Int) ∧
        (((pool.gc w now).1.l.length : Int) = pool.maxSize → (pool.gc w now).2.2.2 = 0)) := by
  have hn : (pool.gc w now).2.2.2 =
      max (0 : Int) (max (8 : Int) (pool.maxSize >>> 1) - ((pool.gc w now).1.l.length : Int)) := by
    simp only [Pool.gc, Pool.cleanup, Pool.Len, hlw]
  have hs : pool.maxSize >>> 1 = pool.maxSize / 2 := int_shiftRight_one _
  refine ⟨hn, ?_⟩
  intro h8 hk
  refine ⟨?_, ?_⟩
  · rw [hn, hs]; omega
  · intro he; rw [hn, hs]; omega

/-- Witness for C16 (amended): an empty pool with `maxSize` 8. -/
theorem gc_refill_bound_witness :
    ((NewPool 8 100 dial).gc freshWorld 0).2.2.2 =
        max (0 : Int) (max (8 : Int) ((NewPool 8 100 dial).maxSize >>> 1) -
          (((NewPool 8 100 dial).gc freshWorld 0).1.l.length : Int)) ∧
      ((NewPool 8 100 dial).gc freshWorld 0).2.2.2 ≤
        (NewPool 8 100 dial).maxSize - (((NewPool 8 100 dial).gc freshWorld 0).1.l.length : Int) ∧
      ((((NewPool 8 100 dial).gc freshWorld 0).1.l.length : Int) = (NewPool 8 100 dial).maxSize →
        ((NewPool 8 100 dial).gc freshWorld 0).2.2.2 = 0) :=
  ⟨(gc_refill_bound (NewPool 8 100 dial) freshWorld 0 rfl).1,
   (gc_refill_bound (NewPool 8 100 dial) freshWorld 0 rfl).2 (by decide) (by decide)⟩

theorem checkMagic_fields (p p1 : Pipe) (e : Option Err) (h : p.checkMagic = (p1, e)) :
    p1.state = p.state ∧ p1.term = p.term ∧ p1.writeBuf = p.writeBuf ∧ p1.n = p.n := by
  unfold Pipe.checkMagic at h
  split at h
  · simp only [Prod.mk.injEq] at h
    obtain ⟨rfl, -⟩ := h
    exact ⟨rfl, rfl, rfl, rfl⟩
  · simp only at h
    split_ifs at h <;>
    · simp only [Prod.mk.injEq] at h
      obtain ⟨rfl, -⟩ := h
      exact ⟨rfl, rfl, rfl, rfl⟩

theorem readPayload_fields (p : Pipe) (b : List Nat) (k : Nat) (r : ReadResult)
    (h : p.readPayload b k = Run.ret r) :
    r.p.state = p.state ∧ r.p.term = p.term ∧ r.p.writeBuf = p.writeBuf := by
  unfold Pipe.readPayload at h
  simp only at h
  split_ifs at h
  simp only [Run.ret.injEq] at h
  subst h
  exact ⟨rfl, rfl, rfl⟩

/-- `Read` never changes the state, the term or the write buffer of the pipe. -/
theorem readFrames_fields (b : List Nat) (k : Nat) : ∀ (fuel : Nat) (p : Pipe) (r : ReadResult),
    Pipe.readFrames b k fuel p = Run.ret r →
    r.p.state = p.state ∧ r.p.term = p.term ∧ r.p.writeBuf = p.writeBuf := by
  intro fuel
  induction fuel with
  | zero => intro p r h; simp [Pipe.readFrames] at h
  | succ fuel ih =>
    intro p r h
    rw [Pipe.readFrames] at h
    split_ifs at h with hn
    · split at h
      · rename_i p1 e hcm
        obtain ⟨h1, h2, h3, _⟩ := checkMagic_fields _ _ _ hcm
        simp only [Run.ret.injEq] at h
        subst h
        exact ⟨h1, h2, h3⟩
      · rename_i p1 hcm
        obtain ⟨h1, h2, h3, _⟩ := checkMagic_fields _ _ _ hcm
        split at h
        · simp only [Run.ret.injEq] at h
          subst h
          exact ⟨h1, h2, h3⟩
        · simp only at h
          split_ifs at h
          · split at h
            · simp only [Run.ret.injEq] at h
              subst h
              exact ⟨h1, h2, h3⟩
            · obtain ⟨g1, g2, g3⟩ := ih _ _ h
              exact ⟨g1.trans h1, g2.trans h2, g3.trans h3⟩
          · obtain ⟨g1, g2, g3⟩ := ih _ _ h
            exact ⟨g1.trans h1, g2.trans h2, g3.trans h3⟩
          · simp only [Run.ret.injEq] at h
            subst h
            exact ⟨h1, h2, h3⟩
          · split at h
            · simp only [Run.ret.injEq] at h
              subst h
              exact ⟨h1, h2, h3⟩
            · simp only [Run.ret.injEq] at h
              subst h
              exact ⟨h1, h2, h3⟩
          · obtain ⟨g1, g2, g3⟩ := ih _ _ h
            exact ⟨g1.trans h1, g2.trans h2, g3.trans h3⟩
          · obtain ⟨g1, g2, g3⟩ := ih _ _ h
            exact ⟨g1.trans h1, g2.trans h2, g3.trans h3⟩
          · simp only [Run.ret.injEq] at h
            subst h
            exact ⟨h1, h2, h3⟩
    · exact readPayload_fields p b k r h

theorem writeCmd_state (p : Pipe) (b : List Nat) : (p.writeCmd b).1.state = p.state := rfl

theorem handShake_state (sha : List Nat → List Nat) (p : Pipe) (A s : List Nat) (q : Pipe)
    (e : Option Err) (h : p.HandShake sha A s = Run.ret (q, e)) : q.state = InUse := by
  unfold Pipe.HandShake at h
  simp only at h
  split_ifs at h <;>
  · simp only [Run.ret.injEq] at h
    exact (congrArg (fun x => x.1.state) h).symm

theorem waitForHandShake_state (sha : List Nat → List Nat) (p : Pipe) (s : List Nat) (k : Nat)
    (q : Pipe) (a : List Nat) (e : Option Err)
    (h : p.WaitForHandShake sha s k = Run.ret (q, a, e)) : q.state = InUse := by
  unfold Pipe.WaitForHandShake at h
  simp only at h
  split at h
  · simp at h
  · simp at h
  · rename_i r hr
    have hs : r.p.state = InUse := (readFrames_fields _ _ _ _ _ hr).1
    split_ifs at h <;>
    · simp only [Run.ret.injEq, Prod.mk.injEq] at h
      rw [← h.1]; exact hs

/-- C15 (counterexample). A pipe closed by `Close` has state `Closed`; `reset` on it sets the
state to `Idle`, and `HandShake` on it (its closed transport refusing the write) sets the
state to `InUse`. -/
theorem closed_is_overwritten :
    ((New ⟨[], [], true, 0⟩ 0 0 1).Close).1.state = Closed ∧
      (((New ⟨[], [], true, 0⟩ 0 0 1).Close).1.reset).1.state = Idle ∧
      (((New ⟨[], [], true, 0⟩ 0 0 1).Close).1.reset).1.state ≠ Closed ∧
      ∃ q e, ((New ⟨[], [], true, 0⟩ 0 0 1).Close).1.HandShake
          (fun x => List.replicate 32 (x.sum % 256)) [9, 9, 9] [5] = Run.ret (q, e) ∧
        q.state = InUse ∧ q.state ≠ Closed :=
  ⟨by decide, by decide, by decide, _, _, rfl, by decide, by decide⟩

/-- C15 (amended). On a pipe whose state is `Closed`, `Close` returns nil and leaves the pipe
and its connection untouched (no second close), and `interruptLocal` returns false and leaves
the pipe untouched; `reset` sets the state to `Idle`, and `HandShake` and `WaitForHandShake`,
whenever they return, leave the state `InUse`. -/
theorem closed_kept_by_close_and_interrupt (p : Pipe) (hc : p.state = Closed) :
    p.Close = (p, none) ∧ p.interruptLocal = (p, false) ∧ (p.reset).1.state = Idle ∧
      (∀ (sha : List Nat → List Nat) (A s : List Nat) (q : Pipe) (e : Option Err),
        p.HandShake sha A s = Run.ret (q, e) → q.state = InUse) ∧
      (∀ (sha : List Nat → List Nat) (s : List Nat) (k : Nat) (q : Pipe) (a : List Nat)
          (e : Option Err),
        p.WaitForHandShake sha s k = Run.ret (q, a, e) → q.state = InUse) := by
  refine ⟨?_, ?_, rfl, ?_, ?_⟩
  · simp [Pipe.Close, hc]
  · have : ¬ p.state = InUse := by rw [hc]; decide
    simp [Pipe.interruptLocal, this]
  · intro sha A s q e h; exact handShake_state sha p A s q e h
  · intro sha s k q a e h; exact waitForHandShake_state sha p s k q a e h

/-- Witness for C15 (amended): a fresh pipe closed once. -/
theorem closed_kept_by_close_and_interrupt_witness :
    ((New ⟨[], [], true, 0⟩ 0 0 1).Close).1.Close = (((New ⟨[], [], true, 0⟩ 0 0 1).Close).1, none) ∧
      ((New ⟨[], [], true, 0⟩ 0 0 1).Close).1.interruptLocal =
        (((New ⟨[], [], true, 0⟩ 0 0 1).Close).1, false) ∧
      (((New ⟨[], [], true, 0⟩ 0 0 1).Close).1.reset).1.state = Idle ∧
      (∀ (sha : List Nat → List Nat) (A s : List Nat) (q : Pipe) (e : Option Err),
        ((New ⟨[], [], true, 0⟩ 0 0 1).Close).1.HandShake sha A s = Run.ret (q, e) →
          q.state = InUse) ∧
      (∀ (sha : List Nat → List Nat) (s : List Nat) (k : Nat) (q : Pipe) (a : List Nat)
          (e : Option Err),
        ((New ⟨[], [], true, 0⟩ 0 0 1).Close).1.WaitForHandShake sha s k = Run.ret (q, a, e) →
          q.state = InUse) :=
  closed_kept_by_close_and_interrupt ((New ⟨[], [], true, 0⟩ 0 0 1).Close).1 (by decide)

theorem transFrames_length (t : Nat) : ∀ (fuel : Nat) (b : List Nat), b.length ≤ fuel →
    (transFrames t fuel b).length = (b.length + (MaxLen - 1)) / MaxLen := by
  have hM : MaxLen = 16376 := by decide
  intro fuel
  induction fuel with
  | zero =>
    intro b hb
    have : b = [] := List.length_eq_zero.mp (by omega)
    subst this
    simp [transFrames, hM]
  | succ fuel ih =>
    intro b hb
    by_cases h : b = []
    · subst h; simp [transFrames, hM]
    · rw [transFrames_succ_of_ne _ _ _ h, List.length_cons, ih _ (by
        have : 0 < b.length := List.length_pos.mpr h
        simp only [List.length_drop, hM]; omega)]
      have : 0 < b.length := List.length_pos.mpr h
      simp only [List.length_drop, hM]
      omega

theorem transFrames_getElem? (t : Nat) : ∀ (fuel : Nat) (b : List Nat) (i : Nat),
    b.length ≤ fuel → i < (transFrames t fuel b).length →
    (transFrames t fuel b)[i]? =
      some (frame CmdTrans t ((b.drop (i * MaxLen)).take MaxLen)) := by
  intro fuel
  induction fuel with
  | zero => intro b i _ hi; simp [transFrames] at hi
  | succ fuel ih =>
    intro b i hb hi
    by_cases h : b = []
    · subst h; simp [transFrames] at hi
    · rw [transFrames_succ_of_ne _ _ _ h] at hi ⊢
      cases i with
      | zero => simp
      | succ i =>
        have hM0 : 0 < MaxLen := by decide
        have hl : 0 < b.length := List.length_pos.mpr h
        rw [List.getElem?_cons_succ, ih _ i (by simp only [List.length_drop]; omega)
          (by simpa using hi), List.drop_drop]
        congr 3
        rw [Nat.add_mul, Nat.one_mul, Nat.add_comm]

theorem chunk_length_of_lt (b : List Nat) (i n : Nat)
    (hn : n = (b.length + (MaxLen - 1)) / MaxLen) (hi : i < n) :
    1 ≤ ((b.drop (i * MaxLen)).take MaxLen).length ∧
      ((b.drop (i * MaxLen)).take MaxLen).length ≤ MaxLen ∧
      (i + 1 < n → ((b.drop (i * MaxLen)).take MaxLen).length = MaxLen) := by
  have hM : MaxLen = 16376 := by decide
  simp only [List.length_take, List.length_drop, hM] at *
  omega


/-- The write loop keeps the pipe well formed, whatever the transport does. -/
theorem writeChunks_wellFormed (b : List Nat) : ∀ (fuel : Nat) (p : Pipe) (pos n : Nat),
    p.WellFormed → pos + n = b.length →
    ∀ r, Pipe.writeChunks b fuel p pos n = Run.ret r → r.1.WellFormed := by
  intro fuel
  induction fuel with
  | zero =>
    intro p pos n hw _ r h
    rw [Pipe.writeChunks] at h
    split_ifs at h
    simp only [Run.ret.injEq] at h
    rw [← h]; exact hw
  | succ fuel ih =>
    intro p pos n hw hp r h
    rw [Pipe.writeChunks] at h
    split_ifs at h with hn
    · obtain ⟨hrl, hwl, hwm⟩ := hw
      have hle : min n MaxLen ≤ MaxLen := Nat.min_le_right _ _
      have hle2 : pos + min n MaxLen ≤ b.length := by
        have := Nat.min_le_left n MaxLen; omega
      have hmag := write_iter_magic p.writeBuf b p.term pos (min n MaxLen) hwl hwm hle hle2
      set wb2 := copyAt (copyAt p.writeBuf 4
        [CmdTrans, p.term, (min n MaxLen >>> 8) % 256, min n MaxLen % 256]) (4 + 4)
        (slice b pos (pos + min n MaxLen)) with hwb2
      have hw1 : ∀ c : Conn, ({ p with conn := c, writeBuf := wb2 } : Pipe).WellFormed := by
        intro c
        exact ⟨hrl, by simp [hwb2, copyAt_length, hwl], hmag⟩
      have hM : Magic.length = 4 := rfl
      simp only [hM, ← hwb2] at h
      split at h
      · simp only [Run.ret.injEq] at h
        rw [← h]; exact hw1 _
      · exact ih _ _ _ (hw1 _) (by have := Nat.min_le_left n MaxLen; omega) r h
    · simp only [Run.ret.injEq] at h
      rw [← h]; exact hw

/-- C13. Write frame format and count: on a well-formed pipe with term `t` whose transport
accepts every write, `Write(b)` returns `len(b)` and issues exactly `⌈|b|/16376⌉` underlying
writes; write number `i` is MAGIC, the header `(CmdTrans, t, len_hi, len_lo)` and the piece
`b[16376 i : 16376 (i+1)]`, each piece having 1 to 16376 bytes (16376 for all but the last)
and `len_hi * 256 + len_lo` being its length; and after every `Write`, whatever the
transport did, bytes `[0..4)` of `writeBuf` are the magic. -/
theorem write_frame_format (p : Pipe) (b : List Nat) (hw : p.WellFormed) :
    (p.conn.broken = false →
      ∃ p' frames, p.Write b = Run.ret (p', b.length, none) ∧
        p'.conn.output = p.conn.output ++ frames ∧
        MaxLen = 16376 ∧ frames.length = (b.length + (MaxLen - 1)) / MaxLen ∧
        ∀ i, i < frames.length →
          frames[i]? = some (Magic ++
            [CmdTrans, p.term, (((b.drop (i * MaxLen)).take MaxLen).length >>> 8) % 256,
              ((b.drop (i * MaxLen)).take MaxLen).length % 256] ++
            (b.drop (i * MaxLen)).take MaxLen) ∧
          1 ≤ ((b.drop (i * MaxLen)).take MaxLen).length ∧
          ((b.drop (i * MaxLen)).take MaxLen).length ≤ MaxLen ∧
          (i + 1 < frames.length → ((b.drop (i * MaxLen)).take MaxLen).length = MaxLen) ∧
          ((((b.drop (i * MaxLen)).take MaxLen).length >>> 8) % 256) * 256 +
            ((b.drop (i * MaxLen)).take MaxLen).length % 256 =
              ((b.drop (i * MaxLen)).take MaxLen).length) ∧
    (∀ (q : Pipe) (m : Nat) (e : Option Err), p.Write b = Run.ret (q, m, e) →
      slice q.writeBuf 0 4 = Magic) := by
  constructor
  · intro hnb
    obtain ⟨p', h1, h2, _, _, _, _, _⟩ :=
      writeChunks_spec b b.length p 0 b.length hw hnb (by simp) (Nat.le_refl _)
    have hlen := transFrames_length p.term b.length b (Nat.le_refl _)
    refine ⟨p', transFrames p.term b.length b, h1, ?_, by decide, hlen, ?_⟩
    · rw [h2]; simp
    · intro i hi
      obtain ⟨c1, c2, c3⟩ := chunk_length_of_lt b i _ hlen hi
      refine ⟨?_, c1, c2, c3, ?_⟩
      · rw [transFrames_getElem? p.term b.length b i (Nat.le_refl _) hi]
        rfl
      · have hM : MaxLen = 16376 := by decide
        exact length_bytes _ (by omega)
  · intro q m e h
    exact (writeChunks_wellFormed b b.length p 0 b.length hw (by simp) _ h).2.2

/-- Witness for C13: a fresh pipe and three bytes. -/
theorem write_frame_format_witness :
    (∃ p' frames, (New ⟨[], [], false, 0⟩ 0 0 1).Write [1, 2, 3] =
          Run.ret (p', [1, 2, 3].length, none) ∧
        p'.conn.output = (New ⟨[], [], false, 0⟩ 0 0 1).conn.output ++ frames ∧
        MaxLen = 16376 ∧ frames.length = ([1, 2, 3].length + (MaxLen - 1)) / MaxLen ∧
        ∀ i, i < frames.length →
          frames[i]? = some (Magic ++
            [CmdTrans, (New ⟨[], [], false, 0⟩ 0 0 1).term,
              ((([1, 2, 3].drop (i * MaxLen)).take MaxLen).length >>> 8) % 256,
              (([1, 2, 3].drop (i * MaxLen)).take MaxLen).length % 256] ++
            ([1, 2, 3].drop (i * MaxLen)).take MaxLen) ∧
          1 ≤ (([1, 2, 3].drop (i * MaxLen)).take MaxLen).length ∧
          (([1, 2, 3].drop (i * MaxLen)).take MaxLen).length ≤ MaxLen ∧
          (i + 1 < frames.length → (([1, 2, 3].drop (i * MaxLen)).take MaxLen).length = MaxLen) ∧
          (((([1, 2, 3].drop (i * MaxLen)).take MaxLen).length >>> 8) % 256) * 256 +
            (([1, 2, 3].drop (i * MaxLen)).take MaxLen).length % 256 =
              (([1, 2, 3].drop (i * MaxLen)).take MaxLen).length) ∧
    (∀ (q : Pipe) (m : Nat) (e : Option Err),
      (New ⟨[], [], false, 0⟩ 0 0 1).Write [1, 2, 3] = Run.ret (q, m, e) →
      slice q.writeBuf 0 4 = Magic) :=
  ⟨(write_frame_format (New ⟨[], [], false, 0⟩ 0 0 1) [1, 2, 3] (New_wellFormed _ _ _ _)).1 rfl,
   (write_frame_format (New ⟨[], [], false, 0⟩ 0 0 1) [1, 2, 3] (New_wellFormed _ _ _ _)).2⟩

/-- Any budget above the number of unread bytes gives the result of `Read`. -/
theorem readFrames_fuel_succ (b : List Nat) (k : Nat) : ∀ (fuel : Nat) (p : Pipe),
    p.conn.input.length < fuel →
    Pipe.readFrames b k (fuel + 1) p = Pipe.readFrames b k fuel p := by
  intro fuel
  induction fuel with
  | zero => intro p h; omega
  | succ fuel ih =>
    intro p hlt
    conv_lhs => rw [Pipe.readFrames]
    conv_rhs => rw [Pipe.readFrames]
    split_ifs with hn
    · split
      · rfl
      · rename_i p1 hcm
        have h1 := checkMagic_none _ _ hcm
        split
        · rfl
        · rename_i c hdr hrf
          have h2 := readFull_none _ _ _ _ hrf
          simp only
          split_ifs
          · split
            · rfl
            · rename_i c3 d3 hrf3
              have h3 := readFull_none _ _ _ _ hrf3
              apply ih
              simp only at h3 ⊢
              omega
          · apply ih; simp only; omega
          · rfl
          · rfl
          · rfl
          · apply ih; simp only; omega
          · apply ih; simp only; omega
          · rfl
    · rfl

theorem readFrames_eq_read (b : List Nat) (k : Nat) (p : Pipe) : ∀ (fuel : Nat),
    p.conn.input.length < fuel → Pipe.readFrames b k fuel p = p.Read b k := by
  intro fuel
  induction fuel with
  | zero => intro h; omega
  | succ fuel ih =>
    intro h
    by_cases he : p.conn.input.length = fuel
    · rw [Pipe.Read, he]
    · rw [readFrames_fuel_succ b k fuel p (by omega)]
      exact ih (by omega)

theorem sameUpToReadBuf_mk (p : Pipe) (rb : List Nat) (h : rb.length = p.readBuf.length) :
    p.SameUpToReadBuf { p with readBuf := rb } :=
  ⟨rfl, h⟩

theorem readPayload_congr (p : Pipe) (rb b : List Nat) (k : Nat)
    (hl : rb.length = p.readBuf.length) :
    Run.SameUpToReadBuf (p.readPayload b k) (({ p with readBuf := rb } : Pipe).readPayload b k) := by
  unfold Pipe.readPayload
  simp only
  split_ifs
  · trivial
  · exact ⟨rfl, rfl, rfl, rfl, hl⟩

theorem copySlice_length (dst : List Nat) (lo hi : Nat) (src : List Nat) (h : lo ≤ hi) :
    (copySlice dst lo hi src).length = dst.length := by
  simp [copySlice, copy_length]; omega

theorem readFull_none_data (c c' : Conn) (k : Nat) (d : List Nat)
    (h : c.readFull k = (c', d, none)) : d.length = k := by
  unfold Conn.readFull at h
  split_ifs at h with h1 h2
  · simp only [Prod.mk.injEq] at h
    obtain ⟨-, rfl, -⟩ := h
    simp; omega
  · simp at h
  · simp at h

theorem conn_slice (hdr Y d3 : List Nat) (len : Nat) (h4 : hdr.length = 4)
    (hd : d3.length = len) (hle : 4 + len ≤ (hdr ++ Y).length) :
    slice (copySlice (hdr ++ Y) 4 (4 + len) d3) 0 (4 + len) = hdr ++ d3 := by
  rw [copySlice_of_le _ _ _ _ (by omega) hle, ← h4, List.take_left' rfl]
  exact slice_zero_append_of_eq _ _ _ (by simp; omega)

theorem exists_four (l : List Nat) (h : l.length = 4) : ∃ a b c d, l = [a, b, c, d] := by
  match l, h with
  | [a, b, c, d], _ => exact ⟨a, b, c, d, rfl⟩

/-- On a frame boundary with fewer than four unread bytes `Read` fails in `checkMagic`. -/
theorem read_short_magic (p : Pipe) (b : List Nat) (k : Nat) (hn : p.n = 0)
    (hs : p.conn.input.length < 4) :
    p.Read b k = Run.ret { p := { p with conn := (p.conn.readFull 4).1,
                                         readBuf := copy p.readBuf p.conn.input },
                           b := b, n := 0, err := (p.conn.readFull 4).2.2 } := by
  have hM : Magic.length = 4 := rfl
  have h1 : ¬ (4 ≤ p.conn.input.length) := by omega
  by_cases he : p.conn.input = []
  · rw [Pipe.Read, Pipe.readFrames]
    simp [hn, Pipe.checkMagic, Conn.readFull, hM, he]
  · rw [Pipe.Read, Pipe.readFrames]
    simp [hn, Pipe.checkMagic, Conn.readFull, hM, h1, he]

/-- On a frame boundary with the magic followed by fewer than four bytes `Read` fails reading
the header. -/
theorem read_short_header (p : Pipe) (b rest : List Nat) (k : Nat) (hn : p.n = 0)
    (hb : 4 ≤ p.readBuf.length) (hi : p.conn.input = Magic ++ rest) (hs : rest.length < 4) :
    p.Read b k =
      Run.ret { p := { p with conn := (({ p.conn with input := rest } : Conn).readFull 4).1,
                              readBuf := copy (Magic ++ p.readBuf.drop 4) rest },
                b := b, n := 0,
                err := (({ p.conn with input := rest } : Conn).readFull 4).2.2 } := by
  have hm := checkMagic_ok p rest hb hi
  have h1 : ¬ (4 ≤ rest.length) := by omega
  by_cases he : rest = []
  · rw [Pipe.Read, Pipe.readFrames]
    simp [hn, hm, Conn.readFull, he]
  · rw [Pipe.Read, Pipe.readFrames]
    simp [hn, hm, Conn.readFull, h1, he]

theorem read_congr_step (b : List Nat) (k : Nat) (p : Pipe) (rb : List Nat)
    (ih : ∀ (q : Pipe) (rb' : List Nat), q.conn.input.length < p.conn.input.length →
      rb'.length = q.readBuf.length → 4 ≤ q.readBuf.length →
      Run.SameUpToReadBuf (q.Read b k) (({ q with readBuf := rb' } : Pipe).Read b k))
    (hl : rb.length = p.readBuf.length) (h4 : 4 ≤ p.readBuf.length) :
    Run.SameUpToReadBuf (p.Read b k) (({ p with readBuf := rb } : Pipe).Read b k) := by
  have h4' : 4 ≤ ({ p with readBuf := rb } : Pipe).readBuf.length := by
    show 4 ≤ rb.length
    omega
  by_cases hn : p.n = 0
  swap
  · rw [Pipe.Read, Pipe.Read, readFrames_payload _ _ _ _ hn, readFrames_payload _ _ _ _ (by exact hn)]
    exact readPayload_congr p rb b k hl
  by_cases hs : p.conn.input.length < 4
  · rw [read_short_magic p b k hn hs, read_short_magic _ b k (by exact hn) (by exact hs)]
    exact ⟨rfl, rfl, rfl, rfl, by simp only [copy_length]; exact hl⟩
  have hsplit : p.conn.input = p.conn.input.take 4 ++ p.conn.input.drop 4 :=
    (List.take_append_drop 4 _).symm
  have hlt : (p.conn.input.take 4).length = 4 := by
    rw [List.length_take]; omega
  by_cases hm : p.conn.input.take 4 = Magic
  swap
  · rw [read_bad_magic p b _ _ k hn h4 hlt hm hsplit,
      read_bad_magic _ b _ _ k (by exact hn) h4' hlt hm (by exact hsplit)]
    refine ⟨rfl, rfl, rfl, rfl, ?_⟩
    show (_ ++ List.drop 4 rb).length = (_ ++ List.drop 4 p.readBuf).length
    simp only [List.length_append, List.length_drop, hl]
  rw [hm] at hsplit
  by_cases hs2 : (p.conn.input.drop 4).length < 4
  · rw [read_short_header p b _ k hn h4 hsplit hs2,
      read_short_header _ b _ k (by exact hn) h4' (by exact hsplit) hs2]
    refine ⟨rfl, rfl, rfl, rfl, ?_⟩
    show (copy (Magic ++ List.drop 4 rb) _).length = (copy (Magic ++ List.drop 4 p.readBuf) _).length
    simp only [copy_length, List.length_append, List.length_drop, hl]
  have hl8 : ((p.conn.input.drop 4).take 4).length = 4 := by
    rw [List.length_take]; omega
  obtain ⟨c, t, hi, lo, hh⟩ := exists_four _ hl8
  have hin : p.conn.input = Magic ++ [c, t, hi, lo] ++ (p.conn.input.drop 4).drop 4 := by
    rw [List.append_assoc, ← hh, List.take_append_drop]
    exact hsplit
  set rest := (p.conn.input.drop 4).drop 4 with hrest
  have hrl : rest.length + 8 = p.conn.input.length := by
    have := congrArg List.length hin
    simp only [List.length_append, Magic, List.length_cons, List.length_nil] at this
    omega
  have hstep := readFrames_step p b k p.conn.input.length c t hi lo rest hn h4 hin
  have hstep' := readFrames_step ({ p with readBuf := rb } : Pipe) b k p.conn.input.length
    c t hi lo rest (by exact hn) h4' (by exact hin)
  have rec : ∀ (Q : Pipe) (X : List Nat), Q.conn.input.length < p.conn.input.length →
      X.length = Q.readBuf.length → 4 ≤ Q.readBuf.length →
      Run.SameUpToReadBuf (Pipe.readFrames b k p.conn.input.length Q)
        (Pipe.readFrames b k p.conn.input.length ({ Q with readBuf := X } : Pipe)) := by
    intro Q X h1 h2 h3
    rw [readFrames_eq_read _ _ Q _ h1, readFrames_eq_read _ _ _ _ (by exact h1)]
    exact ih Q X h1 h2 h3
  have hL2 : ([c, t, hi, lo] ++ List.drop 4 p.readBuf).length = p.readBuf.length := by
    simp only [List.length_append, List.length_cons, List.length_nil, List.length_drop]; omega
  have hL2' : ([c, t, hi, lo] ++ List.drop 4 rb).length = p.readBuf.length := by
    simp only [List.length_append, List.length_cons, List.length_nil, List.length_drop]; omega
  simp only [Pipe.afterHeader, hL2] at hstep
  simp only [Pipe.afterHeader, hL2'] at hstep'
  rw [Pipe.Read, hstep]
  show Run.SameUpToReadBuf _ (Pipe.readFrames b k (p.conn.input.length + 1) _)
  rw [hstep']
  clear hstep hstep'
  have hn' : rest.length < p.conn.input.length := by omega
  have h4c : 4 ≤ ([c, t, hi, lo] ++ List.drop 4 p.readBuf).length := by omega
  split_ifs with hs hlen hclose hconn hpanic htrans hping
  · split
    · rename_i c3 d3 e hd
      refine ⟨rfl, rfl, rfl, rfl, ?_⟩
      simp only [copyAt_length, hL2, hL2']
    · rename_i c3 d3 hd
      have h3 := readFull_none _ _ _ _ hd
      simp only at h3
      refine rec _ _ (by simp only; omega) ?_ ?_
      · simp only [copyAt_length, hL2, hL2']
      · simp only [copyAt_length, hL2]; omega
  · exact rec _ _ hn' (by rw [hL2, hL2']) h4c
  · exact ⟨rfl, rfl, rfl, rfl, by rw [hL2, hL2']⟩
  · trivial
  · split
    · rename_i c3 d3 e hd
      refine ⟨rfl, rfl, rfl, rfl, ?_⟩
      simp only [copySlice_length _ _ _ _ (Nat.le_add_right 4 _), hL2, hL2']
    · rename_i c3 d3 hd
      have hdl := readFull_none_data _ _ _ _ hd
      refine ⟨?_, rfl, rfl, rfl, ?_⟩
      · rw [conn_slice [c, t, hi, lo] (List.drop 4 p.readBuf) d3 _ rfl hdl (by rw [hL2]; omega),
          conn_slice [c, t, hi, lo] (List.drop 4 rb) d3 _ rfl hdl (by rw [hL2']; omega)]
      · simp only [copySlice_length _ _ _ _ (Nat.le_add_right 4 _), hL2, hL2']
  · exact rec _ _ hn' (by rw [hL2, hL2']) h4c
  · exact rec _ _ hn' (by rw [hL2, hL2']) h4c
  · exact ⟨rfl, rfl, rfl, rfl, by rw [hL2, hL2']⟩

/-- The outcome of `Read` does not depend on what the scratch buffer holds. -/
theorem read_congr (b : List Nat) (k : Nat) : ∀ (n : Nat) (p : Pipe) (rb : List Nat),
    p.conn.input.length = n → rb.length = p.readBuf.length → 4 ≤ p.readBuf.length →
    Run.SameUpToReadBuf (p.Read b k) (({ p with readBuf := rb } : Pipe).Read b k) := by
  intro n
  induction n using Nat.strong_induction_on with
  | _ n ih =>
    intro p rb hlen hl h4
    exact read_congr_step b k p rb
      (fun q rb' hq h1 h2 => ih q.conn.input.length (hlen ▸ hq) q rb' rfl h1 h2) hl h4

/-- A zero-length frame that is a ping of the current term, or any zero-length frame of
another term with a command below `CmdErr`, is skipped: `Read` gives what it gives on the
stream without the frame. -/
theorem read_skip_frame (p : Pipe) (b S : List Nat) (k c t : Nat) (hn : p.n = 0)
    (hb : p.readBuf.length = bufSize)
    (hc : (c = CmdPing ∧ t = p.term) ∨ (c < CmdErr ∧ t ≠ p.term)) :
    Run.SameUpToReadBuf ((p.withInput S).Read b k)
      ((p.withInput (Magic ++ [c, t, 0, 0] ++ S)).Read b k) := by
  have hB : bufSize = 16384 := by decide
  have hstep := readFrames_step (p.withInput (Magic ++ [c, t, 0, 0] ++ S)) b k
    (p.withInput (Magic ++ [c, t, 0, 0] ++ S)).conn.input.length c t 0 0 S hn
    (by show 4 ≤ p.readBuf.length; omega) rfl
  have hskip : Pipe.readFrames b k ((p.withInput (Magic ++ [c, t, 0, 0] ++ S)).conn.input.length + 1)
      (p.withInput (Magic ++ [c, t, 0, 0] ++ S)) =
      Pipe.readFrames b k (p.withInput (Magic ++ [c, t, 0, 0] ++ S)).conn.input.length
        ((p.withInput (Magic ++ [c, t, 0, 0] ++ S)).afterHeader [c, t, 0, 0] S) := by
    rw [hstep]
    rcases hc with ⟨h1, h2⟩ | ⟨h1, h2⟩
    · subst h1 h2
      simp [CmdPing, CmdErr, CmdClose, CmdConn, CmdTrans, Pipe.withInput]
    · have : (t ≠ (p.withInput (Magic ++ [c, t, 0, 0] ++ S)).term) := h2
      simp only [h1, this, ne_eq, not_false_eq_true, and_self, if_true, Nat.zero_mul,
        Nat.add_zero, gt_iff_lt, Nat.lt_irrefl, if_false]
  have hR : (p.withInput (Magic ++ [c, t, 0, 0] ++ S)).Read b k =
      Pipe.readFrames b k ((p.withInput (Magic ++ [c, t, 0, 0] ++ S)).conn.input.length + 1)
        (p.withInput (Magic ++ [c, t, 0, 0] ++ S)) := rfl
  rw [hR, hskip,
    readFrames_eq_read _ _ _ _ (by simp [Pipe.withInput, Pipe.afterHeader, Magic]; omega)]
  exact read_congr b k _ (p.withInput S) ([c, t, 0, 0] ++ p.readBuf.drop 4) rfl
    (by simp [Pipe.withInput]; omega) (by show 4 ≤ p.readBuf.length; omega)

theorem waitForHandShake_congr (sha : List Nat → List Nat) (p q : Pipe) (s : List Nat) (k : Nat)
    (h : Run.SameUpToReadBuf ((p.setState InUse).Read (List.replicate 1024 0) k)
      ((q.setState InUse).Read (List.replicate 1024 0) k)) :
    Run.SameHandShake (p.WaitForHandShake sha s k) (q.WaitForHandShake sha s k) := by
  unfold Pipe.WaitForHandShake
  simp only
  generalize (p.setState InUse).Read (List.replicate 1024 0) k = R1 at h
  generalize (q.setState InUse).Read (List.replicate 1024 0) k = R2 at h
  cases R1 <;> cases R2 <;> try (exact h.elim)
  · rename_i r1 r2
    obtain ⟨p2, b2, n2, e2⟩ := r2
    obtain ⟨hb, hn, he, hp⟩ := h
    simp only at hb hn he hp
    subst hb hn he
    simp only
    split_ifs <;> first | exact ⟨rfl, hp⟩ | trivial
  · trivial
  · trivial


/-- C11. Interrupt is scoped to the current term: on a frame boundary, a `CmdClose` frame
carrying the pipe's term makes `Read` return 0 bytes and `Interrupted`, the 8 bytes of the
frame consumed; a zero-length `CmdClose` frame carrying another term is skipped, `Read`
giving the count, error, caller buffer and pipe (up to the contents of the scratch buffer) it
gives on the stream without that frame. -/
theorem interrupt_scoped_to_term (p : Pipe) (b S : List Nat) (k T' hi lo : Nat) (hn : p.n = 0)
    (hb : p.readBuf.length = bufSize) (hT : T' ≠ p.term) :
    (∃ q, (p.withInput (Magic ++ [CmdClose, p.term, hi, lo] ++ S)).Read b k =
        Run.ret { p := q, b := b, n := 0, err := some Err.interrupted } ∧
      q.conn.input = S ∧ q.n = 0 ∧ q.term = p.term ∧ q.state = p.state) ∧
    Run.SameUpToReadBuf ((p.withInput S).Read b k)
      ((p.withInput (Magic ++ [CmdClose, T', 0, 0] ++ S)).Read b k) := by
  constructor
  · have hstep := readFrames_step (p.withInput (Magic ++ [CmdClose, p.term, hi, lo] ++ S)) b k
      (p.withInput (Magic ++ [CmdClose, p.term, hi, lo] ++ S)).conn.input.length
      CmdClose p.term hi lo S hn (by show 4 ≤ p.readBuf.length; rw [hb]; decide) rfl
    have hterm : (p.withInput (Magic ++ [CmdClose, p.term, hi, lo] ++ S)).term = p.term := rfl
    simp only [hterm, ne_eq, not_true_eq_false, and_false, if_false, if_true] at hstep
    exact ⟨(p.withInput (Magic ++ [CmdClose, p.term, hi, lo] ++ S)).afterHeader
      [CmdClose, p.term, hi, lo] S, hstep, rfl, hn, rfl, rfl⟩
  · exact read_skip_frame p b S k CmdClose T' hn hb (Or.inr ⟨by decide, hT⟩)

/-- Witness for C11: a fresh pipe (term 0), a stale `CmdClose` of term 7, then one data byte. -/
theorem interrupt_scoped_to_term_witness :
    (∃ q, ((New ⟨[], [], false, 0⟩ 0 0 1).withInput
          (Magic ++ [CmdClose, (New ⟨[], [], false, 0⟩ 0 0 1).term, 0, 0] ++
            (Magic ++ [CmdTrans, 0, 0, 1, 9]))).Read [0, 0] 1 =
        Run.ret { p := q, b := [0, 0], n := 0, err := some Err.interrupted } ∧
      q.conn.input = Magic ++ [CmdTrans, 0, 0, 1, 9] ∧ q.n = 0 ∧
      q.term = (New ⟨[], [], false, 0⟩ 0 0 1).term ∧
      q.state = (New ⟨[], [], false, 0⟩ 0 0 1).state) ∧
    Run.SameUpToReadBuf
      (((New ⟨[], [], false, 0⟩ 0 0 1).withInput (Magic ++ [CmdTrans, 0, 0, 1, 9])).Read [0, 0] 1)
      (((New ⟨[], [], false, 0⟩ 0 0 1).withInput
        (Magic ++ [CmdClose, 7, 0, 0] ++ (Magic ++ [CmdTrans, 0, 0, 1, 9]))).Read [0, 0] 1) :=
  interrupt_scoped_to_term (New ⟨[], [], false, 0⟩ 0 0 1) [0, 0] (Magic ++ [CmdTrans, 0, 0, 1, 9])
    1 7 0 0 rfl (List.length_replicate _ _) (by decide)

/-- C18. Ping frames are transparent to the reader: `TryPing` issues one write of MAGIC and
`(CmdPing, term, 0, 0)`; on a frame boundary, for every term byte `t` and every stream `S`,
`Read` on such a frame followed by `S` gives the count, error, caller buffer and pipe (up to
the contents of the scratch buffer) it gives on `S` alone, so exactly the 8 bytes of the
frame are consumed in addition; and `WaitForHandShake` returns the same address and error
with and without the ping in front. -/
theorem ping_transparent (sha : List Nat → List Nat) (p sender : Pipe) (b S s : List Nat)
    (k t : Nat) (hn : p.n = 0) (hb : p.readBuf.length = bufSize)
    (hs : sender.conn.broken = false) :
    (sender.TryPing).1.conn.output =
        sender.conn.output ++ [Magic ++ [CmdPing, sender.term, 0, 0]] ∧
      (sender.TryPing).2 = none ∧
      Run.SameUpToReadBuf ((p.withInput S).Read b k)
        ((p.withInput (Magic ++ [CmdPing, t, 0, 0] ++ S)).Read b k) ∧
      Run.SameHandShake ((p.withInput S).WaitForHandShake sha s k)
        ((p.withInput (Magic ++ [CmdPing, t, 0, 0] ++ S)).WaitForHandShake sha s k) := by
  have hc : ∀ q : Pipe, (CmdPing = CmdPing ∧ t = q.term) ∨ (CmdPing < CmdErr ∧ t ≠ q.term) := by
    intro q
    by_cases h : t = q.term
    · exact Or.inl ⟨rfl, h⟩
    · exact Or.inr ⟨by decide, h⟩
  refine ⟨?_, ?_, read_skip_frame p b S k CmdPing t hn hb (hc p), ?_⟩
  · rw [Pipe.TryPing, writeCmd_ok _ _ hs]
  · rw [Pipe.TryPing, writeCmd_ok _ _ hs]
  · exact waitForHandShake_congr sha _ _ s k
      (read_skip_frame (p.setState InUse) (List.replicate 1024 0) S k CmdPing t hn hb
        (hc (p.setState InUse)))

/-- Witness for C18: a fresh reader and sender, a ping in front of a one-byte data frame. -/
theorem ping_transparent_witness :
    ((New ⟨[], [], false, 0⟩ 0 0 2).TryPing).1.conn.output =
        (New ⟨[], [], false, 0⟩ 0 0 2).conn.output ++
          [Magic ++ [CmdPing, (New ⟨[], [], false, 0⟩ 0 0 2).term, 0, 0]] ∧
      ((New ⟨[], [], false, 0⟩ 0 0 2).TryPing).2 = none ∧
      Run.SameUpToReadBuf
        (((New ⟨[], [], false, 0⟩ 0 0 1).withInput (Magic ++ [CmdTrans, 0, 0, 1, 9])).Read [0, 0] 1)
        (((New ⟨[], [], false, 0⟩ 0 0 1).withInput
          (Magic ++ [CmdPing, 0, 0, 0] ++ (Magic ++ [CmdTrans, 0, 0, 1, 9]))).Read [0, 0] 1) ∧
      Run.SameHandShake
        (((New ⟨[], [], false, 0⟩ 0 0 1).withInput
          (Magic ++ [CmdTrans, 0, 0, 1, 9])).WaitForHandShake
            (fun x => List.replicate 32 (x.sum % 256)) [5] 1)
        (((New ⟨[], [], false, 0⟩ 0 0 1).withInput
          (Magic ++ [CmdPing, 0, 0, 0] ++ (Magic ++ [CmdTrans, 0, 0, 1, 9]))).WaitForHandShake
            (fun x => List.replicate 32 (x.sum % 256)) [5] 1) :=
  ping_transparent (fun x => List.replicate 32 (x.sum % 256)) (New ⟨[], [], false, 0⟩ 0 0 1)
    (New ⟨[], [], false, 0⟩ 0 0 2) [0, 0] (Magic ++ [CmdTrans, 0, 0, 1, 9]) [5] 1 0 rfl
    (List.length_replicate _ _) rfl

/-! ## The count of payload bytes due: interrupts on frame boundaries only -/

theorem conn_read_spec (c : Conn) (want k : Nat) :
    c.input = (c.read want k).2.1 ++ (c.read want k).1.input ∧
      (c.read want k).2.1.length ≤ want ∧
      ((c.read want k).2.2 = none ∨
        ((c.read want k).2.2 = some Err.eof ∧ (c.read want k).2.1 = [])) := by
  unfold Conn.read
  split_ifs with h1 h2
  · simp
  · simp [h2]
  · refine ⟨by simp, ?_, Or.inl rfl⟩
    simp only [List.length_take]
    omega

theorem readFull_input_mem (c c' : Conn) (k : Nat) (d : List Nat) (e : Option Err)
    (h : c.readFull k = (c', d, e)) : ∀ x ∈ c'.input, x ∈ c.input := by
  unfold Conn.readFull at h
  split_ifs at h <;>
  · simp only [Prod.mk.injEq] at h
    obtain ⟨rfl, -, -⟩ := h
    intro x hx
    first
      | exact List.mem_of_mem_drop hx
      | exact hx
      | simp at hx

theorem readFull_none_split (c c' : Conn) (k : Nat) (d : List Nat)
    (h : c.readFull k = (c', d, none)) : c.input = d ++ c'.input := by
  unfold Conn.readFull at h
  split_ifs at h
  · simp only [Prod.mk.injEq] at h
    obtain ⟨rfl, rfl, -⟩ := h
    simp
  · simp at h
  · simp at h

theorem readFull_short (c : Conn) (k : Nat) (h : c.input.length < k) :
    (c.readFull k).2.2 ≠ none := by
  unfold Conn.readFull
  have : ¬ k ≤ c.input.length := by omega
  simp only [this, if_false]
  split_ifs <;> simp

/-- A payload read keeps the count of bytes due within bounds and hands over bytes of the
frame in progress only. -/
theorem readPayload_exit (p : Pipe) (b : List Nat) (k : Nat) (hp : p.ReadInv) (hn : p.n ≠ 0)
    (r : ReadResult) (h : p.readPayload b k = Run.ret r) : r.p.ReadInv ∧ p.ReadExit b r := by
  obtain ⟨h0, h1, h2, h3⟩ := hp
  have hspec := conn_read_spec p.conn (min (b.length : Int) p.n).toNat k
  unfold Pipe.readPayload at h
  simp only at h
  have hneg : ¬ (min (b.length : Int) p.n < 0) := by omega
  rw [if_neg hneg] at h
  rcases hrd : p.conn.read (min (b.length : Int) p.n).toNat k with ⟨c, data, err⟩
  rw [hrd] at h hspec
  simp only [Run.ret.injEq] at h
  subst h
  obtain ⟨s1, s2, s3⟩ := hspec
  simp only at s1 s2 s3 ⊢
  have hpn : p.n = ((p.n.toNat : Nat) : Int) := (Int.toNat_of_nonneg h0).symm
  refine ⟨⟨?_, ?_, h2, ?_⟩, Or.inr (Or.inr ⟨p.n.toNat, [], data, ?_, ?_, ?_, Or.inl ⟨hpn, rfl⟩,
    rfl, ?_, rfl, ?_, s3⟩)⟩
  · show 0 ≤ p.n - (data.length : Int)
    omega
  · show p.n - (data.length : Int) ≤ 65535
    omega
  · intro x hx
    exact h3 x (by rw [s1]; exact List.mem_append_right _ hx)
  · simpa using s1
  · omega
  · omega
  · omega
  · show p.n - (data.length : Int) = ((p.n.toNat : Nat) : Int) - (data.length : Int)
    omega

theorem readExit_lift (p Q : Pipe) (b : List Nat) (r : ReadResult) (h : Q.ReadExit b r)
    (c0 : List Nat) (hn : p.n = 0) (hQ : Q.n = 0) (ht : Q.term = p.term)
    (hin : p.conn.input = c0 ++ Q.conn.input) : p.ReadExit b r := by
  rcases h with ⟨-, a2, a3, a4, a5⟩ | ⟨-, a2, a3, pre, body, hi, lo, a4, a5, a6⟩ |
    ⟨pending, skipped, data, a1, a2, a3, a4, a5, a6, a7, a8, a9⟩
  · exact Or.inl ⟨hn, a2, a3, a4, a5⟩
  · refine Or.inr (Or.inl ⟨hn, a2, a3, c0 ++ pre, body, hi, lo, ?_, a5, a6⟩)
    rw [hin, a4, ht]
    simp only [List.append_assoc]
  · rcases a4 with ⟨b1, -⟩ | ⟨-, pre, hi, lo, b2, b3⟩
    · omega
    · refine Or.inr (Or.inr ⟨pending, c0 ++ skipped, data, ?_, a2, a3,
        Or.inr ⟨hn, c0 ++ pre, hi, lo, ?_, b3⟩, a5, a6, a7, a8, a9⟩)
      · rw [hin, a1]
        simp only [List.append_assoc]
      · rw [b2, ht]
        simp only [List.append_assoc]

theorem readExit_lift_trans (p Q : Pipe) (b : List Nat) (r : ReadResult) (h : Q.ReadExit b r)
    (hi lo : Nat) (hn : p.n = 0) (hQ : Q.n = ((hi * 256 + lo : Nat) : Int))
    (hpos : 0 < hi * 256 + lo)
    (hin : p.conn.input = Magic ++ [CmdTrans, p.term, hi, lo] ++ Q.conn.input) :
    p.ReadExit b r := by
  rcases h with ⟨a1, -⟩ | ⟨a1, -⟩ |
    ⟨pending, skipped, data, a1, a2, a3, a4, a5, a6, a7, a8, a9⟩
  · omega
  · omega
  · rcases a4 with ⟨b1, b2⟩ | ⟨b1, -⟩
    · subst b2
      have hpe : pending = hi * 256 + lo := by omega
      refine Or.inr (Or.inr ⟨pending, Magic ++ [CmdTrans, p.term, hi, lo], data, ?_, a2, a3,
        Or.inr ⟨hn, [], hi, lo, rfl, hpe⟩, a5, a6, a7, a8, a9⟩)
      rw [hin, a1]
      simp only [List.append_assoc, List.nil_append]
    · omega

theorem read_exit_step (b : List Nat) (k : Nat) (p : Pipe)
    (ih : ∀ (q : Pipe), q.conn.input.length < p.conn.input.length → q.ReadInv →
      ∀ r, q.Read b k = Run.ret r → r.p.ReadInv ∧ q.ReadExit b r)
    (hp : p.ReadInv) (r : ReadResult) (h : p.Read b k = Run.ret r) :
    r.p.ReadInv ∧ p.ReadExit b r := by
  obtain ⟨h0, h1, h2, h3⟩ := hp
  have hB : bufSize = 16384 := by decide
  have h4 : 4 ≤ p.readBuf.length := by omega
  by_cases hn : p.n = 0
  swap
  · rw [Pipe.Read, readFrames_payload _ _ _ _ hn] at h
    exact readPayload_exit p b k ⟨h0, h1, h2, h3⟩ hn r h
  have fail : ∀ (q : Pipe) (e : Option Err), q.n = 0 → q.readBuf.length = bufSize →
      (∀ x ∈ q.conn.input, x ∈ p.conn.input) → e ≠ none →
      (ReadResult.mk q b 0 e).p.ReadInv ∧ p.ReadExit b (ReadResult.mk q b 0 e) := by
    intro q e hq hl hm he
    exact ⟨⟨by rw [hq], by rw [hq]; decide, hl, fun x hx => h3 x (hm x hx)⟩,
      Or.inl ⟨hn, hq, rfl, rfl, he⟩⟩
  by_cases hs : p.conn.input.length < 4
  · rw [read_short_magic p b k hn hs, Run.ret.injEq] at h
    subst h
    exact fail _ _ hn (by simp only [copy_length]; exact h2)
      (readFull_input_mem _ _ _ _ _ rfl) (readFull_short _ _ hs)
  have hsplit : p.conn.input = p.conn.input.take 4 ++ p.conn.input.drop 4 :=
    (List.take_append_drop 4 _).symm
  have hlt : (p.conn.input.take 4).length = 4 := by
    rw [List.length_take]; omega
  by_cases hm : p.conn.input.take 4 = Magic
  swap
  · rw [read_bad_magic p b _ _ k hn h4 hlt hm hsplit, Run.ret.injEq] at h
    subst h
    refine fail _ _ hn ?_ (fun x hx => List.mem_of_mem_drop hx) (by simp)
    show (_ ++ List.drop 4 p.readBuf).length = bufSize
    simp only [List.length_append, List.length_drop, hlt]
    omega
  rw [hm] at hsplit
  by_cases hs2 : (p.conn.input.drop 4).length < 4
  · rw [read_short_header p b _ k hn h4 hsplit hs2, Run.ret.injEq] at h
    subst h
    refine fail _ _ hn ?_ ?_ (readFull_short _ _ hs2)
    · show (copy (Magic ++ List.drop 4 p.readBuf) _).length = bufSize
      simp only [copy_length, List.length_append, List.length_drop, Magic, List.length_cons,
        List.length_nil]
      omega
    · intro x hx
      exact List.mem_of_mem_drop (readFull_input_mem _ _ _ _ _ rfl x hx)
  have hl8 : ((p.conn.input.drop 4).take 4).length = 4 := by
    rw [List.length_take]; omega
  obtain ⟨c, t, hi, lo, hh⟩ := exists_four _ hl8
  have hin : p.conn.input = Magic ++ [c, t, hi, lo] ++ (p.conn.input.drop 4).drop 4 := by
    rw [List.append_assoc, ← hh, List.take_append_drop]
    exact hsplit
  set rest := (p.conn.input.drop 4).drop 4 with hrest
  have hrl : rest.length + 8 = p.conn.input.length := by
    have := congrArg List.length hin
    simp only [List.length_append, Magic, List.length_cons, List.length_nil] at this
    omega
  have hhi : hi < 256 := h3 hi (by rw [hin]; simp)
  have hlo : lo < 256 := h3 lo (by rw [hin]; simp)
  have hrm : ∀ x ∈ rest, x ∈ p.conn.input := by
    intro x hx
    rw [hin]
    exact List.mem_append_right _ hx
  have hstep := readFrames_step p b k p.conn.input.length c t hi lo rest hn h4 hin
  have hL2 : ([c, t, hi, lo] ++ List.drop 4 p.readBuf).length = bufSize := by
    simp only [List.length_append, List.length_cons, List.length_nil, List.length_drop]; omega
  simp only [Pipe.afterHeader, hL2] at hstep
  rw [Pipe.Read, hstep] at h
  clear hstep
  have rec : ∀ (Q : Pipe), Q.conn.input.length < p.conn.input.length → Q.ReadInv →
      Pipe.readFrames b k p.conn.input.length Q = Run.ret r → r.p.ReadInv ∧ Q.ReadExit b r := by
    intro Q g1 g2 g3
    rw [readFrames_eq_read _ _ Q _ g1] at g3
    exact ih Q g1 g2 r g3
  have hn' : rest.length < p.conn.input.length := by omega
  have hbyte : ∀ x ∈ rest, x < 256 := fun x hx => h3 x (hrm x hx)
  split_ifs at h with hst hlen hclose hconn hpanic htrans hping
  · split at h
    · rename_i c3 d3 e hd
      simp only [Run.ret.injEq] at h
      subst h
      refine fail _ _ hn ?_ ?_ (by simp)
      · show (copyAt _ 4 d3).length = bufSize
        rw [copyAt_length, hL2]
      · intro x hx
        exact hrm x (readFull_input_mem _ _ _ _ _ hd x hx)
    · rename_i c3 d3 hd
      have hsp : rest = d3 ++ c3.input := readFull_none_split _ _ _ _ hd
      have hl3 := readFull_none _ _ _ _ hd
      simp only at hl3
      obtain ⟨g1, g2⟩ := rec _ (by simp only; omega)
        ⟨by show 0 ≤ p.n; omega, by show p.n ≤ 65535; omega,
          by show (copyAt _ 4 d3).length = bufSize; rw [copyAt_length, hL2],
          fun x hx => hbyte x (by rw [hsp]; exact List.mem_append_right _ hx)⟩ h
      refine ⟨g1, readExit_lift p _ b r g2 (Magic ++ [c, t, hi, lo] ++ d3) hn (by exact hn) rfl ?_⟩
      show p.conn.input = Magic ++ [c, t, hi, lo] ++ d3 ++ c3.input
      rw [hin, hsp]
      simp only [List.append_assoc]
  · obtain ⟨g1, g2⟩ := rec _ hn' ⟨by show 0 ≤ p.n; omega, by show p.n ≤ 65535; omega, hL2, hbyte⟩ h
    exact ⟨g1, readExit_lift p _ b r g2 (Magic ++ [c, t, hi, lo]) hn (by exact hn) rfl hin⟩
  · simp only [Run.ret.injEq] at h
    subst h
    exact fail _ _ hn hL2 hrm (by simp)
  · have htt : t = p.term := by
      by_contra hne
      exact hst ⟨by rw [hconn]; decide, hne⟩
    subst hconn
    split at h
    · rename_i c3 d3 e hd
      simp only [Run.ret.injEq] at h
      subst h
      refine fail _ _ hn ?_ ?_ (by simp)
      · show (copySlice _ 4 _ d3).length = bufSize
        rw [copySlice_length _ _ _ _ (Nat.le_add_right 4 _), hL2]
      · intro x hx
        exact hrm x (readFull_input_mem _ _ _ _ _ hd x hx)
    · rename_i c3 d3 hd
      have hsp : rest = d3 ++ c3.input := readFull_none_split _ _ _ _ hd
      have hdl : d3.length = hi * 256 + lo := readFull_none_data _ _ _ _ hd
      simp only [Run.ret.injEq] at h
      subst h
      refine ⟨⟨by show 0 ≤ p.n; omega, by show p.n ≤ 65535; omega, ?_, ?_⟩,
        Or.inr (Or.inl ⟨hn, hn, rfl, [], d3, hi, lo, ?_, hdl, ?_⟩)⟩
      · show (copySlice _ 4 _ d3).length = bufSize
        rw [copySlice_length _ _ _ _ (Nat.le_add_right 4 _), hL2]
      · intro x hx
        exact hbyte x (by rw [hsp]; exact List.mem_append_right _ hx)
      · show p.conn.input = [] ++ (Magic ++ [CmdConn, p.term, hi, lo] ++ d3) ++ c3.input
        rw [hin, hsp, htt]
        simp only [List.append_assoc, List.nil_append]
      · show (((4 + (hi * 256 + lo) : Nat)) : Int) = ((4 + d3.length : Nat) : Int)
        rw [hdl]
  · have htt : t = p.term := by
      by_contra hne
      exact hst ⟨by rw [htrans]; decide, hne⟩
    subst htrans
    obtain ⟨g1, g2⟩ := rec _ hn'
      ⟨by show (0 : Int) ≤ ((hi * 256 + lo : Nat) : Int); omega,
        by show ((hi * 256 + lo : Nat) : Int) ≤ 65535; omega, hL2, hbyte⟩ h
    refine ⟨g1, ?_⟩
    by_cases hz : hi * 256 + lo = 0
    · refine readExit_lift p _ b r g2 (Magic ++ [CmdTrans, t, hi, lo]) hn ?_ rfl hin
      show ((hi * 256 + lo : Nat) : Int) = 0
      omega
    · exact readExit_lift_trans p _ b r g2 hi lo hn rfl (by omega) (by rw [← htt]; exact hin)
  · obtain ⟨g1, g2⟩ := rec _ hn' ⟨by show 0 ≤ p.n; omega, by show p.n ≤ 65535; omega, hL2, hbyte⟩ h
    exact ⟨g1, readExit_lift p _ b r g2 (Magic ++ [c, t, hi, lo]) hn (by exact hn) rfl hin⟩
  · simp only [Run.ret.injEq] at h
    subst h
    exact fail _ _ hn hL2 hrm (by simp)

/-- Whatever the input, a `Read` on a pipe that satisfies the read invariant leaves a pipe
that satisfies it, and ends in one of the three ways of `ReadExit`. -/
theorem read_exit (b : List Nat) (k : Nat) : ∀ (n : Nat) (p : Pipe),
    p.conn.input.length = n → p.ReadInv →
    ∀ r, p.Read b k = Run.ret r → r.p.ReadInv ∧ p.ReadExit b r := by
  intro n
  induction n using Nat.strong_induction_on with
  | _ n ih =>
    intro p hlen hp r h
    exact read_exit_step b k p
      (fun q hq hqi r' hr' => ih q.conn.input.length (hlen ▸ hq) q rfl hqi r' hr') hp r h

theorem readInv_of_eq (p q : Pipe) (h1 : q.n = p.n) (h2 : q.readBuf = p.readBuf)
    (h3 : q.conn.input = p.conn.input) (hp : p.ReadInv) : q.ReadInv := by
  unfold Pipe.ReadInv
  rw [h1, h2, h3]
  exact hp

theorem conn_write_input (c : Conn) (x : List Nat) : (c.write x).1.input = c.input := by
  unfold Conn.write
  split_ifs <;> rfl

theorem conn_write_input_of (c c' : Conn) (x : List Nat) (e : Option Err)
    (h : c.write x = (c', e)) : c'.input = c.input := by
  have := conn_write_input c x
  rw [h] at this
  exact this

theorem writeCmd_readInv (p : Pipe) (x : List Nat) (hp : p.ReadInv) : (p.writeCmd x).1.ReadInv :=
  readInv_of_eq p _ rfl rfl (conn_write_input _ _) hp

/-- The write loop touches neither the count of payload bytes due, nor the scratch buffer of
`Read`, nor the unread input. -/
theorem writeChunks_readInv (b : List Nat) : ∀ (fuel : Nat) (p : Pipe) (pos n : Nat),
    p.ReadInv → ∀ r, Pipe.writeChunks b fuel p pos n = Run.ret r → r.1.ReadInv := by
  intro fuel
  induction fuel with
  | zero =>
    intro p pos n hp r h
    rw [Pipe.writeChunks] at h
    split_ifs at h
    simp only [Run.ret.injEq] at h
    rw [← h]; exact hp
  | succ fuel ih =>
    intro p pos n hp r h
    rw [Pipe.writeChunks] at h
    split_ifs at h with hn
    · simp only at h
      split at h
      · rename_i c e hw
        simp only [Run.ret.injEq] at h
        rw [← h]
        exact readInv_of_eq p _ rfl rfl (conn_write_input_of _ _ _ _ hw) hp
      · rename_i c hw
        refine ih _ _ _ ?_ r h
        exact readInv_of_eq p _ rfl rfl (conn_write_input_of _ _ _ _ hw) hp
    · simp only [Run.ret.injEq] at h
      rw [← h]; exact hp

theorem handShake_readInv (sha : List Nat → List Nat) (p : Pipe) (addr secret : List Nat)
    (r : Pipe × Option Err) (hp : p.ReadInv)
    (h : Pipe.HandShake sha p addr secret = Run.ret r) : r.1.ReadInv := by
  unfold Pipe.HandShake at h
  simp only at h
  split_ifs at h <;>
  · simp only [Run.ret.injEq] at h
    rw [← h]
    exact writeCmd_readInv _ _ hp

theorem waitForHandShake_readInv (sha : List Nat → List Nat) (p : Pipe) (secret : List Nat)
    (k : Nat) (r : Pipe × List Nat × Option Err) (hp : p.ReadInv)
    (h : Pipe.WaitForHandShake sha p secret k = Run.ret r) : r.1.ReadInv := by
  unfold Pipe.WaitForHandShake at h
  simp only at h
  split at h
  · simp at h
  · simp at h
  · rename_i r0 hr
    have hr0 := (read_exit _ k _ (p.setState InUse) rfl hp r0 hr).1
    split_ifs at h <;>
    · simp only [Run.ret.injEq] at h
      rw [← h]
      exact hr0

/-- Every pipe the package can bring about satisfies the read invariant. -/
theorem reachable_readInv (p : Pipe) (h : p.Reachable) : p.ReadInv := by
  induction h with
  | new conn timeout now scn hb =>
    exact ⟨by show (0 : Int) ≤ 0; decide, by show (0 : Int) ≤ 65535; decide,
      List.length_replicate _ _, hb⟩
  | input p bytes _ hb ih => exact ⟨ih.1, ih.2.1, ih.2.2.1, hb⟩
  | read p b k r _ hr ih => exact (read_exit b k _ p rfl ih r hr).1
  | write p b r _ hr ih => exact writeChunks_readInv b _ p _ _ ih r hr
  | handShake sha p addr secret r _ hr ih => exact handShake_readInv sha p addr secret r ih hr
  | waitForHandShake sha p secret k r _ hr ih =>
    exact waitForHandShake_readInv sha p secret k r ih hr
  | tryInterruptRemote p _ ih => exact writeCmd_readInv _ _ ih
  | tryPing p _ ih => exact writeCmd_readInv _ _ ih
  | interruptLocal p _ ih =>
    unfold Pipe.interruptLocal
    split_ifs
    · exact ih
    · exact ih
  | reset p _ ih => exact ih
  | close p _ ih =>
    unfold Pipe.Close
    split_ifs
    · exact ih
    · exact ih

/-- A `CmdClose` frame of the pipe's term on a frame boundary. -/
theorem read_close_frame (p : Pipe) (b S : List Nat) (k hi lo : Nat) (hn : p.n = 0)
    (hb : 4 ≤ p.readBuf.length)
    (hin : p.conn.input = Magic ++ [CmdClose, p.term, hi, lo] ++ S) :
    p.Read b k = Run.ret { p := p.afterHeader [CmdClose, p.term, hi, lo] S, b := b, n := 0,
                           err := some Err.interrupted } := by
  have hstep := readFrames_step p b k p.conn.input.length CmdClose p.term hi lo S hn hb hin
  simp only [ne_eq, not_true_eq_false, and_false, if_false, if_true] at hstep
  rw [Pipe.Read, hstep]

/-- C21. Interrupts are only observed at a frame boundary. For every pipe the package can
bring about, whatever the unread input: the count `n` of payload bytes due is between 0 and
65535, before and after every `Read`; `Read` always ends within its loop budget; every `Read`
that returns ends in one of the three ways of `ReadExit`, so a `Read` that reaches the
payload read hands over at most `min(len(b), pending)` bytes, all of them bytes of the one
`CmdTrans` frame in progress (`pending` being `n` when `Read` began in the middle of a frame,
and the LENGTH of the frame whose header it has just taken otherwise), and leaves `n` at
`pending` less that number; and a `Read` that returns `Interrupted` began on a frame
boundary, returns no byte and leaves `n` at 0, so that after the `reset` that follows the
next term begins with `n = 0`. -/
theorem interrupt_at_frame_boundary (p : Pipe) (hp : p.Reachable) (b : List Nat) (k : Nat) :
    (0 ≤ p.n ∧ p.n ≤ 65535) ∧
    p.Read b k ≠ Run.exhausted ∧
    ∀ r, p.Read b k = Run.ret r →
      (0 ≤ r.p.n ∧ r.p.n ≤ 65535) ∧ p.ReadExit b r ∧
      (r.err = some Err.interrupted →
        p.n = 0 ∧ r.n = 0 ∧ r.b = b ∧ r.p.n = 0 ∧ (r.p.reset).1.n = 0 ∧
          (r.p.reset).1.term = (p.term + 1) % 256) := by
  have hinv := reachable_readInv p hp
  refine ⟨⟨hinv.1, hinv.2.1⟩, read_ne_exhausted p b k, ?_⟩
  intro r hr
  obtain ⟨g1, g2⟩ := read_exit b k _ p rfl hinv r hr
  refine ⟨⟨g1.1, g1.2.1⟩, g2, ?_⟩
  intro he
  have hterm : r.p.term = p.term := (readFrames_fields b k _ p r hr).2.1
  rcases g2 with ⟨a1, a2, a3, a4, -⟩ | ⟨-, -, a3, -⟩ | ⟨_, _, _, _, _, _, _, _, _, _, _, a9⟩
  · exact ⟨a1, a3, a4, a2, a2, by show (r.p.term + 1) % 256 = _; rw [hterm]⟩
  · rw [he] at a3
    simp at a3
  · rw [he] at a9
    simp at a9

/-- Witness for C21, on two fresh pipes. On the wire of the first a `CmdClose` frame of term 0
followed by one more byte: `Read` returns `Interrupted`, the byte is left unread and `n` is 0.
On the wire of the second a `CmdTrans` frame carrying two bytes, the caller's buffer having
room for one: `Read` hands over one byte and leaves `n` at 1. -/
theorem interrupt_at_frame_boundary_witness :
    (∃ r, (New ⟨Magic ++ [CmdClose, 0, 0, 0] ++ [7], [], false, 0⟩ 0 0 1).Read [0, 0] 1 =
          Run.ret r ∧
        r.err = some Err.interrupted ∧ r.p.conn.input = [7] ∧
        (0 ≤ r.p.n ∧ r.p.n ≤ 65535) ∧
        (New ⟨Magic ++ [CmdClose, 0, 0, 0] ++ [7], [], false, 0⟩ 0 0 1).ReadExit [0, 0] r ∧
        (New ⟨Magic ++ [CmdClose, 0, 0, 0] ++ [7], [], false, 0⟩ 0 0 1).n = 0 ∧ r.n = 0 ∧
        r.b = [0, 0] ∧ r.p.n = 0 ∧ (r.p.reset).1.n = 0 ∧
        (r.p.reset).1.term =
          ((New ⟨Magic ++ [CmdClose, 0, 0, 0] ++ [7], [], false, 0⟩ 0 0 1).term + 1) % 256) ∧
    (∃ r, (New ⟨frame CmdTrans 0 [9, 8] ++ [], [], false, 0⟩ 0 0 1).Read (List.replicate 1 0) 1 =
          Run.ret r ∧
        r.err = none ∧ r.n = 1 ∧ r.p.n = 1 ∧ r.p.conn.input = [8] ∧
        (0 ≤ r.p.n ∧ r.p.n ≤ 65535) ∧
        (New ⟨frame CmdTrans 0 [9, 8] ++ [], [], false, 0⟩ 0 0 1).ReadExit
          (List.replicate 1 0) r) := by
  constructor
  · have hr := read_close_frame (New ⟨Magic ++ [CmdClose, 0, 0, 0] ++ [7], [], false, 0⟩ 0 0 1)
      [0, 0] [7] 1 0 0 rfl (by rw [New, List.length_replicate]; decide) rfl
    have ht := (interrupt_at_frame_boundary
      (New ⟨Magic ++ [CmdClose, 0, 0, 0] ++ [7], [], false, 0⟩ 0 0 1)
      (Pipe.Reachable.new _ _ _ _ (by decide)) [0, 0] 1).2.2 _ hr
    exact ⟨_, hr, rfl, rfl, ht.1, ht.2.1, ht.2.2 rfl⟩
  · obtain ⟨m, q, h1, h2, -, hr, hq1, hq2, -⟩ :=
      read_trans_frame (New ⟨frame CmdTrans 0 [9, 8] ++ [], [], false, 0⟩ 0 0 1) [9, 8] [] 1 1 rfl
        (List.length_replicate _ _) (by decide) (by decide) (by decide) rfl
    have hm : m = 1 := by omega
    subst hm
    have ht := (interrupt_at_frame_boundary
      (New ⟨frame CmdTrans 0 [9, 8] ++ [], [], false, 0⟩ 0 0 1)
      (Pipe.Reachable.new _ _ _ _ (by decide)) (List.replicate 1 0) 1).2.2 _ hr
    exact ⟨_, hr, rfl, rfl, hq2, hq1, ht.1, ht.2.1⟩

end Sproxy
